import Mathlib

/-!
# Verification development for the e-mail pipeline (`spammer.go`), the search server
(`server.go`) and the text game (`main.go`)

A shallow embedding of the pipeline engine and the four pipeline stages of
`Task 2 Конвейерная обработка писем/spammer.go` (namespace `Spammer`), of the handler of
`Task 3 Поисковой сервис/server.go` (namespace `Search`) and of the command interpreter of
`Task1 Текстовая игра/main.go` (namespace `Game`), together with theorems about them.  The
definitions of the three programs come first, the theorems after them.

Conventions of the embedding.

* A channel of `interface{}` values is the list of the items sent on it, in order; an item is
  a value of the sum type `Item`.
* A collaborator (`GetUser`, `GetMessages`, `HasSpam`) is a function parameter.  A fallible
  collaborator called several times by one worker also receives the number of the call, so
  that successive calls may answer differently.
* Goroutines are interleaved by an explicit schedule: a list of events, each executed by a
  step function that refuses an event the goroutine could not perform in that state.
* Package-level variables are the fields of a state that is passed and returned.
* Routines of the Go standard library (`sort.Slice`, `sort.SliceStable`, `strconv.Atoi`,
  `strings.TrimSpace`, `strings.Contains`, `strings.Split`) are represented by definitions
  of their own.
-/

namespace Spammer

/-! ## Data model -/

/-- Modelled from the spec: the type declaration of `MsgID` is not part of the sources; a
message id is an unsigned number. -/
abbrev MsgID := Nat

/-- Modelled from the spec: the type declaration of `User` is not part of the sources; the
stage code only reads the field `Email`, the identity key used for deduplication. -/
structure User where
  ID : Nat
  Email : String
  deriving DecidableEq, Repr

/-- Modelled from the spec: the type declaration of `MsgData` is not part of the sources; the
stage code builds it as `MsgData{msgg, isSpam}` and reads the fields `ID` and `HasSpam`. -/
structure MsgData where
  ID : MsgID
  HasSpam : Bool
  deriving DecidableEq, Repr

/-- A value travelling on a `chan interface{}`: one constructor per dynamic type the stages
test for, and `other` for a value of any other type. -/
inductive Item where
  | str (s : String)
  | user (u : User)
  | msgID (m : MsgID)
  | msgData (d : MsgData)
  | other (tag : Nat)
  deriving DecidableEq, Repr

/-! ## `CombineResults` -/

/-- `Bool2int` of the source. -/
def Bool2int (b : Bool) : Int :=
  if b then 1 else 0

/-- The comparison closure handed to `sort.Slice` in `CombineResults`, on the two elements
`a := allData[i]`, `b := allData[j]`. -/
def combineLess (a b : MsgData) : Bool :=
  if Bool2int a.HasSpam > Bool2int b.HasSpam then true
  else if Bool2int a.HasSpam < Bool2int b.HasSpam then false
  else decide (a.ID ≤ b.ID)

/-- Inner loop of the insertion sort of Go's `sort` package
(`for j := i; j > a && less(j, j-1); j-- { swap(j, j-1) }`): the element `x` stands right
after the already processed prefix and moves towards the front while `less x prev` holds.
The prefix is passed and returned in reverse order (nearest neighbour first). -/
def insertLeft {α : Type} (less : α → α → Bool) (x : α) : List α → List α
  | [] => [x]
  | p :: rest => if less x p then p :: insertLeft less x rest else x :: p :: rest

/-- The routine `insertionSortLessFunc` of Go's `sort` package, which `sort.Slice` runs on a
slice of at most 12 elements; `sort.Slice` belongs to the Go standard library and is
represented by this routine for every length. -/
def insertionSortLessFunc {α : Type} (less : α → α → Bool) (data : List α) : List α :=
  (data.foldl (fun acc x => insertLeft less x acc) []).reverse

/-- The call `sort.Slice(allData, less)`. -/
def sortSlice {α : Type} (less : α → α → Bool) (data : List α) : List α :=
  insertionSortLessFunc less data

/-- Rendering of a `bool` by the verb `%v`. -/
def fmtBool (b : Bool) : String :=
  if b then "true" else "false"

/-- Modelled from the spec: `fmt.Sprintf("%v %v", data.HasSpam, data.ID)`; the declaration of
`MsgID` is not part of the sources, the id is rendered in decimal. -/
def fmtLine (d : MsgData) : String :=
  fmtBool d.HasSpam ++ " " ++ Nat.repr d.ID

/-- The receive loop of `CombineResults`: `allData` accumulated so far and the number of
items received so far.  The result is `none` when the loop left the function through the
`return` of the type check, together with the number of items received from `in`. -/
def combineCollect : List Item → List MsgData → Nat → Option (List MsgData) × Nat
  | [], allData, n => (some allData, n)
  | Item.msgData d :: rest, allData, n => combineCollect rest (allData ++ [d]) (n + 1)
  | Item.str _ :: _, _, n => (none, n + 1)
  | Item.user _ :: _, _, n => (none, n + 1)
  | Item.msgID _ :: _, _, n => (none, n + 1)
  | Item.other _ :: _, _, n => (none, n + 1)

/-- What one run of `CombineResults` did: how many items it received from `in` and the
strings it sent on `out`, in order. -/
structure CombineRun where
  received : Nat
  out : List String
  deriving DecidableEq, Repr

/-- `CombineResults` on the input stream `input`. -/
def CombineResults (input : List Item) : CombineRun :=
  match combineCollect input [] 0 with
  | (none, n) => { received := n, out := [] }
  | (some allData, n) => { received := n, out := (sortSlice combineLess allData).map fmtLine }

/-- The order the specification asks of two items `a`, `b` with `a` emitted before `b`: a
non-spam item is never followed by a spam item, and with equal flags the ids ascend. -/
def SpamFirstThenId (a b : MsgData) : Prop :=
  (a.HasSpam = false → b.HasSpam = false) ∧ (a.HasSpam = b.HasSpam → a.ID ≤ b.ID)

/-- Whether the type assertion `item.(MsgData)` succeeds. -/
def Item.isMsgData : Item → Bool
  | Item.msgData _ => true
  | Item.str _ => false
  | Item.user _ => false
  | Item.msgID _ => false
  | Item.other _ => false

instance decSpamFirstThenId : DecidableRel SpamFirstThenId :=
  fun a b => by unfold SpamFirstThenId; infer_instance

/-! ## `CheckSpam`: the worker goroutine -/

/-- What a `CheckSpam` worker does besides sending its result: a call of `HasSpam` (with the
number of the attempt that made it) or a `time.Sleep` (with its length in milliseconds). -/
inductive WorkerEvent where
  | call (attempt : Nat)
  | sleep (ms : Nat)
  deriving DecidableEq, Repr

/-- The variables of the retry loop: `isSpam`, `err` (`none` is `nil`, `some e` an error
whose `Error()` text is `e`) and the trace of calls and sleeps made so far. -/
structure RetryState where
  isSpam : Bool
  err : Option String
  trace : List WorkerEvent
  deriving DecidableEq, Repr

/-- The loop `for attempt := 0; attempt < 3; attempt++ { ... }` of the worker, over the values
of `attempt` still to come.  `hasSpam attempt msg` is the pair `(isSpam, err)` returned by the
call `HasSpam(msgg)` of that attempt. -/
def retryLoop (hasSpam : Nat → MsgID → Bool × Option String) (msg : MsgID) :
    List Nat → RetryState → RetryState
  | [], st => st
  | attempt :: later, st =>
    let r := hasSpam attempt msg
    let st1 : RetryState :=
      { isSpam := r.1, err := r.2, trace := st.trace ++ [WorkerEvent.call attempt] }
    match r.2 with
    | none => st1
    | some e =>
      if e = "too many requests" then
        retryLoop hasSpam msg later
          { st1 with trace := st1.trace ++ [WorkerEvent.sleep (50 * (1 <<< attempt))] }
      else st1

/-- What one worker goroutine did: its calls and sleeps in order, and the value it sent on
`out` (`none` when it returned without sending). -/
structure WorkerRun where
  trace : List WorkerEvent
  sent : Option MsgData
  deriving DecidableEq, Repr

/-- The body of the worker goroutine between acquiring and releasing the gate slot. -/
def checkSpamWorker (hasSpam : Nat → MsgID → Bool × Option String) (msg : MsgID) : WorkerRun :=
  let st := retryLoop hasSpam msg (List.range 3) { isSpam := false, err := none, trace := [] }
  { trace := st.trace
    sent := match st.err with
      | some _ => none
      | none => some { ID := msg, HasSpam := st.isSpam } }

/-- Number of `HasSpam` calls in a trace. -/
def callCount : List WorkerEvent → Nat
  | [] => 0
  | WorkerEvent.call _ :: t => callCount t + 1
  | WorkerEvent.sleep _ :: t => callCount t

/-- Total length in milliseconds of the sleeps in a trace. -/
def sleepTotal : List WorkerEvent → Nat
  | [] => 0
  | WorkerEvent.call _ :: t => sleepTotal t
  | WorkerEvent.sleep ms :: t => ms + sleepTotal t

/-- The trace of a worker whose first `k` attempts were followed by the backoff sleep and
whose attempt `k` was not: `call 0, sleep 50, call 1, sleep 100, ..., call k`. -/
def backoffTrace : Nat → List WorkerEvent
  | 0 => [WorkerEvent.call 0]
  | k + 1 => backoffTrace k ++ [WorkerEvent.sleep (50 * 2 ^ k), WorkerEvent.call (k + 1)]

/-! ## `CheckSpam`: the stage -/

/-- The items of the input the stage starts a worker for (`item.(MsgID)` succeeds). -/
def checkSpamInputs : List Item → List MsgID
  | [] => []
  | Item.msgID m :: rest => m :: checkSpamInputs rest
  | Item.str _ :: rest => checkSpamInputs rest
  | Item.user _ :: rest => checkSpamInputs rest
  | Item.msgData _ :: rest => checkSpamInputs rest
  | Item.other _ :: rest => checkSpamInputs rest

/-- A worker goroutine of the stage: its number (the position of its message among the
messages of the input) and its message. -/
structure Worker where
  idx : Nat
  msg : MsgID
  deriving DecidableEq, Repr

/-- The workers the receive loop starts for the messages it receives, numbered from `i`. -/
def spawnWorkers : Nat → List MsgID → List Worker
  | _, [] => []
  | i, m :: rest => { idx := i, msg := m } :: spawnWorkers (i + 1) rest

/-- A scheduling step of the stage: worker `w` puts a token into `globalSpamSemaphore`, runs
its body (retry loop and send), or runs its deferred receive from `globalSpamSemaphore`. -/
inductive CSEvent where
  | acquire (w : Worker)
  | body (w : Worker)
  | release (w : Worker)
  deriving DecidableEq, Repr

/-- The state of the stage: the workers by program point, the number of tokens in the
buffered channel `globalSpamSemaphore`, and the items sent on `out` so far. -/
structure CSState where
  spawned : List Worker
  holding : List Worker
  exiting : List Worker
  finished : List Worker
  gate : Nat
  out : List Item
  deriving DecidableEq, Repr

/-- One scheduling step; `none` when the worker is not at that program point, for `acquire`
when the channel of capacity `cap` is full (the send blocks), and for `release` when the
channel is empty (the receive blocks).  `hasSpam i` answers the calls of worker number `i`. -/
def csStep (cap : Nat) (hasSpam : Nat → Nat → MsgID → Bool × Option String) :
    CSEvent → CSState → Option CSState
  | CSEvent.acquire w, s =>
    if w ∈ s.spawned ∧ s.gate < cap then
      some { s with spawned := s.spawned.erase w, holding := s.holding ++ [w], gate := s.gate + 1 }
    else none
  | CSEvent.body w, s =>
    if w ∈ s.holding then
      some { s with
        holding := s.holding.erase w
        exiting := s.exiting ++ [w]
        out := match (checkSpamWorker (hasSpam w.idx) w.msg).sent with
          | some d => s.out ++ [Item.msgData d]
          | none => s.out }
    else none
  | CSEvent.release w, s =>
    if w ∈ s.exiting ∧ 0 < s.gate then
      some { s with exiting := s.exiting.erase w, finished := s.finished ++ [w], gate := s.gate - 1 }
    else none

/-- A schedule executed from a state; `none` when one of its steps is refused. -/
def csRun (cap : Nat) (hasSpam : Nat → Nat → MsgID → Bool × Option String) :
    List CSEvent → CSState → Option CSState
  | [], s => some s
  | e :: es, s =>
    match csStep cap hasSpam e s with
    | some s1 => csRun cap hasSpam es s1
    | none => none

/-- The stage after its receive loop has started one worker per message of the input. -/
def csInit (input : List Item) : CSState :=
  { spawned := spawnWorkers 0 (checkSpamInputs input), holding := [], exiting := [], finished := []
    gate := 0, out := [] }

/-- The condition under which `wg.Wait()` returns: every worker has finished. -/
def csDone (s : CSState) : Bool :=
  s.spawned.isEmpty && s.holding.isEmpty && s.exiting.isEmpty

/-- The results of the workers whose retry loop ended in success, in input order. -/
def checkSpamSuccesses (hasSpam : Nat → Nat → MsgID → Bool × Option String)
    (ws : List Worker) : List Item :=
  ws.filterMap (fun w => (checkSpamWorker (hasSpam w.idx) w.msg).sent.map Item.msgData)

/-- The schedule in which the workers run one after the other, in input order. -/
def csSequential (ws : List Worker) : List CSEvent :=
  ws.flatMap (fun w => [CSEvent.acquire w, CSEvent.body w, CSEvent.release w])

/-! ## `SelectUsers` -/

/-- The items of the input the stage starts a goroutine for (`item.(string)` succeeds). -/
def selectUsersInputs : List Item → List String
  | [] => []
  | Item.str s :: rest => s :: selectUsersInputs rest
  | Item.user _ :: rest => selectUsersInputs rest
  | Item.msgID _ :: rest => selectUsersInputs rest
  | Item.msgData _ :: rest => selectUsersInputs rest
  | Item.other _ :: rest => selectUsersInputs rest

/-- A scheduling step of the stage: a goroutine holding the result `u` of `GetUser` runs the
critical section between `mtx.Lock()` and `mtx.Unlock()`, or a goroutine that left the
critical section without returning performs `out <- res`. -/
inductive SUEvent where
  | lock (u : User)
  | send (u : User)
  deriving DecidableEq, Repr

/-- The state of the stage: the results of the goroutines that have not yet taken the lock,
the results of those waiting to send, the keys of the map `processed`, and the items sent on
`out` so far. -/
structure SUState where
  resolved : List User
  sending : List User
  processed : List String
  out : List Item
  deriving DecidableEq, Repr

/-- One scheduling step; `none` when no goroutine is at that program point with that user. -/
def suStep : SUEvent → SUState → Option SUState
  | SUEvent.lock u, s =>
    if u ∈ s.resolved then
      if u.Email ∈ s.processed then
        some { s with resolved := s.resolved.erase u }
      else
        some { s with
          resolved := s.resolved.erase u
          processed := u.Email :: s.processed
          sending := s.sending ++ [u] }
    else none
  | SUEvent.send u, s =>
    if u ∈ s.sending then
      some { s with sending := s.sending.erase u, out := s.out ++ [Item.user u] }
    else none

/-- A schedule executed from a state; `none` when one of its steps is refused. -/
def suRun : List SUEvent → SUState → Option SUState
  | [], s => some s
  | e :: es, s =>
    match suStep e s with
    | some s1 => suRun es s1
    | none => none

/-- The stage after its receive loop has started one goroutine per string of the input and
each has received its answer from `GetUser`. -/
def suInit (GetUser : String → User) (input : List Item) : SUState :=
  { resolved := (selectUsersInputs input).map GetUser, sending := [], processed := [], out := [] }

/-- The condition under which `wg.Wait()` returns: every goroutine has finished. -/
def suDone (s : SUState) : Bool :=
  s.resolved.isEmpty && s.sending.isEmpty

/-- The users among the items of a channel. -/
def itemUsers : List Item → List User
  | [] => []
  | Item.user u :: rest => u :: itemUsers rest
  | Item.str _ :: rest => itemUsers rest
  | Item.msgID _ :: rest => itemUsers rest
  | Item.msgData _ :: rest => itemUsers rest
  | Item.other _ :: rest => itemUsers rest

/-- The schedule in which the goroutines run one after the other, in input order; a
goroutine whose e-mail is already among `seen` returns inside the critical section. -/
def suSequential : List User → List String → List SUEvent
  | [], _ => []
  | u :: rest, seen =>
    if u.Email ∈ seen then SUEvent.lock u :: suSequential rest seen
    else SUEvent.lock u :: SUEvent.send u :: suSequential rest (u.Email :: seen)

/-! ## `SelectMessages`: the receive loop -/

/-- A Go slice value: the backing array it points to (by its index in the heap), its length
and its capacity. -/
structure Slice where
  arr : Nat
  len : Nat
  cap : Nat
  deriving DecidableEq, Repr

/-- The backing arrays allocated so far; array number `i` is the `i`-th element. -/
abbrev Heap := List (List User)

/-- The zero value of `User`, which fills a freshly made array. -/
def zeroUser : User :=
  { ID := 0, Email := "" }

/-- The elements of a slice, read from the heap. -/
def sliceRead (h : Heap) (s : Slice) : List User :=
  (h.getD s.arr []).take s.len

/-- The built-in `append(s, us...)`: when the capacity suffices the elements are written into
the backing array of `s` right after its length; otherwise a new array receives the old
elements followed by the new ones.  (The capacity Go gives the new array may be larger than
needed; no code here observes it.) -/
def goAppend (h : Heap) (s : Slice) (us : List User) : Heap × Slice :=
  if s.len + us.length ≤ s.cap then
    let a := h.getD s.arr []
    (h.set s.arr (a.take s.len ++ us ++ a.drop (s.len + us.length)),
      { s with len := s.len + us.length })
  else
    (h ++ [sliceRead h s ++ us],
      { arr := h.length, len := s.len + us.length, cap := s.len + us.length })

/-- The composite literal `[]User{}`: an empty slice of capacity 0. -/
def emptySlice : Slice :=
  { arr := 0, len := 0, cap := 0 }

/-- The variables of the receive loop of `SelectMessages`: the heap, the accumulator `batch`
and, in start order, the slice `curBatch` each started goroutine received. -/
structure SMState where
  heap : Heap
  batch : Slice
  dispatched : List Slice
  deriving DecidableEq, Repr

/-- The call `processBatch(batch)` as far as the calling goroutine executes it: the argument
`append([]User{}, b...)` of the `go` statement is evaluated and the goroutine is started
with it. -/
def processBatchStart (st : SMState) : SMState :=
  let r := goAppend st.heap emptySlice (sliceRead st.heap st.batch)
  { st with heap := r.1, dispatched := st.dispatched ++ [r.2] }

/-- The loop `for item := range in { ... }` of `SelectMessages`. -/
def selectMessagesLoop : List Item → SMState → SMState
  | [], st => st
  | Item.user usr :: rest, st =>
    let r := goAppend st.heap st.batch [usr]
    let st1 : SMState := { st with heap := r.1, batch := r.2 }
    if st1.batch.len = 2 then
      let st2 := processBatchStart st1
      selectMessagesLoop rest { st2 with batch := { st2.batch with len := 0 } }
    else selectMessagesLoop rest st1
  | Item.str _ :: rest, st => selectMessagesLoop rest st
  | Item.msgID _ :: rest, st => selectMessagesLoop rest st
  | Item.msgData _ :: rest, st => selectMessagesLoop rest st
  | Item.other _ :: rest, st => selectMessagesLoop rest st

/-- The state at entry of the loop: `batch := make([]User, 0, 2)`. -/
def smInit : SMState :=
  { heap := [[zeroUser, zeroUser]], batch := { arr := 0, len := 0, cap := 2 }, dispatched := [] }

/-- `SelectMessages` up to `wg.Wait()`: the loop, then the dispatch of a non-empty rest. -/
def selectMessagesDispatch (input : List Item) : SMState :=
  let st := selectMessagesLoop input smInit
  if st.batch.len > 0 then processBatchStart st else st

/-- The contents of the batches of the started goroutines, in start order, as they stand in
the heap of state `st`. -/
def batchContents (st : SMState) : List (List User) :=
  st.dispatched.map (sliceRead st.heap)

/-! ## `SelectMessages`: the batch goroutine -/

/-- What one batch goroutine did: the argument lists of its `GetMessages` calls and the
message ids it sent on `out`, both in order. -/
structure BatchRun where
  calls : List (List User)
  out : List MsgID
  deriving DecidableEq, Repr

/-- The fallback loop `for _, u := range curBatch { ... }`; `n` is the number of calls the
goroutine has made so far.  `getMessages n us` is the pair `(res, err)` returned by the
goroutine's call number `n`, made with arguments `us`. -/
def fallbackLoop (getMessages : Nat → List User → List MsgID × Option String) :
    List User → Nat → BatchRun → BatchRun
  | [], _, run => run
  | u :: rest, n, run =>
    let r := getMessages n [u]
    fallbackLoop getMessages rest (n + 1)
      { calls := run.calls ++ [[u]]
        out := match r.2 with
          | none => run.out ++ r.1
          | some _ => run.out }

/-- The body of the goroutine started by `processBatch` with argument `curBatch`. -/
def processBatchWorker (getMessages : Nat → List User → List MsgID × Option String)
    (curBatch : List User) : BatchRun :=
  let r := getMessages 0 curBatch
  match r.2 with
  | some _ => fallbackLoop getMessages curBatch 1 { calls := [curBatch], out := [] }
  | none => { calls := [curBatch], out := r.1 }

/-- The message ids the fallback calls for the users `us` deliver, the first of them being
call number `n`: the answer of each successful call, nothing for a failed one. -/
def fallbackResults (getMessages : Nat → List User → List MsgID × Option String) :
    List User → Nat → List MsgID
  | [], _ => []
  | u :: rest, n =>
    (match (getMessages n [u]).2 with
      | none => (getMessages n [u]).1
      | some _ => []) ++ fallbackResults getMessages rest (n + 1)

/-! ## `CheckSpam`: the process-wide gate -/

/-- The package-level variables of `spammer.go`: the identity of the channel object held by
`globalSpamSemaphore` (the number of the `make` call that created it), the capacity of that
channel, the flag `semaphoreInitialized`, and the number of `make` calls for gate channels
executed so far. -/
structure Globals where
  globalSpamSemaphore : Nat
  semaphoreCap : Nat
  semaphoreInitialized : Bool
  made : Nat
  deriving DecidableEq, Repr

/-- The variables after package initialisation, `maxAsync` being the constant
`HasSpamMaxAsyncRequests` (whose declaration is not part of the sources):
`globalSpamSemaphore = make(chan struct{}, HasSpamMaxAsyncRequests)`. -/
def globalsStart (maxAsync : Nat) : Globals :=
  { globalSpamSemaphore := 0, semaphoreCap := maxAsync, semaphoreInitialized := false, made := 1 }

/-- The section of `CheckSpam` between `globalSpamMutex.Lock()` and `globalSpamMutex.Unlock()`. -/
def gateInit (maxAsync : Nat) (g : Globals) : Globals :=
  if !g.semaphoreInitialized then
    { globalSpamSemaphore := g.made, semaphoreCap := maxAsync, semaphoreInitialized := true
      made := g.made + 1 }
  else g

/-- The process as far as `CheckSpam` is concerned: the package-level variables, the workers
of all invocations of `CheckSpam` so far (`stage.gate` is the number of tokens in the channel
that `globalSpamSemaphore` holds), and the number the next worker will get. -/
structure Proc where
  globals : Globals
  stage : CSState
  nextIdx : Nat
  deriving DecidableEq, Repr

/-- A step of the process: an invocation of `CheckSpam` passes the gate initialisation and
starts its workers for the messages of `input`, or a worker of some invocation takes a step. -/
inductive ProcEvent where
  | invoke (input : List Item)
  | worker (e : CSEvent)
  deriving DecidableEq, Repr

/-- One step of the process.  A worker sends to and receives from the channel that
`globalSpamSemaphore` holds at that moment; a channel made by the initialisation is empty. -/
def procStep (maxAsync : Nat) (hasSpam : Nat → Nat → MsgID → Bool × Option String) :
    ProcEvent → Proc → Option Proc
  | ProcEvent.invoke input, p =>
    let ws := spawnWorkers p.nextIdx (checkSpamInputs input)
    some
      { globals := gateInit maxAsync p.globals
        stage := { p.stage with
          spawned := p.stage.spawned ++ ws
          gate := if p.globals.semaphoreInitialized then p.stage.gate else 0 }
        nextIdx := p.nextIdx + ws.length }
  | ProcEvent.worker e, p =>
    match csStep p.globals.semaphoreCap hasSpam e p.stage with
    | some st => some { p with stage := st }
    | none => none

/-- A sequence of steps executed from a state; `none` when one of them is refused. -/
def procRun (maxAsync : Nat) (hasSpam : Nat → Nat → MsgID → Bool × Option String) :
    List ProcEvent → Proc → Option Proc
  | [], p => some p
  | e :: es, p =>
    match procStep maxAsync hasSpam e p with
    | some p1 => procRun maxAsync hasSpam es p1
    | none => none

/-- The process before the first invocation of `CheckSpam`. -/
def procStart (maxAsync : Nat) : Proc :=
  { globals := globalsStart maxAsync
    stage := { spawned := [], holding := [], exiting := [], finished := [], gate := 0, out := [] }
    nextIdx := 0 }

/-! ## Ill-typed items -/

/-- Whether the type assertion `item.(string)` succeeds. -/
def Item.isStr : Item → Bool
  | Item.str _ => true
  | Item.user _ => false
  | Item.msgID _ => false
  | Item.msgData _ => false
  | Item.other _ => false

/-- Whether the type assertion `item.(User)` succeeds. -/
def Item.isUser : Item → Bool
  | Item.user _ => true
  | Item.str _ => false
  | Item.msgID _ => false
  | Item.msgData _ => false
  | Item.other _ => false

/-- Whether the type assertion `item.(MsgID)` succeeds. -/
def Item.isMsgID : Item → Bool
  | Item.msgID _ => true
  | Item.str _ => false
  | Item.user _ => false
  | Item.msgData _ => false
  | Item.other _ => false

/-! ## `RunPipeline`: the wiring -/

/-- A statement `go func(cmd, inCh, outCh) {...}(command, in, out)` of `RunPipeline`: the
position of the command in `cmds` and the two channels handed to it.  A channel is
identified by the number of the `make` call that created it, counted from 0. -/
structure Spawn where
  cmd : Nat
  inCh : Nat
  outCh : Nat
  deriving DecidableEq, Repr

/-- The variables of `RunPipeline` during its loop: the number of channels made so far, the
variable `in`, the variable `lastOut` (`none` is the nil channel), the counter of the wait
group and the goroutines started so far. -/
structure Wiring where
  made : Nat
  inVar : Nat
  lastOut : Option Nat
  wg : Nat
  spawns : List Spawn
  deriving DecidableEq, Repr

/-- The loop `for _, command := range cmds { ... }` of `RunPipeline` over the commands still
to come, `i` being the position of the next one. -/
def runPipelineLoop {κ : Type} : List κ → Nat → Wiring → Wiring
  | [], _, w => w
  | _ :: rest, i, w =>
    runPipelineLoop rest (i + 1)
      { made := w.made + 1
        inVar := w.made
        lastOut := some w.made
        wg := w.wg + 1
        spawns := w.spawns ++ [{ cmd := i, inCh := w.inVar, outCh := w.made }] }

/-- `RunPipeline` up to the end of its loop: `in := make(chan interface{})`, then the loop. -/
def runPipelineWiring {κ : Type} (cmds : List κ) : Wiring :=
  runPipelineLoop cmds 0 { made := 1, inVar := 0, lastOut := none, wg := 0, spawns := [] }

/-! ## `RunPipeline`: the run -/

/-- What a stage function has done on its two channels so far: the items it received, whether
a receive has reported the end of the input, and the items it sent. -/
structure Local where
  received : List Item
  eof : Bool
  sent : List Item
  deriving DecidableEq, Repr

/-- A stage function as the engine sees it: given what it has done on its channels so far,
whether it is ready to receive, to send a given item, to return.  A stage function performs
no other operation on its channels. -/
structure Stage where
  canRecv : Local → Bool
  canSend : Local → Item → Bool
  canRet : Local → Bool

/-- The program points of the goroutine `defer wg.Done(); defer close(outCh); cmd(inCh, outCh)`:
inside `cmd`, after its return, after the deferred `close(outCh)`, after the deferred
`wg.Done()`. -/
inductive GStatus where
  | running
  | returned
  | closedOut
  | done
  deriving DecidableEq, Repr

/-- A goroutine started by `RunPipeline`. -/
structure Goroutine where
  spawn : Spawn
  status : GStatus
  loc : Local
  deriving DecidableEq, Repr

/-- The state of a run of `RunPipeline` after its loop: the goroutines, the channels closed so
far (one entry per executed `close`), the variable `lastOut`, the items the goroutine
`for range lastOut {}` has received, and whether a `close` of a closed channel has panicked. -/
structure PLState where
  gs : List Goroutine
  closed : List Nat
  lastOut : Option Nat
  drained : List Item
  panicked : Bool
  deriving DecidableEq, Repr

/-- A step of the run: goroutine `i` sends `x` on its output channel to goroutine `j` or, for
`none`, to the draining goroutine; the stage of goroutine `i` is told the end of its input;
its stage function returns; its deferred `close(outCh)` runs; its deferred `wg.Done()` runs. -/
inductive PLEvent where
  | xfer (i : Nat) (x : Item) (j : Option Nat)
  | eof (i : Nat)
  | ret (i : Nat)
  | close (i : Nat)
  | done (i : Nat)
  deriving DecidableEq, Repr

/-- One step of the run for the stage functions `cmds`; `none` when the step cannot happen:
the goroutine is not at that program point, its stage function is not ready for the
operation, no receiver is ready on the channel (the channels are unbuffered), or the channel
is not closed. -/
def plStep (cmds : List Stage) : PLEvent → PLState → Option PLState
  | PLEvent.xfer i x j, s =>
    match s.gs[i]?, cmds[i]? with
    | some gi, some ci =>
      if s.panicked = false ∧ gi.status = GStatus.running ∧ ci.canSend gi.loc x = true ∧
          gi.spawn.outCh ∉ s.closed then
        let gi1 : Goroutine := { gi with loc := { gi.loc with sent := gi.loc.sent ++ [x] } }
        match j with
        | none =>
          if s.lastOut = some gi.spawn.outCh then
            some { s with gs := s.gs.set i gi1, drained := s.drained ++ [x] }
          else none
        | some k =>
          match s.gs[k]?, cmds[k]? with
          | some gk, some ck =>
            if k ≠ i ∧ gk.status = GStatus.running ∧ ck.canRecv gk.loc = true ∧
                gk.spawn.inCh = gi.spawn.outCh then
              let gk1 : Goroutine :=
                { gk with loc := { gk.loc with received := gk.loc.received ++ [x] } }
              some { s with gs := (s.gs.set i gi1).set k gk1 }
            else none
          | _, _ => none
      else none
    | _, _ => none
  | PLEvent.eof i, s =>
    match s.gs[i]?, cmds[i]? with
    | some gi, some ci =>
      if s.panicked = false ∧ gi.status = GStatus.running ∧ ci.canRecv gi.loc = true ∧
          gi.spawn.inCh ∈ s.closed then
        some { s with gs := s.gs.set i { gi with loc := { gi.loc with eof := true } } }
      else none
    | _, _ => none
  | PLEvent.ret i, s =>
    match s.gs[i]?, cmds[i]? with
    | some gi, some ci =>
      if s.panicked = false ∧ gi.status = GStatus.running ∧ ci.canRet gi.loc = true then
        some { s with gs := s.gs.set i { gi with status := GStatus.returned } }
      else none
    | _, _ => none
  | PLEvent.close i, s =>
    match s.gs[i]? with
    | some gi =>
      if s.panicked = false ∧ gi.status = GStatus.returned then
        if gi.spawn.outCh ∈ s.closed then some { s with panicked := true }
        else
          some { s with
            gs := s.gs.set i { gi with status := GStatus.closedOut }
            closed := s.closed ++ [gi.spawn.outCh] }
      else none
    | none => none
  | PLEvent.done i, s =>
    match s.gs[i]? with
    | some gi =>
      if s.panicked = false ∧ gi.status = GStatus.closedOut then
        some { s with gs := s.gs.set i { gi with status := GStatus.done } }
      else none
    | none => none

/-- A schedule executed from a state; `none` when one of its steps cannot happen. -/
def plRun (cmds : List Stage) : List PLEvent → PLState → Option PLState
  | [], s => some s
  | e :: es, s =>
    match plStep cmds e s with
    | some s1 => plRun cmds es s1
    | none => none

/-- The run at the end of the loop of `RunPipeline`: every goroutine inside its stage
function, no channel closed. -/
def plInit {κ : Type} (cmds : List κ) : PLState :=
  { gs := (runPipelineWiring cmds).spawns.map (fun sp =>
      { spawn := sp, status := GStatus.running
        loc := { received := [], eof := false, sent := [] } })
    closed := []
    lastOut := (runPipelineWiring cmds).lastOut
    drained := []
    panicked := false }

/-- The condition under which `wg.Wait()`, and with it `RunPipeline`, returns: every
goroutine has run its `wg.Done()`. -/
def plReturned (s : PLState) : Bool :=
  !s.panicked && s.gs.all (fun g => g.status == GStatus.done)

/-- What the code of `SelectUsers`, `SelectMessages`, `CheckSpam` and `CombineResults` has
in common on its channels: the body is a loop `for item := range in`, every send answers
items received before, and the function does not return before the end of its input unless
it has received an item (`CombineResults` returns on an ill-typed item). -/
def rangeStage : Stage :=
  { canRecv := fun l => !l.eof
    canSend := fun l _ => !l.received.isEmpty
    canRet := fun l => l.eof || !l.received.isEmpty }

/-- A first stage that ignores its input, sends the items `items` in order and returns. -/
def sourceStage (items : List Item) : Stage :=
  { canRecv := fun _ => false
    canSend := fun l x => decide ((items.drop l.sent.length).head? = some x)
    canRet := fun l => decide (items.length ≤ l.sent.length) }

/-- The progress a goroutine has made, counted in steps: one for the end of its input, one
each for the return, the close and the `wg.Done()`. -/
def gProgress (g : Goroutine) : Nat :=
  (if g.loc.eof then 1 else 0) +
    (match g.status with
      | GStatus.running => 0
      | GStatus.returned => 1
      | GStatus.closedOut => 2
      | GStatus.done => 3)

/-- The stage functions `SelectUsers`, `SelectMessages`, `CheckSpam`, `CombineResults` in the
order in which the pipeline composes them, each as the engine sees it. -/
def fourStages : List Stage :=
  [rangeStage, rangeStage, rangeStage, rangeStage]

/-- The four stage functions behind a first stage that sends nothing and returns. -/
def fiveStages : List Stage :=
  sourceStage [] :: fourStages

/-! ## Invariants and reference descriptions used by the theorems -/

/-- The invariant of the stage for the workers `ws`: the four program points hold the workers
of the stage, and `out` holds, in some order, the results of the workers past their body
whose retry loop ended in success. -/
def CSInv (hasSpam : Nat → Nat → MsgID → Bool × Option String) (ws : List Worker)
    (s : CSState) : Prop :=
  (s.spawned ++ s.holding ++ s.exiting ++ s.finished).Perm ws ∧
  s.out.Perm (checkSpamSuccesses hasSpam (s.exiting ++ s.finished))

/-- The invariant of the stage for the resolved users `us`: every user still in a goroutine
or already sent is one of `us`; the users past the critical section have pairwise distinct
e-mails, which are exactly the keys of `processed`; every user of `us` is either still before
the critical section or has its e-mail in `processed`; and `out` holds users only. -/
def SUInv (us : List User) (s : SUState) : Prop :=
  (∀ u, u ∈ s.resolved ++ s.sending ++ itemUsers s.out → u ∈ us) ∧
  ((s.sending ++ itemUsers s.out).map User.Email).Nodup ∧
  (∀ e, e ∈ s.processed ↔ e ∈ (s.sending ++ itemUsers s.out).map User.Email) ∧
  (∀ u, u ∈ us → u ∈ s.resolved ∨ u.Email ∈ s.processed) ∧
  s.out = (itemUsers s.out).map Item.user

/-- The batches of two users the stream `us` fills completely, in order. -/
def fullBatches : List User → List (List User)
  | a :: b :: rest => [a, b] :: fullBatches rest
  | [_] => []
  | [] => []

/-- The users of the stream `us` left over after its complete batches (none or one). -/
def restBatch : List User → List User
  | _ :: _ :: rest => restBatch rest
  | [a] => [a]
  | [] => []

/-- The invariant of the receive loop between two iterations: the accumulator is the slice
of capacity 2 on array 0 and holds the users `pending` (at most one); every started goroutine
holds a slice on another array; the started batches read `emitted`. -/
def SMInv (st : SMState) (pending : List User) (emitted : List (List User)) : Prop :=
  st.batch = { arr := 0, len := pending.length, cap := 2 } ∧ pending.length ≤ 1 ∧
  (∃ a tl, st.heap = a :: tl ∧ a.length = 2 ∧ a.take pending.length = pending) ∧
  (∀ sl, sl ∈ st.dispatched → 1 ≤ sl.arr ∧ sl.arr < st.heap.length) ∧
  batchContents st = emitted

/-- The batches the specification describes for the stream `us`: consecutive pairs, the last
user alone when the number of users is odd. -/
def pairBatches : List User → List (List User)
  | a :: b :: rest => [a, b] :: pairBatches rest
  | [a] => [[a]]
  | [] => []

/-- The invariant of the process for the constant `maxAsync`: the channel in
`globalSpamSemaphore` has capacity `maxAsync`; its tokens are those of the workers between
acquire and release and do not exceed the capacity; and before the first initialisation no
worker exists. -/
def ProcInv (maxAsync : Nat) (p : Proc) : Prop :=
  p.globals.semaphoreCap = maxAsync ∧
  p.stage.gate = p.stage.holding.length + p.stage.exiting.length ∧
  p.stage.gate ≤ maxAsync ∧
  (p.globals.semaphoreInitialized = false →
    p.stage.spawned = [] ∧ p.stage.holding = [] ∧ p.stage.exiting = [])

/-- The invariant of a run of `RunPipeline` with `n` commands: no panic; goroutine `i` holds
the channels `i` and `i + 1`; no channel is closed twice; channel `i + 1` is closed exactly
when goroutine `i` is past its deferred `close`; and only the channels 1 to `n` are closed. -/
def PLInv (n : Nat) (s : PLState) : Prop :=
  s.panicked = false ∧ s.gs.length = n ∧
  (∀ (i : Nat) (g : Goroutine), s.gs[i]? = some g →
    g.spawn = { cmd := i, inCh := i, outCh := i + 1 }) ∧
  s.closed.Nodup ∧
  (∀ (i : Nat) (g : Goroutine), s.gs[i]? = some g →
    (i + 1 ∈ s.closed ↔ (g.status = GStatus.closedOut ∨ g.status = GStatus.done))) ∧
  (∀ c, c ∈ s.closed → 1 ≤ c ∧ c ≤ n)

/-- The additional invariant of a run in which no item is ever sent: no goroutine has
received or sent an item, none has reached the draining goroutine. -/
def NoItems (s : PLState) : Prop :=
  s.drained = [] ∧
    ∀ (i : Nat) (g : Goroutine), s.gs[i]? = some g → g.loc.received = [] ∧ g.loc.sent = []

/-- The progress of all goroutines together. -/
def plProgress : List Goroutine → Nat
  | [] => 0
  | g :: rest => gProgress g + plProgress rest

/-- The strict two-key order of the specification of the aggregator: a spam item stands
before a non-spam item, and of two items with the same flag the one with the strictly
smaller id stands first. -/
def strictLess (a b : MsgData) : Bool :=
  (a.HasSpam && !b.HasSpam) || (a.HasSpam == b.HasSpam && decide (a.ID < b.ID))

/-- The step of a stable sort under a strict order `less`: `x` arrived before every element
of the ordered list; it goes behind the elements strictly less than it and in front of all
others, the elements equivalent to it included. -/
def stableInsert {α : Type} (less : α → α → Bool) (x : α) : List α → List α
  | [] => [x]
  | y :: rest => if less y x then y :: stableInsert less x rest else x :: y :: rest

/-- A stable sort under the strict order `less`: the elements in ascending order, equivalent
elements in the order of the input. -/
def stableSort {α : Type} (less : α → α → Bool) : List α → List α
  | [] => []
  | x :: rest => stableInsert less x (stableSort less rest)

/-- Two elements are equivalent under a strict order: neither is less than the other. -/
def equivUnder {α : Type} (less : α → α → Bool) (a b : α) : Bool :=
  !less a b && !less b a

/-- A strict weak ordering, which `sort.Slice` expects of its `less`: irreflexive,
transitive, and with a transitive equivalence. -/
def StrictWeakOrdering {α : Type} (less : α → α → Bool) : Prop :=
  (∀ a, less a a = false) ∧
  (∀ a b c, less a b = true → less b c = true → less a c = true) ∧
  (∀ a b c, equivUnder less a b = true → equivUnder less b c = true →
    equivUnder less a c = true)

/-- The invariant of a run about its first goroutine, whose input is channel 0: it has
received no item and has not been told the end of its input; with `blocked`, it is moreover
still inside its stage function. -/
def FirstIdle (blocked : Bool) (s : PLState) : Prop :=
  ∀ g : Goroutine, s.gs[0]? = some g →
    g.loc.received = [] ∧ g.loc.eof = false ∧ (blocked = true → g.status = GStatus.running)

end Spammer

namespace Search

/-! # The search server (`Task 3 Поисковой сервис/server.go`)

The embedding of the handler `SearchServer`.  The request is given by the values
`r.FormValue` returns for the five parameters; the dataset file by the result of `os.Open`
and the sequence of tokens `dec.Token()` delivers at the level of the read loop.  Go's `int`
is taken to be 64 bits wide. -/

/-- The struct `xmlRow`. -/
structure xmlRow where
  ID : Int
  Age : Int
  FirstName : String
  LastName : String
  About : String
  Gender : String
  deriving DecidableEq, Repr

/-- The struct `User` of this package; its declaration is not part of the sources, the
fields are those of the composite literal in `SearchServer`. -/
structure User where
  ID : Int
  Name : String
  Age : Int
  About : String
  Gender : String
  deriving DecidableEq, Repr

/-- The largest value of Go's `int`. -/
def maxInt : Int := 2 ^ 63 - 1

/-- The smallest value of Go's `int`. -/
def minInt : Int := -(2 ^ 63)

/-- The result of an addition of two `int` values: the sum reduced into the range of `int`. -/
def wrapInt (x : Int) : Int :=
  (x + 2 ^ 63) % 2 ^ 64 - 2 ^ 63

/-- The value of a string of decimal digits. -/
def digitsValue (ds : List Char) : Nat :=
  ds.foldl (fun acc c => 10 * acc + (c.toNat - 48)) 0

/-- `strconv.Atoi` (Go standard library): an optional sign followed by at least one decimal
digit, the value within the range of `int`; `none` is a non-nil error. -/
def atoi (s : String) : Option Int :=
  let cs := s.toList
  let ds := match cs with
    | '-' :: r => r
    | '+' :: r => r
    | _ => cs
  if ds.isEmpty || !ds.all Char.isDigit then none
  else
    let v : Int := if cs.head? = some '-' then -(digitsValue ds : Int) else (digitsValue ds : Int)
    if minInt ≤ v ∧ v ≤ maxInt then some v else none

/-- `parseIntParam` of the source; `none` is a non-nil error. -/
def parseIntParam (v : String) : Option Int :=
  if v = "" then some 0 else atoi v

/-- `unicode.IsSpace` (Go standard library), by code point. -/
def isSpace (c : Char) : Bool :=
  let n := c.toNat
  (9 ≤ n && n ≤ 13) || n == 32 || n == 0x85 || n == 0xA0 || n == 0x1680 ||
    (0x2000 ≤ n && n ≤ 0x200A) || n == 0x2028 || n == 0x2029 || n == 0x202F || n == 0x205F ||
    n == 0x3000

/-- `strings.TrimSpace` (Go standard library). -/
def trimSpace (s : String) : String :=
  String.mk ((s.toList.dropWhile isSpace).reverse.dropWhile isSpace).reverse

/-- `strings.Contains` (Go standard library). -/
def contains (s substr : String) : Bool :=
  decide (substr.toList <:+: s.toList)

/-- The values `r.FormValue` returns for the parameters the handler reads (`""` for a
parameter that is absent). -/
structure Request where
  limit : String
  offset : String
  order_field : String
  order_by : String
  query : String
  deriving DecidableEq, Repr

/-- A token delivered by `dec.Token()` in the read loop: the start of a `row` element,
together with what `dec.DecodeElement` decodes from it, or any other token. -/
inductive Token where
  | row (xr : xmlRow)
  | other
  deriving DecidableEq, Repr

/-- The dataset file as `SearchServer` reads it: its tokens, and whether the call of
`dec.Token()` after the last of them fails with an error other than `io.EOF`. -/
structure Dataset where
  tokens : List Token
  corrupt : Bool
  deriving DecidableEq, Repr

/-- What the handler does to the response. -/
inductive Reply where
  | error (status : Nat) (msg : String)
  | badOrderField
  | ok (users : List User)
  | panic
  deriving DecidableEq, Repr

/-- The status code of the response; a handler that panics writes none. -/
def Reply.status : Reply → Option Nat
  | Reply.error status _ => some status
  | Reply.badOrderField => some 400
  | Reply.ok _ => some 200
  | Reply.panic => none

/-- A run of the handler: the response, whether the dataset file was opened, and the number
of `dec.Token()` calls made. -/
structure Outcome where
  reply : Reply
  opened : Bool
  tokensRead : Nat
  deriving DecidableEq, Repr

/-- The `User` built from a decoded row. -/
def mkUser (xr : xmlRow) : User :=
  { ID := xr.ID
    Name := trimSpace (xr.FirstName ++ " " ++ xr.LastName)
    Age := xr.Age
    About := xr.About
    Gender := xr.Gender }

/-- The variables of the read loop: `users`, `idx`, `collected`, and the number of
`dec.Token()` calls made. -/
structure LoopState where
  users : List User
  idx : Int
  collected : Int
  read : Nat
  deriving DecidableEq, Repr

/-- How the read loop ends: at the label `RESPOND` (by `break` on `io.EOF` or by `goto`), or
with the answer "cant unpack xml". -/
inductive LoopEnd where
  | respond (st : LoopState)
  | fail (read : Nat)
  deriving DecidableEq, Repr

/-- The read loop `for { tok, err := dec.Token() ... }` over the tokens still to come.  The
counters `idx` and `collected` count rows of the file and stay far below the range of `int`;
they are not reduced into it. -/
def readLoop (query : String) (orderBy limit offset : Int) (corrupt : Bool) :
    List Token → LoopState → LoopEnd
  | [], st => if corrupt then LoopEnd.fail (st.read + 1)
    else LoopEnd.respond { st with read := st.read + 1 }
  | Token.other :: rest, st =>
    readLoop query orderBy limit offset corrupt rest { st with read := st.read + 1 }
  | Token.row xr :: rest, st =>
    let u := mkUser xr
    let st1 : LoopState := { st with read := st.read + 1 }
    if query ≠ "" ∧ !(contains u.Name query || contains u.About query) then
      readLoop query orderBy limit offset corrupt rest st1
    else if orderBy = 0 then
      if st1.idx < offset then
        readLoop query orderBy limit offset corrupt rest { st1 with idx := st1.idx + 1 }
      else
        let st2 : LoopState :=
          { st1 with users := st1.users ++ [u], collected := st1.collected + 1 }
        if limit > 0 ∧ st2.collected ≥ limit then LoopEnd.respond st2
        else readLoop query orderBy limit offset corrupt rest st2
    else
      readLoop query orderBy limit offset corrupt rest { st1 with users := st1.users ++ [u] }

/-- The comparison closure handed to `sort.SliceStable`, on the elements `users[i]`,
`users[j]`. -/
def lessBy (orderField : String) (asc : Bool) (a b : User) : Bool :=
  if orderField = "Id" then
    if asc then decide (a.ID < b.ID) else decide (a.ID > b.ID)
  else if orderField = "Age" then
    if asc then decide (a.Age < b.Age) else decide (a.Age > b.Age)
  else
    if asc then decide (a.Name < b.Name) else decide (a.Name > b.Name)

/-- The call `sort.SliceStable(users, less)`; `sort.SliceStable` belongs to the Go standard
library, which sorts blocks of 20 elements by insertion sort and merges them keeping the
order of equal elements; it is represented by its insertion sort for every length. -/
def sortSliceStable (less : User → User → Bool) (users : List User) : List User :=
  Spammer.insertionSortLessFunc less users

/-- The pagination after sorting: the slice expression `users[start:end]` with `start` and
`end` as the handler computes them; `none` when the indices are out of range (a run-time
panic).  `end` never exceeds `len(users)`, so the capacity of `users` plays no part. -/
def paginate (users : List User) (offset limit : Int) : Option (List User) :=
  let len : Int := users.length
  let start := if offset > len then len else offset
  let end_ :=
    if limit > 0 then
      let e := wrapInt (start + limit)
      if e > len then len else e
    else len
  if 0 ≤ start ∧ start ≤ end_ ∧ end_ ≤ len then
    some ((users.take end_.toNat).drop start.toNat)
  else none

/-- The part of `SearchServer` after the parameter checks: opening and reading the dataset,
sorting, pagination and the response. -/
def respond (file : Option Dataset) (query orderField : String) (orderBy limit offset : Int) :
    Outcome :=
  match file with
  | none => { reply := Reply.error 500 "internal error", opened := false, tokensRead := 0 }
  | some ds =>
    match readLoop query orderBy limit offset ds.corrupt ds.tokens
        { users := [], idx := 0, collected := 0, read := 0 } with
    | LoopEnd.fail read =>
      { reply := Reply.error 500 "cant unpack xml", opened := true, tokensRead := read }
    | LoopEnd.respond st =>
      let users :=
        if orderBy ≠ 0 then sortSliceStable (lessBy orderField (orderBy == 1)) st.users
        else st.users
      let result := if orderBy = 0 then some users else paginate users offset limit
      match result with
      | some res => { reply := Reply.ok res, opened := true, tokensRead := st.read }
      | none => { reply := Reply.panic, opened := true, tokensRead := st.read }

/-- The handler `SearchServer`, on the dataset file (`none` when `os.Open` fails) and the
request. -/
def SearchServer (file : Option Dataset) (r : Request) : Outcome :=
  match parseIntParam r.limit with
  | none => { reply := Reply.error 400 "limit must be >= 0", opened := false, tokensRead := 0 }
  | some limit =>
    if limit < 0 then
      { reply := Reply.error 400 "limit must be >= 0", opened := false, tokensRead := 0 }
    else
      match parseIntParam r.offset with
      | none =>
        { reply := Reply.error 400 "offset must be >= 0", opened := false, tokensRead := 0 }
      | some offset =>
        if offset < 0 then
          { reply := Reply.error 400 "offset must be >= 0", opened := false, tokensRead := 0 }
        else
          match (if r.order_by ≠ "" then atoi r.order_by else some 0) with
          | none =>
            { reply := Reply.error 400 "order_by must be integer", opened := false
              tokensRead := 0 }
          | some orderBy =>
            let orderField := if r.order_field = "" then "Name" else r.order_field
            if orderField = "Id" ∨ orderField = "Age" ∨ orderField = "Name" then
              respond file r.query orderField orderBy limit offset
            else { reply := Reply.badOrderField, opened := false, tokensRead := 0 }

/-! ## Reference descriptions used by the theorems -/

/-- The users of the rows of a token sequence, in file order. -/
def datasetUsers : List Token → List User
  | [] => []
  | Token.row xr :: rest => mkUser xr :: datasetUsers rest
  | Token.other :: rest => datasetUsers rest

/-- Whether a user passes the query: the query is empty, or the name or the text about the
user contains it. -/
def matchesQuery (query : String) (u : User) : Bool :=
  query == "" || contains u.Name query || contains u.About query

/-- The users of the rows that pass the query, in file order. -/
def matching (query : String) (tokens : List Token) : List User :=
  (datasetUsers tokens).filter (matchesQuery query)

/-- The window of a list that starts at index `offset` (at the end of the list when the
offset exceeds the length) and has `limit` elements (fewer when the list ends before), or
runs to the end of the list when `limit` is 0. -/
def window (l : List User) (offset limit : Nat) : List User :=
  if limit = 0 then l.drop offset else (l.drop offset).take limit

end Search

namespace Game

/-! # The text game (`Task1 Текстовая игра/main.go`)

The package-level variables `player`, `room` and `rooms` are the fields of a state that every
function takes and returns.  The four `Room` values made by `initGame` are fields of the
state, and a pointer to one of them is its name.  A function literal stored in `OnSuccess`
is named by a constructor and run by `callOnSuccess`.  A `map[string]GameObject` is an
association list with unique keys.  A string is the list of its characters; `strings.Split`
and `strings.TrimSpace` of the Go standard library are represented by definitions. -/

/-- `ActionType` with its four constants. -/
inductive ActionType where
  | ActionTake
  | ActionLook
  | ActionGo
  | ActionUse
  deriving DecidableEq, Repr

/-- The function literals `initGame` stores in `OnSuccess`, one name per body:
`room = corridor`; `room = kitchen` with the update of the kitchen description;
`room = bedroom; updateBedroomDescription()`; the replacement of `corridor.Objects["дверь"]`;
`room = street`. -/
inductive Effect where
  | enterCorridor
  | enterKitchen
  | enterBedroom
  | unlockDoor
  | enterStreet
  deriving DecidableEq, Repr

/-- The struct `Action`. -/
structure Action where
  action : ActionType
  requirement : String
  afterCommentary : String
  OnSuccess : Effect
  deriving DecidableEq, Repr

/-- The struct `GameObject`. -/
structure GameObject where
  Name : String
  Actions : List Action
  deriving DecidableEq, Repr

/-- The struct `Room`: the items of its embedded `Inventory`, the description and the
objects.  The field `Reactions` is never written or read and is left out. -/
structure Room where
  Items : List String
  Description : String
  Objects : List (String × GameObject)
  deriving DecidableEq, Repr

/-- A pointer to one of the four rooms `initGame` makes. -/
inductive RoomPtr where
  | kitchen
  | corridor
  | bedroom
  | street
  deriving DecidableEq, Repr

/-- The package-level variables: `player.Items`, the pointer `room`, and the four rooms that
`rooms` maps the names "кухня", "коридор", "комната", "улица" to. -/
structure State where
  player : List String
  room : RoomPtr
  kitchen : Room
  corridor : Room
  bedroom : Room
  street : Room
  deriving DecidableEq, Repr

/-- The room a pointer points to. -/
def State.deref (s : State) : RoomPtr → Room
  | RoomPtr.kitchen => s.kitchen
  | RoomPtr.corridor => s.corridor
  | RoomPtr.bedroom => s.bedroom
  | RoomPtr.street => s.street

/-- An assignment through a room pointer. -/
def State.store (s : State) : RoomPtr → Room → State
  | RoomPtr.kitchen, r => { s with kitchen := r }
  | RoomPtr.corridor, r => { s with corridor := r }
  | RoomPtr.bedroom, r => { s with bedroom := r }
  | RoomPtr.street, r => { s with street := r }

/-- The map index expression `m[k]` with its `ok` result. -/
def mapGet : List (String × GameObject) → String → Option GameObject
  | [], _ => none
  | (k1, v) :: rest, k => if k1 = k then some v else mapGet rest k

/-- The map assignment `m[k] = v`. -/
def mapSet : List (String × GameObject) → String → GameObject → List (String × GameObject)
  | [], k, v => [(k, v)]
  | (k1, v1) :: rest, k, v => if k1 = k then (k, v) :: rest else (k1, v1) :: mapSet rest k v

/-- The map `actionsAliases`. -/
def actionsAliases : List (String × String) :=
  [("поднять", "take"), ("надеть", "take"), ("получить", "take"), ("взять", "take"),
    ("забрать", "take"), ("осмотреться", "look"), ("посмотреть", "look"), ("идти", "go"),
    ("пойти", "go"), ("применить", "use"), ("использовать", "use"),
    ("выйти из игры", "exit")]

/-- The pieces of a list of characters between the occurrences of `sep`. -/
def splitChars (sep : Char) : List Char → List (List Char)
  | [] => [[]]
  | c :: cs =>
    if c = sep then [] :: splitChars sep cs
    else
      match splitChars sep cs with
      | [] => [[c]]
      | w :: ws => (c :: w) :: ws

/-- `strings.Split(s, " ")` (Go standard library). -/
def split (s : String) : List String :=
  (splitChars ' ' s.toList).map String.mk

/-- `getObject` of the source. -/
def getObject (room : Room) (name : String) : Option GameObject :=
  mapGet room.Objects name

/-- `updateBedroomDescription` of the source; `itemMap[x]` is true exactly for the items of
the bedroom. -/
def updateBedroomDescription (s : State) : State :=
  let items := s.bedroom.Items
  let itemMap := fun (x : String) => decide (x ∈ items)
  let parts1 : List String :=
    if itemMap "ключи" && itemMap "конспекты" then ["на столе: ключи, конспекты"]
    else if itemMap "ключи" then ["на столе: ключи"]
    else if itemMap "конспекты" then ["на столе: конспекты"]
    else []
  let parts2 := if itemMap "рюкзак" then parts1 ++ ["на стуле: рюкзак"] else parts1
  let parts3 := if parts2.length = 0 then parts2 ++ ["пустая комната"] else parts2
  let description := ", ".intercalate parts3 ++ ". можно пройти - коридор"
  { s with bedroom := { s.bedroom with Description := description } }

/-- `hasAllItems` of the source: the loop over `player.Items` sets the two flags. -/
def hasAllItems (s : State) : Bool :=
  let flags := s.player.foldl
    (fun (f : Bool × Bool) item =>
      (if item = "ключи" then true else f.1, if item = "конспекты" then true else f.2))
    (false, false)
  flags.1 && flags.2

/-- `updateKitchenDescription` of the source. -/
def updateKitchenDescription (s : State) : State :=
  if hasAllItems s then
    { s with kitchen := { s.kitchen with Description :=
        "ты находишься на кухне, на столе: чай, надо идти в универ. можно пройти - коридор" } }
  else s

/-- The search loop of `pickItem`: the index of the first occurrence of `item`; `none` stands
for `itemIndex == -1`. -/
def findItem (item : String) : List String → Option Nat
  | [] => none
  | roomItem :: rest =>
    if roomItem = item then some 0 else (findItem item rest).map (fun i => i + 1)

/-- The method `hasItem`, on the items of the player; the loop that computes `hasBackpack` in
`pickItem` is this loop for "рюкзак". -/
def hasItem (item : String) : List String → Bool
  | [] => false
  | playerItem :: rest => if playerItem = item then true else hasItem item rest

/-- The method `pickItem`, `room` being the pointer passed to it. -/
def pickItem (item : String) (room : RoomPtr) (s : State) : (Bool × String) × State :=
  match findItem item (s.deref room).Items with
  | none => ((false, "нет такого"), s)
  | some itemIndex =>
    let r := s.deref room
    let taken : Room :=
      { r with Items := r.Items.take itemIndex ++ r.Items.drop (itemIndex + 1) }
    let s1 := s.store room taken
    let s2 : State := { s1 with player := s1.player ++ [item] }
    if item = "рюкзак" then
      ((true, "вы надели: рюкзак"), updateBedroomDescription s2)
    else if !hasItem "рюкзак" s.player then
      ((false, "некуда класть"), s)
    else
      ((true, "предмет добавлен в инвентарь: " ++ item),
        updateKitchenDescription (updateBedroomDescription s2))

/-- The object `initGame` stores under "дверь" when the keys are applied. -/
def openDoor : GameObject :=
  { Name := "дверь"
    Actions := [
      { action := ActionType.ActionGo, requirement := ""
        afterCommentary := "на улице весна. можно пройти - домой"
        OnSuccess := Effect.enterStreet }] }

/-- A call `action.OnSuccess()`. -/
def callOnSuccess : Effect → State → State
  | Effect.enterCorridor, s => { s with room := RoomPtr.corridor }
  | Effect.enterKitchen, s =>
    let kitchen1 : Room := { s.kitchen with Description :=
      "ты находишься на кухне, на столе: чай, надо собрать рюкзак и идти в универ. можно пройти - коридор" }
    let s1 : State := { s with room := RoomPtr.kitchen, kitchen := kitchen1 }
    if hasAllItems s1 then
      { s1 with kitchen := { s1.kitchen with Description :=
          "ты находишься на кухне, на столе: чай, надо идти в универ. можно пройти - коридор" } }
    else s1
  | Effect.enterBedroom, s => updateBedroomDescription { s with room := RoomPtr.bedroom }
  | Effect.unlockDoor, s =>
    { s with corridor :=
        { s.corridor with Objects := mapSet s.corridor.Objects "дверь" openDoor } }
  | Effect.enterStreet, s => { s with room := RoomPtr.street }

/-- The loop `for _, action := range obj.Actions { ... }` of `handleObjectAction` over the
actions still to come, with the final `return "", false`. -/
def handleObjectActionLoop (actionType : ActionType) (itemToUse : String) :
    List Action → State → (String × Bool) × State
  | [], s => (("", false), s)
  | action :: rest, s =>
    if action.action = actionType then
      if actionType = ActionType.ActionGo then
        if action.requirement = "" then
          ((action.afterCommentary, true), callOnSuccess action.OnSuccess s)
        else (("дверь закрыта", false), s)
      else if actionType = ActionType.ActionUse ∧ action.requirement = itemToUse then
        ((action.afterCommentary, true), callOnSuccess action.OnSuccess s)
      else handleObjectActionLoop actionType itemToUse rest s
    else handleObjectActionLoop actionType itemToUse rest s

/-- `handleObjectAction` of the source. -/
def handleObjectAction (obj : GameObject) (actionType : ActionType) (itemToUse : String)
    (s : State) : (String × Bool) × State :=
  handleObjectActionLoop actionType itemToUse obj.Actions s

/-- `resolveReaction` of the source, called with the package-level `player` and `room`. -/
def resolveReaction (msg : String) (s : State) : String × State :=
  match split (Search.trimSpace msg) with
  | [] => ("Введите команду", s)
  | verb :: args =>
    match actionsAliases.lookup verb with
    | none => ("неизвестная команда", s)
    | some result =>
      if result = "take" then
        match args with
        | [] => ("укажите предмет", s)
        | item :: _ =>
          let r := pickItem item s.room s
          (r.1.2, r.2)
      else if result = "look" then ((s.deref s.room).Description, s)
      else if result = "go" then
        match args with
        | [] => ("укажите направление", s)
        | target :: _ =>
          let direction :=
            if target = "улица" ∧ s.room = RoomPtr.corridor then "дверь" else target
          match getObject (s.deref s.room) direction with
          | none => ("нет пути в " ++ target, s)
          | some obj =>
            let r := handleObjectAction obj ActionType.ActionGo "" s
            (r.1.1, r.2)
      else if result = "use" then
        match args with
        | itemToUse :: objectName :: _ =>
          if !hasItem itemToUse s.player then
            ("нет предмета в инвентаре - " ++ itemToUse, s)
          else
            match getObject (s.deref s.room) objectName with
            | none => ("не к чему применить", s)
            | some obj =>
              let r := handleObjectAction obj ActionType.ActionUse itemToUse s
              if r.1.2 then (r.1.1, r.2)
              else
                let s1 := r.2
                ("не к чему применить", { s1 with player := s1.player ++ [itemToUse] })
        | _ => ("укажите предмет и объект", s)
      else if result = "exit" then ("Спасибо за игру!", s)
      else ("неизвестная команда", s)

/-- `handleCommand` of the source. -/
def handleCommand (command : String) (s : State) : String × State :=
  resolveReaction command s

/-- A composite literal `GameObject{...}` of `initGame` with the single action `ActionGo`
without requirement: the passages between the rooms. -/
def passage (name commentary : String) (onSuccess : Effect) : GameObject :=
  { Name := name
    Actions := [
      { action := ActionType.ActionGo, requirement := "", afterCommentary := commentary
        OnSuccess := onSuccess }] }

/-- The object `initGame` stores under "дверь" in the corridor. -/
def lockedDoor : GameObject :=
  { Name := "дверь"
    Actions := [
      { action := ActionType.ActionUse, requirement := "ключи"
        afterCommentary := "дверь открыта", OnSuccess := Effect.unlockDoor },
      { action := ActionType.ActionGo, requirement := "ключи"
        afterCommentary := "на улице весна. можно пройти - домой"
        OnSuccess := Effect.enterStreet }] }

/-- The state `initGame` sets up. -/
def initGame : State :=
  { player := []
    room := RoomPtr.kitchen
    kitchen :=
      { Items := []
        Description :=
          "ты находишься на кухне, на столе: чай, надо собрать рюкзак и идти в универ. можно пройти - коридор"
        Objects := [("коридор", passage "коридор"
          "ничего интересного. можно пройти - кухня, комната, улица" Effect.enterCorridor)] }
    corridor :=
      { Items := []
        Description := "ничего интересного. можно пройти - кухня, комната, улица"
        Objects := [
          ("кухня", passage "кухня" "кухня, ничего интересного. можно пройти - коридор"
            Effect.enterKitchen),
          ("комната", passage "комната" "ты в своей комнате. можно пройти - коридор"
            Effect.enterBedroom),
          ("дверь", lockedDoor)] }
    bedroom :=
      { Items := ["ключи", "конспекты", "рюкзак"]
        Description := "на столе: ключи, конспекты, на стуле: рюкзак. можно пройти - коридор"
        Objects := [("коридор", passage "коридор"
          "ничего интересного. можно пройти - кухня, комната, улица" Effect.enterCorridor)] }
    street :=
      { Items := []
        Description := "на улице весна. можно пройти - домой"
        Objects := [("домой", passage "домой"
          "ничего интересного. можно пройти - кухня, комната, улица" Effect.enterCorridor)] } }

/-- What the loop of `main` did on the input lines it read: the replies it printed, whether
it left the loop through `break`, and the state. -/
structure MainRun where
  printed : List String
  stopped : Bool
  state : State
  deriving DecidableEq, Repr

/-- The loop `for { ... }` of `main` over the lines still to be read, each line as
`reader.ReadString` returns it. -/
def mainLoop : List String → State → List String → MainRun
  | [], s, printed => { printed := printed, stopped := false, state := s }
  | line :: later, s, printed =>
    let input := Search.trimSpace line
    if input = "" then mainLoop later s printed
    else
      let r := handleCommand input s
      if r.1 = "Спасибо за игру!" then
        { printed := printed ++ [r.1], stopped := true, state := r.2 }
      else mainLoop later r.2 (printed ++ [r.1])

/-- The states after each of a sequence of commands given to `handleCommand`. -/
def runCommands : List String → State → State
  | [], s => s
  | c :: later, s => runCommands later (handleCommand c s).2

/-! ## Reference descriptions used by the theorems -/

/-- A command that applies the keys to the door: a verb that `actionsAliases` maps to "use"
("применить" or its synonym "использовать"), then "ключи", then "дверь"; words after these
three are not looked at, as `resolveReaction` does not look at them. -/
def usesKeysOnDoor (c : String) : Bool :=
  match split (Search.trimSpace c) with
  | verb :: item :: obj :: _ =>
    decide (actionsAliases.lookup verb = some "use") && decide (item = "ключи") &&
      decide (obj = "дверь")
  | _ => false

/-- The door has not been opened: the objects of the kitchen, the corridor and the bedroom
are those `initGame` made, the door of the corridor among them, and the current room is not
the street. -/
def Locked (s : State) : Prop :=
  s.kitchen.Objects = initGame.kitchen.Objects ∧
  s.corridor.Objects = initGame.corridor.Objects ∧
  s.bedroom.Objects = initGame.bedroom.Objects ∧
  s.room ≠ RoomPtr.street

end Game

namespace Spammer

/-! ## Facts about the sort routine -/

theorem insertLeft_perm {α : Type} (less : α → α → Bool) (x : α) (l : List α) :
    (insertLeft less x l).Perm (x :: l) := by
  induction l with
  | nil => simp [insertLeft]
  | cons p rest ih =>
    unfold insertLeft
    split
    · exact (List.Perm.cons p ih).trans (List.Perm.swap x p rest)
    · exact List.Perm.refl _

theorem foldl_insertLeft_perm {α : Type} (less : α → α → Bool) (data acc : List α) :
    (data.foldl (fun acc x => insertLeft less x acc) acc).Perm (data ++ acc) := by
  induction data generalizing acc with
  | nil => simp
  | cons x rest ih =>
    simp only [List.foldl_cons, List.cons_append]
    refine (ih (insertLeft less x acc)).trans ?_
    refine (List.Perm.append_left rest (insertLeft_perm less x acc)).trans ?_
    exact List.perm_middle

theorem sortSlice_perm {α : Type} (less : α → α → Bool) (data : List α) :
    (sortSlice less data).Perm data := by
  unfold sortSlice insertionSortLessFunc
  refine (List.reverse_perm _).trans ?_
  simpa using foldl_insertLeft_perm less data []

theorem insertLeft_pairwise {α : Type} (less : α → α → Bool)
    (total : ∀ a b, less a b = true ∨ less b a = true)
    (trans : ∀ a b c, less a b = true → less b c = true → less a c = true)
    (x : α) (l : List α) (h : l.Pairwise (fun p q => less q p = true)) :
    (insertLeft less x l).Pairwise (fun p q => less q p = true) := by
  induction l with
  | nil => simp [insertLeft]
  | cons p rest ih =>
    rw [List.pairwise_cons] at h
    unfold insertLeft
    split
    · rename_i hxp
      rw [List.pairwise_cons]
      refine ⟨?_, ih h.2⟩
      intro q hq
      rcases (insertLeft_perm less x rest).mem_iff.mp hq with hq1 | hq1
      · exact hxp
      · rename_i hq2
        exact h.1 q hq2
    · rename_i hxp
      have hpx : less p x = true := by
        rcases total x p with h1 | h1
        · exact absurd h1 hxp
        · exact h1
      rw [List.pairwise_cons]
      refine ⟨?_, List.pairwise_cons.mpr h⟩
      intro q hq
      rcases List.mem_cons.mp hq with hq1 | hq1
      · rw [hq1]; exact hpx
      · exact trans q p x (h.1 q hq1) hpx

theorem foldl_insertLeft_pairwise {α : Type} (less : α → α → Bool)
    (total : ∀ a b, less a b = true ∨ less b a = true)
    (trans : ∀ a b c, less a b = true → less b c = true → less a c = true)
    (data acc : List α) (h : acc.Pairwise (fun p q => less q p = true)) :
    (data.foldl (fun acc x => insertLeft less x acc) acc).Pairwise
      (fun p q => less q p = true) := by
  induction data generalizing acc with
  | nil => simpa using h
  | cons x rest ih =>
    simp only [List.foldl_cons]
    exact ih _ (insertLeft_pairwise less total trans x acc h)

theorem sortSlice_pairwise {α : Type} (less : α → α → Bool)
    (total : ∀ a b, less a b = true ∨ less b a = true)
    (trans : ∀ a b c, less a b = true → less b c = true → less a c = true)
    (data : List α) :
    (sortSlice less data).Pairwise (fun p q => less p q = true) := by
  unfold sortSlice insertionSortLessFunc
  rw [List.pairwise_reverse]
  exact foldl_insertLeft_pairwise less total trans data [] List.Pairwise.nil

/-! ## Facts about the comparison of `CombineResults` -/

theorem combineLess_iff (a b : MsgData) :
    combineLess a b = true ↔ SpamFirstThenId a b := by
  obtain ⟨ia, fa⟩ := a
  obtain ⟨ib, fb⟩ := b
  cases fa <;> cases fb <;> simp [combineLess, Bool2int, SpamFirstThenId]

theorem combineLess_total (a b : MsgData) :
    combineLess a b = true ∨ combineLess b a = true := by
  obtain ⟨ia, fa⟩ := a
  obtain ⟨ib, fb⟩ := b
  cases fa <;> cases fb <;> simp [combineLess, Bool2int] <;> unfold MsgID at * <;> omega

theorem combineLess_trans (a b c : MsgData) (hab : combineLess a b = true)
    (hbc : combineLess b c = true) : combineLess a c = true := by
  obtain ⟨ia, fa⟩ := a
  obtain ⟨ib, fb⟩ := b
  obtain ⟨ic, fc⟩ := c
  cases fa <;> cases fb <;> cases fc <;> simp [combineLess, Bool2int] at hab hbc ⊢ <;> unfold MsgID at * <;> omega

theorem spamFirstThenId_antisymm (a b : MsgData) (hab : SpamFirstThenId a b)
    (hba : SpamFirstThenId b a) : a = b := by
  obtain ⟨ia, fa⟩ := a
  obtain ⟨ib, fb⟩ := b
  cases fa <;> cases fb <;> simp [SpamFirstThenId] at hab hba ⊢ <;> unfold MsgID at * <;> omega

theorem sortSlice_combineLess_pairwise (data : List MsgData) :
    (sortSlice combineLess data).Pairwise SpamFirstThenId := by
  refine (sortSlice_pairwise combineLess combineLess_total combineLess_trans data).imp ?_
  intro a b h
  exact (combineLess_iff a b).mp h

/-- A list of results has at most one arrangement in spam-first, id-ascending order. -/
theorem spamFirstThenId_unique (l₁ l₂ : List MsgData) (hp : l₁.Perm l₂)
    (h₁ : l₁.Pairwise SpamFirstThenId) (h₂ : l₂.Pairwise SpamFirstThenId) : l₁ = l₂ := by
  haveI : IsAntisymm MsgData SpamFirstThenId := ⟨spamFirstThenId_antisymm⟩
  exact List.eq_of_perm_of_sorted hp h₁ h₂

/-! ## Facts about the receive loop of `CombineResults` -/

theorem combineCollect_msgData (data acc : List MsgData) (n : Nat) :
    combineCollect (data.map Item.msgData) acc n = (some (acc ++ data), n + data.length) := by
  induction data generalizing acc n with
  | nil => simp [combineCollect]
  | cons d rest ih =>
    simp only [List.map_cons, combineCollect, ih, List.length_cons, List.append_assoc,
      List.singleton_append]
    congr 1
    omega

theorem CombineResults_msgData (data : List MsgData) :
    CombineResults (data.map Item.msgData) =
      { received := data.length, out := (sortSlice combineLess data).map fmtLine } := by
  unfold CombineResults
  rw [combineCollect_msgData]
  simp

theorem combineCollect_ill_typed (input : List Item) (acc : List MsgData) (n : Nat)
    (h : ∃ it ∈ input, it.isMsgData = false) :
    combineCollect input acc n = (none, n + (input.takeWhile Item.isMsgData).length + 1) := by
  induction input generalizing acc n with
  | nil => simp at h
  | cons it rest ih =>
    cases it with
    | msgData d =>
      have h1 : ∃ it ∈ rest, it.isMsgData = false := by
        obtain ⟨x, hx, hb⟩ := h
        rcases List.mem_cons.mp hx with hx1 | hx1
        · rw [hx1] at hb
          simp [Item.isMsgData] at hb
        · exact ⟨x, hx1, hb⟩
      simp only [combineCollect, ih _ _ h1, List.takeWhile_cons, Item.isMsgData, if_true,
        List.length_cons]
      congr 1
      omega
    | str s => simp [combineCollect, List.takeWhile_cons, Item.isMsgData]
    | user u => simp [combineCollect, List.takeWhile_cons, Item.isMsgData]
    | msgID m => simp [combineCollect, List.takeWhile_cons, Item.isMsgData]
    | other t => simp [combineCollect, List.takeWhile_cons, Item.isMsgData]

/-! ## `CombineResults`: the stage -/

/-- C1: on an input stream of `MsgData` items only, the lines `CombineResults` emits are the
renderings of a permutation of the inputs in which no non-spam item precedes a spam item and
in which, among items with the same flag, the ids ascend; the inputs (5,false), (2,true),
(9,true), (1,false) give `true 2`, `true 9`, `false 1`, `false 5`. -/
theorem combineResults_sorted_perm (data : List MsgData) :
    (∃ sorted : List MsgData, sorted.Perm data ∧ sorted.Pairwise SpamFirstThenId ∧
      (CombineResults (data.map Item.msgData)).out = sorted.map fmtLine) ∧
    (CombineResults [Item.msgData ⟨5, false⟩, Item.msgData ⟨2, true⟩, Item.msgData ⟨9, true⟩,
      Item.msgData ⟨1, false⟩]).out = ["true 2", "true 9", "false 1", "false 5"] := by
  refine ⟨⟨sortSlice combineLess data, sortSlice_perm _ _, sortSlice_combineLess_pairwise _, ?_⟩,
    by decide⟩
  rw [CombineResults_msgData]

/-- C8: on an input stream with at least one item that is not a `MsgData`, `CombineResults`
emits no line, and the items it receives are exactly those up to and including the first
ill-typed one. -/
theorem combineResults_ill_typed (input : List Item)
    (h : ∃ it ∈ input, it.isMsgData = false) :
    (CombineResults input).out = [] ∧
      (CombineResults input).received = (input.takeWhile Item.isMsgData).length + 1 := by
  unfold CombineResults
  rw [combineCollect_ill_typed input [] 0 h]
  simp

theorem combineResults_ill_typed_witness :
    (∃ it ∈ [Item.msgData ⟨5, false⟩, Item.msgID 3, Item.msgData ⟨2, true⟩],
      it.isMsgData = false) ∧
    (CombineResults [Item.msgData ⟨5, false⟩, Item.msgID 3, Item.msgData ⟨2, true⟩]).out = [] ∧
    (CombineResults [Item.msgData ⟨5, false⟩, Item.msgID 3, Item.msgData ⟨2, true⟩]).received
      = 2 :=
  ⟨⟨Item.msgID 3, by decide, rfl⟩,
    combineResults_ill_typed [Item.msgData ⟨5, false⟩, Item.msgID 3, Item.msgData ⟨2, true⟩]
      ⟨Item.msgID 3, by decide, rfl⟩⟩

/-- C9: on an input stream of `n` `MsgData` items `CombineResults` emits exactly `n` strings,
and the `i`-th string is `true` or `false` (the spam flag), one space, and the message id in
decimal, of the `i`-th item of the inputs arranged in spam-first, id-ascending order. -/
theorem combineResults_lines (data sorted : List MsgData) (hp : sorted.Perm data)
    (hs : sorted.Pairwise SpamFirstThenId) :
    (CombineResults (data.map Item.msgData)).out.length = data.length ∧
    ∀ (i : Nat) (d : MsgData), sorted[i]? = some d →
      (CombineResults (data.map Item.msgData)).out[i]? =
        some ((if d.HasSpam then "true" else "false") ++ " " ++ Nat.repr d.ID) := by
  have heq : sortSlice combineLess data = sorted :=
    spamFirstThenId_unique _ _ ((sortSlice_perm _ _).trans hp.symm)
      (sortSlice_combineLess_pairwise _) hs
  rw [CombineResults_msgData]
  refine ⟨?_, ?_⟩
  · simp [(sortSlice_perm combineLess data).length_eq]
  · intro i d hd
    simp only [heq, List.getElem?_map, hd, Option.map_some', fmtLine, fmtBool]

theorem combineResults_lines_witness :
    [(⟨2, true⟩ : MsgData), ⟨1, false⟩, ⟨5, false⟩].Perm [⟨5, false⟩, ⟨2, true⟩, ⟨1, false⟩] ∧
    [(⟨2, true⟩ : MsgData), ⟨1, false⟩, ⟨5, false⟩].Pairwise SpamFirstThenId ∧
    (CombineResults [Item.msgData ⟨5, false⟩, Item.msgData ⟨2, true⟩,
      Item.msgData ⟨1, false⟩]).out.length = 3 ∧
    (CombineResults [Item.msgData ⟨5, false⟩, Item.msgData ⟨2, true⟩,
      Item.msgData ⟨1, false⟩]).out[1]? = some "false 1" :=
  ⟨by decide, by decide,
    (combineResults_lines [⟨5, false⟩, ⟨2, true⟩, ⟨1, false⟩]
      [⟨2, true⟩, ⟨1, false⟩, ⟨5, false⟩] (by decide) (by decide)).1,
    (combineResults_lines [⟨5, false⟩, ⟨2, true⟩, ⟨1, false⟩]
      [⟨2, true⟩, ⟨1, false⟩, ⟨5, false⟩] (by decide) (by decide)).2 1 ⟨1, false⟩ rfl⟩

/-- C10: two input streams of `MsgData` items that are permutations of one another make
`CombineResults` emit the same sequence of lines. -/
theorem combineResults_perm_invariant (xs ys : List MsgData) (h : xs.Perm ys) :
    (CombineResults (xs.map Item.msgData)).out = (CombineResults (ys.map Item.msgData)).out := by
  rw [CombineResults_msgData, CombineResults_msgData]
  have heq : sortSlice combineLess xs = sortSlice combineLess ys :=
    spamFirstThenId_unique _ _
      (((sortSlice_perm _ _).trans h).trans (sortSlice_perm _ _).symm)
      (sortSlice_combineLess_pairwise _) (sortSlice_combineLess_pairwise _)
  simp [heq]

theorem combineResults_perm_invariant_witness :
    [(⟨5, false⟩ : MsgData), ⟨2, true⟩, ⟨5, false⟩, ⟨9, true⟩].Perm
      [⟨9, true⟩, ⟨5, false⟩, ⟨5, false⟩, ⟨2, true⟩] ∧
    (CombineResults ([(⟨5, false⟩ : MsgData), ⟨2, true⟩, ⟨5, false⟩, ⟨9, true⟩].map
      Item.msgData)).out =
    (CombineResults ([(⟨9, true⟩ : MsgData), ⟨5, false⟩, ⟨5, false⟩, ⟨2, true⟩].map
      Item.msgData)).out :=
  ⟨by decide, combineResults_perm_invariant _ _ (by decide)⟩

/-! ## `CheckSpam`: the worker -/

/-- C2: when the first `k` calls of `HasSpam` (`k` one of 0, 1, 2) fail with "too many
requests" and call number `k` succeeds, the worker makes the calls 0 to `k` and no other
(`k + 1` calls, at most 3), sleeps `50 * 2 ^ i` ms after failed attempt `i` and not after the
successful one (`50 * (2 ^ k - 1)` ms in total), and sends one `MsgData` with the message id
and the flag of the successful call. -/
theorem checkSpamWorker_retry_then_success (hasSpam : Nat → MsgID → Bool × Option String)
    (msg : MsgID) (k : Nat) (hk : k ≤ 2)
    (hfail : ∀ i, i < k → (hasSpam i msg).2 = some "too many requests")
    (hok : (hasSpam k msg).2 = none) :
    checkSpamWorker hasSpam msg =
      { trace := backoffTrace k, sent := some { ID := msg, HasSpam := (hasSpam k msg).1 } } ∧
    callCount (backoffTrace k) = k + 1 ∧ k + 1 ≤ 3 ∧
    sleepTotal (backoffTrace k) = 50 * (2 ^ k - 1) := by
  interval_cases k
  · simp [checkSpamWorker, retryLoop, List.range, List.range.loop, hok, backoffTrace,
      callCount, sleepTotal]
  · have h0 := hfail 0 (by omega)
    simp [checkSpamWorker, retryLoop, List.range, List.range.loop, hok, h0, backoffTrace,
      callCount, sleepTotal]
  · have h0 := hfail 0 (by omega)
    have h1 := hfail 1 (by omega)
    simp [checkSpamWorker, retryLoop, List.range, List.range.loop, hok, h0, h1, backoffTrace,
      callCount, sleepTotal]

theorem checkSpamWorker_retry_then_success_witness :
    (2 ≤ 2) ∧
    (∀ i, i < 2 → ((fun (a : Nat) (_ : MsgID) =>
      if a < 2 then (false, some "too many requests") else (true, none)) i 7).2 =
        some "too many requests") ∧
    checkSpamWorker (fun a _ => if a < 2 then (false, some "too many requests") else (true, none))
        7 =
      { trace := [WorkerEvent.call 0, WorkerEvent.sleep 50, WorkerEvent.call 1,
          WorkerEvent.sleep 100, WorkerEvent.call 2],
        sent := some { ID := 7, HasSpam := true } } ∧
    callCount (backoffTrace 2) = 3 ∧ sleepTotal (backoffTrace 2) = 150 :=
  have h := checkSpamWorker_retry_then_success
    (fun a _ => if a < 2 then (false, some "too many requests") else (true, none)) 7 2
    (by decide) (by intro i hi; simp [hi]) (by simp)
  ⟨by decide, by intro i hi; simp [hi], h.1, h.2.1, h.2.2.2⟩

/-- C4: when an attempt of `HasSpam` (number `j`, reached after `j` failures with "too many
requests") fails with an error whose text is not "too many requests", the worker's trace ends
with that call (no later call, no sleep after it) and the worker sends nothing. -/
theorem checkSpamWorker_other_error (hasSpam : Nat → MsgID → Bool × Option String)
    (msg : MsgID) (j : Nat) (e : String) (hj : j ≤ 2)
    (hfail : ∀ i, i < j → (hasSpam i msg).2 = some "too many requests")
    (herr : (hasSpam j msg).2 = some e) (hne : e ≠ "too many requests") :
    checkSpamWorker hasSpam msg = { trace := backoffTrace j, sent := none } ∧
    callCount (backoffTrace j) = j + 1 ∧
    (backoffTrace j).getLast? = some (WorkerEvent.call j) := by
  interval_cases j
  · simp [checkSpamWorker, retryLoop, List.range, List.range.loop, herr, hne, backoffTrace,
      callCount]
  · have h0 := hfail 0 (by omega)
    simp [checkSpamWorker, retryLoop, List.range, List.range.loop, herr, hne, h0, backoffTrace,
      callCount]
  · have h0 := hfail 0 (by omega)
    have h1 := hfail 1 (by omega)
    simp [checkSpamWorker, retryLoop, List.range, List.range.loop, herr, hne, h0, h1,
      backoffTrace, callCount]

theorem checkSpamWorker_other_error_witness :
    (1 ≤ 2) ∧ ("boom" ≠ "too many requests") ∧
    checkSpamWorker (fun a _ => if a < 1 then (false, some "too many requests")
        else (true, some "boom")) 7 =
      { trace := [WorkerEvent.call 0, WorkerEvent.sleep 50, WorkerEvent.call 1], sent := none } :=
  ⟨by decide, by decide,
    (checkSpamWorker_other_error
      (fun a _ => if a < 1 then (false, some "too many requests") else (true, some "boom"))
      7 1 "boom" (by decide) (by intro i hi; simp [hi]) (by simp) (by decide)).1⟩

theorem checkSpamWorker_always_failing (hasSpam : Nat → MsgID → Bool × Option String)
    (msg : MsgID) (hfail : ∀ i, i < 3 → (hasSpam i msg).2 = some "too many requests") :
    checkSpamWorker hasSpam msg =
      { trace := backoffTrace 2 ++ [WorkerEvent.sleep 200], sent := none } := by
  have h0 := hfail 0 (by omega)
  have h1 := hfail 1 (by omega)
  have h2 := hfail 2 (by omega)
  simp [checkSpamWorker, retryLoop, List.range, List.range.loop, h0, h1, h2, backoffTrace]

/-! ## `CheckSpam`: the stage -/

theorem perm_erase_append_singleton {α : Type} [DecidableEq α] (l m : List α) (w : α)
    (h : w ∈ l) : (l.erase w ++ (m ++ [w])).Perm (l ++ m) := by
  have h1 : (l.erase w ++ (m ++ [w])).Perm (l.erase w ++ w :: m) :=
    List.Perm.append_left _ (List.perm_append_comm : (m ++ [w]).Perm ([w] ++ m))
  have h2 : (l.erase w ++ w :: m).Perm (w :: (l.erase w ++ m)) := List.perm_middle
  have h3 : (w :: (l.erase w ++ m)).Perm (l ++ m) := by
    have := (List.perm_cons_erase h).symm
    simpa using List.Perm.append_right m this
  exact (h1.trans h2).trans h3

theorem checkSpamSuccesses_append (hasSpam : Nat → Nat → MsgID → Bool × Option String)
    (l₁ l₂ : List Worker) :
    checkSpamSuccesses hasSpam (l₁ ++ l₂) =
      checkSpamSuccesses hasSpam l₁ ++ checkSpamSuccesses hasSpam l₂ := by
  simp [checkSpamSuccesses, List.filterMap_append]

theorem checkSpamSuccesses_perm (hasSpam : Nat → Nat → MsgID → Bool × Option String)
    {l₁ l₂ : List Worker} (h : l₁.Perm l₂) :
    (checkSpamSuccesses hasSpam l₁).Perm (checkSpamSuccesses hasSpam l₂) :=
  h.filterMap _

theorem checkSpamSuccesses_singleton (hasSpam : Nat → Nat → MsgID → Bool × Option String)
    (w : Worker) :
    checkSpamSuccesses hasSpam [w] =
      match (checkSpamWorker (hasSpam w.idx) w.msg).sent with
      | some d => [Item.msgData d]
      | none => [] := by
  unfold checkSpamSuccesses
  cases h : (checkSpamWorker (hasSpam w.idx) w.msg).sent <;> simp [List.filterMap_cons, h]

theorem csStep_inv (cap : Nat) (hasSpam : Nat → Nat → MsgID → Bool × Option String)
    (ws : List Worker) (e : CSEvent) (s s1 : CSState) (hstep : csStep cap hasSpam e s = some s1)
    (hinv : CSInv hasSpam ws s) : CSInv hasSpam ws s1 := by
  obtain ⟨hws, hout⟩ := hinv
  cases e with
  | acquire w =>
    simp only [csStep] at hstep
    split at hstep
    · rename_i hc
      cases hstep
      refine ⟨?_, hout⟩
      refine List.Perm.trans ?_ hws
      have h1 : (s.spawned.erase w ++ (s.holding ++ [w])).Perm (s.spawned ++ s.holding) :=
        perm_erase_append_singleton _ _ w hc.1
      simpa [List.append_assoc] using (h1.append_right s.exiting).append_right s.finished
    · cases hstep
  | body w =>
    simp only [csStep] at hstep
    split at hstep
    · rename_i hc
      cases hstep
      refine ⟨?_, ?_⟩
      · refine List.Perm.trans ?_ hws
        have h1 : (s.holding.erase w ++ (s.exiting ++ [w])).Perm (s.holding ++ s.exiting) :=
          perm_erase_append_singleton _ _ w hc
        simpa [List.append_assoc] using
          (List.Perm.append_left s.spawned h1).append_right s.finished
      · have h2 : (checkSpamSuccesses hasSpam (s.exiting ++ [w] ++ s.finished)).Perm
            (checkSpamSuccesses hasSpam (s.exiting ++ s.finished) ++
              checkSpamSuccesses hasSpam [w]) := by
          rw [← checkSpamSuccesses_append]
          apply checkSpamSuccesses_perm
          simpa [List.append_assoc] using
            List.Perm.append_left s.exiting (List.perm_append_comm : ([w] ++ s.finished).Perm (s.finished ++ [w]))
        refine List.Perm.trans ?_ h2.symm
        rw [checkSpamSuccesses_singleton]
        cases (checkSpamWorker (hasSpam w.idx) w.msg).sent with
        | none => simpa using hout
        | some d => exact List.Perm.append_right _ hout
    · cases hstep
  | release w =>
    simp only [csStep] at hstep
    split at hstep
    · rename_i hc
      cases hstep
      have h1 : (s.exiting.erase w ++ (s.finished ++ [w])).Perm (s.exiting ++ s.finished) :=
        perm_erase_append_singleton _ _ w hc.1
      refine ⟨?_, ?_⟩
      · refine List.Perm.trans ?_ hws
        simpa [List.append_assoc] using
          List.Perm.append_left (s.spawned ++ s.holding) h1
      · exact hout.trans (checkSpamSuccesses_perm hasSpam h1.symm)
    · cases hstep

theorem csRun_inv (cap : Nat) (hasSpam : Nat → Nat → MsgID → Bool × Option String)
    (ws : List Worker) (sched : List CSEvent) (s s1 : CSState)
    (hrun : csRun cap hasSpam sched s = some s1) (hinv : CSInv hasSpam ws s) :
    CSInv hasSpam ws s1 := by
  induction sched generalizing s with
  | nil =>
    simp only [csRun, Option.some.injEq] at hrun
    rw [← hrun]
    exact hinv
  | cons e es ih =>
    simp only [csRun] at hrun
    split at hrun
    · rename_i s2 h2
      exact ih s2 hrun (csStep_inv cap hasSpam ws e s s2 h2 hinv)
    · cases hrun

theorem csInit_inv (hasSpam : Nat → Nat → MsgID → Bool × Option String) (input : List Item) :
    CSInv hasSpam (spawnWorkers 0 (checkSpamInputs input)) (csInit input) := by
  simp [CSInv, csInit, checkSpamSuccesses]

theorem csRun_sequential (cap : Nat) (hcap : 0 < cap)
    (hasSpam : Nat → Nat → MsgID → Bool × Option String) (ws : List Worker) (s : CSState)
    (hs : s.spawned = ws) (hh : s.holding = []) (he : s.exiting = []) (hg : s.gate = 0) :
    ∃ s1, csRun cap hasSpam (csSequential ws) s = some s1 ∧ csDone s1 = true := by
  induction ws generalizing s with
  | nil =>
    exact ⟨s, by simp [csSequential, csRun], by simp [csDone, hs, hh, he]⟩
  | cons w rest ih =>
    simp only [csSequential, List.flatMap_cons, List.cons_append, List.nil_append, csRun, csStep,
      hs, hh, he, hg, List.mem_cons, true_or, hcap, and_self, if_true, List.erase_cons_head,
      List.nil_append, List.mem_singleton]
    exact ih _ rfl rfl rfl rfl

/-- C3: a worker whose three `HasSpam` calls all fail with "too many requests" makes exactly
these three calls and sends nothing; and whatever the schedule of the workers, when the stage
has finished its output consists, in some order, of exactly the results of the workers whose
retry loop ended in success (a finishing schedule exists as soon as the gate has a slot). -/
theorem checkSpam_drop_on_exhaustion (cap : Nat)
    (hasSpam : Nat → Nat → MsgID → Bool × Option String) (input : List Item) :
    (∀ w ∈ spawnWorkers 0 (checkSpamInputs input),
      (∀ i, i < 3 → (hasSpam w.idx i w.msg).2 = some "too many requests") →
      checkSpamWorker (hasSpam w.idx) w.msg =
        { trace := [WorkerEvent.call 0, WorkerEvent.sleep 50, WorkerEvent.call 1,
            WorkerEvent.sleep 100, WorkerEvent.call 2, WorkerEvent.sleep 200],
          sent := none } ∧
      callCount (checkSpamWorker (hasSpam w.idx) w.msg).trace = 3) ∧
    (0 < cap →
      ∃ sched s, csRun cap hasSpam sched (csInit input) = some s ∧ csDone s = true) ∧
    (∀ sched s, csRun cap hasSpam sched (csInit input) = some s → csDone s = true →
      s.out.Perm (checkSpamSuccesses hasSpam (spawnWorkers 0 (checkSpamInputs input)))) := by
  refine ⟨?_, ?_, ?_⟩
  · intro w _ hfail
    have h := checkSpamWorker_always_failing (hasSpam w.idx) w.msg hfail
    rw [h]
    simp [backoffTrace, callCount]
  · intro hcap
    obtain ⟨s1, h1, h2⟩ := csRun_sequential cap hcap hasSpam
      (spawnWorkers 0 (checkSpamInputs input)) (csInit input) rfl rfl rfl rfl
    exact ⟨_, s1, h1, h2⟩
  · intro sched s hrun hdone
    obtain ⟨hws, hout⟩ := csRun_inv cap hasSpam _ sched _ s hrun (csInit_inv hasSpam input)
    simp only [csDone, Bool.and_eq_true, List.isEmpty_iff] at hdone
    obtain ⟨⟨h1, h2⟩, h3⟩ := hdone
    rw [h1, h2, h3] at hws
    rw [h3] at hout
    simp only [List.nil_append] at hws hout
    exact hout.trans (checkSpamSuccesses_perm hasSpam hws)

theorem checkSpam_drop_on_exhaustion_witness :
    (({ idx := 0, msg := 5 } : Worker) ∈
      spawnWorkers 0 (checkSpamInputs [Item.msgID 5, Item.msgID 6])) ∧
    (∀ i, i < 3 → ((fun (w : Nat) (_ : Nat) (_ : MsgID) =>
      if w = 0 then (false, some "too many requests") else (true, none)) 0 i 5).2 =
        some "too many requests") ∧
    callCount (checkSpamWorker ((fun (w : Nat) (_ : Nat) (_ : MsgID) =>
      if w = 0 then (false, some "too many requests") else (true, none)) 0) 5).trace = 3 ∧
    csRun 1 (fun w _ _ => if w = 0 then (false, some "too many requests") else (true, none))
      [CSEvent.acquire ⟨1, 6⟩, CSEvent.body ⟨1, 6⟩, CSEvent.release ⟨1, 6⟩,
        CSEvent.acquire ⟨0, 5⟩, CSEvent.body ⟨0, 5⟩, CSEvent.release ⟨0, 5⟩]
      (csInit [Item.msgID 5, Item.msgID 6]) =
      some { spawned := [], holding := [], exiting := [], finished := [⟨1, 6⟩, ⟨0, 5⟩],
             gate := 0, out := [Item.msgData ⟨6, true⟩] } ∧
    [Item.msgData ⟨6, true⟩].Perm
      (checkSpamSuccesses
        (fun w _ _ => if w = 0 then (false, some "too many requests") else (true, none))
        (spawnWorkers 0 (checkSpamInputs [Item.msgID 5, Item.msgID 6]))) :=
  have h := checkSpam_drop_on_exhaustion 1
    (fun w _ _ => if w = 0 then (false, some "too many requests") else (true, none))
    [Item.msgID 5, Item.msgID 6]
  ⟨by decide, by intro i _; simp,
    (h.1 ⟨0, 5⟩ (by decide) (by intro i _; simp)).2, by decide,
    h.2.2 [CSEvent.acquire ⟨1, 6⟩, CSEvent.body ⟨1, 6⟩, CSEvent.release ⟨1, 6⟩,
        CSEvent.acquire ⟨0, 5⟩, CSEvent.body ⟨0, 5⟩, CSEvent.release ⟨0, 5⟩]
      { spawned := [], holding := [], exiting := [], finished := [⟨1, 6⟩, ⟨0, 5⟩],
        gate := 0, out := [Item.msgData ⟨6, true⟩] } (by decide) (by decide)⟩

/-! ## `SelectUsers` -/

theorem itemUsers_append (l₁ l₂ : List Item) :
    itemUsers (l₁ ++ l₂) = itemUsers l₁ ++ itemUsers l₂ := by
  induction l₁ with
  | nil => rfl
  | cons it rest ih => cases it <;> simp [itemUsers, ih]

theorem suStep_inv (us : List User) (e : SUEvent) (s s1 : SUState)
    (hstep : suStep e s = some s1) (hinv : SUInv us s) : SUInv us s1 := by
  obtain ⟨hsub, hnd, hproc, hcov, hout⟩ := hinv
  cases e with
  | lock u =>
    simp only [suStep] at hstep
    split at hstep
    · rename_i hmem
      split at hstep
      · rename_i hseen
        cases hstep
        refine ⟨?_, hnd, hproc, ?_, hout⟩
        · intro v hv
          apply hsub
          simp only [List.mem_append] at hv ⊢
          rcases hv with (hv | hv) | hv
          · exact Or.inl (Or.inl (List.mem_of_mem_erase hv))
          · exact Or.inl (Or.inr hv)
          · exact Or.inr hv
        · intro v hv
          rcases hcov v hv with h1 | h1
          · by_cases hvu : v = u
            · right; rw [hvu]; exact hseen
            · left; exact (List.mem_erase_of_ne hvu).mpr h1
          · exact Or.inr h1
      · rename_i hseen
        cases hstep
        have hfresh : u.Email ∉ (s.sending ++ itemUsers s.out).map User.Email :=
          fun h => hseen ((hproc _).mpr h)
        refine ⟨?_, ?_, ?_, ?_, hout⟩
        · intro v hv
          simp only [List.mem_append, List.mem_singleton] at hv
          rcases hv with (hv | hv | hv) | hv
          · exact hsub v (by simp [List.mem_of_mem_erase hv])
          · exact hsub v (by simp [hv])
          · rw [hv]; exact hsub u (by simp [hmem])
          · exact hsub v (by simp [hv])
        · have hperm : (s.sending ++ [u] ++ itemUsers s.out).Perm
              (u :: (s.sending ++ itemUsers s.out)) := by
            simp [List.append_assoc]
          refine ((hperm.map User.Email).nodup_iff).mpr ?_
          rw [List.map_cons, List.nodup_cons]
          exact ⟨hfresh, hnd⟩
        · intro e
          simp only [List.mem_cons, hproc e, List.map_append, List.mem_append, List.map_cons,
            List.map_nil, List.mem_singleton]
          tauto
        · intro v hv
          rcases hcov v hv with h1 | h1
          · by_cases hvu : v = u
            · right; rw [hvu]; exact List.mem_cons_self _ _
            · left; exact (List.mem_erase_of_ne hvu).mpr h1
          · exact Or.inr (List.mem_cons_of_mem _ h1)
    · cases hstep
  | send u =>
    simp only [suStep] at hstep
    split at hstep
    · rename_i hmem
      cases hstep
      have hperm : (s.sending.erase u ++ (itemUsers s.out ++ [u])).Perm
          (s.sending ++ itemUsers s.out) :=
        perm_erase_append_singleton _ _ u hmem
      have hio : itemUsers (s.out ++ [Item.user u]) = itemUsers s.out ++ [u] := by
        rw [itemUsers_append]; rfl
      refine ⟨?_, ?_, ?_, hcov, ?_⟩
      · intro v hv
        apply hsub
        rw [hio] at hv
        simp only [List.mem_append, List.mem_singleton] at hv ⊢
        rcases hv with (hv | hv) | hv | hv
        · exact Or.inl (Or.inl hv)
        · exact Or.inl (Or.inr (List.mem_of_mem_erase hv))
        · exact Or.inr hv
        · rw [hv]; exact Or.inl (Or.inr hmem)
      · rw [hio]
        exact ((hperm.map User.Email).nodup_iff).mpr hnd
      · intro e
        rw [hio, hproc e]
        exact ((hperm.map User.Email).mem_iff).symm
      · rw [hio, List.map_append, ← hout]
        rfl
    · cases hstep

theorem suRun_inv (us : List User) (sched : List SUEvent) (s s1 : SUState)
    (hrun : suRun sched s = some s1) (hinv : SUInv us s) : SUInv us s1 := by
  induction sched generalizing s with
  | nil =>
    simp only [suRun, Option.some.injEq] at hrun
    rw [← hrun]
    exact hinv
  | cons e es ih =>
    simp only [suRun] at hrun
    split at hrun
    · rename_i s2 h2
      exact ih s2 hrun (suStep_inv us e s s2 h2 hinv)
    · cases hrun

theorem suInit_inv (GetUser : String → User) (input : List Item) :
    SUInv ((selectUsersInputs input).map GetUser) (suInit GetUser input) := by
  simp [SUInv, suInit, itemUsers]

theorem suRun_sequential (us : List User) (s : SUState) (hs : s.resolved = us)
    (hh : s.sending = []) :
    ∃ s1, suRun (suSequential us s.processed) s = some s1 ∧ suDone s1 = true := by
  induction us generalizing s with
  | nil => exact ⟨s, by simp [suSequential, suRun], by simp [suDone, hs, hh]⟩
  | cons u rest ih =>
    unfold suSequential
    by_cases hseen : u.Email ∈ s.processed
    · simp only [hseen, if_true, suRun, suStep, hs, List.mem_cons, true_or,
        List.erase_cons_head]
      exact ih { s with resolved := rest } rfl hh
    · simp only [hseen, if_false, suRun, suStep, hs, hh, List.mem_cons, true_or, if_true,
        List.erase_cons_head, List.nil_append, List.mem_singleton]
      exact ih { resolved := rest, sending := [], processed := u.Email :: s.processed,
                 out := s.out ++ [Item.user u] } rfl rfl

/-- C5: for every input stream and every resolution function `GetUser`, the stage can
finish, and under every interleaving of the goroutines' critical sections and sends, when it
has finished the users it emitted have pairwise distinct `Email`, the e-mails emitted are
exactly the e-mails of the resolved input strings (so the number of users emitted is the
number of distinct e-mails resolved), every emitted user is the resolution of an input
string, and nothing but users is emitted. -/
theorem selectUsers_dedup (GetUser : String → User) (input : List Item) :
    (∃ sched s, suRun sched (suInit GetUser input) = some s ∧ suDone s = true) ∧
    ∀ sched s, suRun sched (suInit GetUser input) = some s → suDone s = true →
      ((itemUsers s.out).map User.Email).Nodup ∧
      (∀ e, e ∈ (itemUsers s.out).map User.Email ↔
        e ∈ (selectUsersInputs input).map (fun x => (GetUser x).Email)) ∧
      (∀ u, u ∈ itemUsers s.out → u ∈ (selectUsersInputs input).map GetUser) ∧
      s.out = (itemUsers s.out).map Item.user ∧
      s.out.length =
        ((selectUsersInputs input).map (fun x => (GetUser x).Email)).dedup.length := by
  refine ⟨?_, ?_⟩
  · obtain ⟨s1, h1, h2⟩ := suRun_sequential ((selectUsersInputs input).map GetUser)
      (suInit GetUser input) rfl rfl
    exact ⟨_, s1, h1, h2⟩
  · intro sched s hrun hdone
    obtain ⟨hsub, hnd, hproc, hcov, hout⟩ :=
      suRun_inv _ sched _ s hrun (suInit_inv GetUser input)
    simp only [suDone, Bool.and_eq_true, List.isEmpty_iff] at hdone
    obtain ⟨h1, h2⟩ := hdone
    rw [h1, h2] at hsub
    rw [h2] at hnd hproc
    simp only [List.nil_append] at hsub hnd hproc
    have hmem : ∀ e, e ∈ (itemUsers s.out).map User.Email ↔
        e ∈ (selectUsersInputs input).map (fun x => (GetUser x).Email) := by
      intro e
      constructor
      · intro he
        obtain ⟨u, hu, hue⟩ := List.mem_map.mp he
        obtain ⟨x, hx, hxu⟩ := List.mem_map.mp (hsub u hu)
        exact List.mem_map.mpr ⟨x, hx, by rw [hxu, hue]⟩
      · intro he
        obtain ⟨x, hx, hxe⟩ := List.mem_map.mp he
        rcases hcov (GetUser x) (List.mem_map.mpr ⟨x, hx, rfl⟩) with h3 | h3
        · rw [h1] at h3
          simp at h3
        · rw [← hxe]
          exact (hproc _).mp h3
    refine ⟨hnd, hmem, hsub, hout, ?_⟩
    have hlen : s.out.length = ((itemUsers s.out).map User.Email).length := by
      conv_lhs => rw [hout]
      simp
    rw [hlen]
    apply List.Perm.length_eq
    rw [List.perm_ext_iff_of_nodup hnd (List.nodup_dedup _)]
    intro e
    rw [hmem e, List.mem_dedup]

theorem selectUsers_dedup_witness :
    suRun [SUEvent.lock ⟨1, "a@x"⟩, SUEvent.lock ⟨2, "c"⟩, SUEvent.send ⟨2, "c"⟩,
        SUEvent.lock ⟨1, "a@x"⟩, SUEvent.send ⟨1, "a@x"⟩]
      (suInit (fun x => if x = "a" ∨ x = "b" then ⟨1, "a@x"⟩ else ⟨2, x⟩)
        [Item.str "a", Item.str "b", Item.other 3, Item.str "c"]) =
      some { resolved := [], sending := [], processed := ["c", "a@x"],
             out := [Item.user ⟨2, "c"⟩, Item.user ⟨1, "a@x"⟩] } ∧
    [Item.user ⟨2, "c"⟩, Item.user ⟨1, "a@x"⟩].length =
      ((selectUsersInputs [Item.str "a", Item.str "b", Item.other 3, Item.str "c"]).map
        (fun x => ((fun x => if x = "a" ∨ x = "b" then (⟨1, "a@x"⟩ : User) else ⟨2, x⟩)
          x).Email)).dedup.length :=
  ⟨by decide,
    ((selectUsers_dedup (fun x => if x = "a" ∨ x = "b" then ⟨1, "a@x"⟩ else ⟨2, x⟩)
      [Item.str "a", Item.str "b", Item.other 3, Item.str "c"]).2
      [SUEvent.lock ⟨1, "a@x"⟩, SUEvent.lock ⟨2, "c"⟩, SUEvent.send ⟨2, "c"⟩,
        SUEvent.lock ⟨1, "a@x"⟩, SUEvent.send ⟨1, "a@x"⟩]
      { resolved := [], sending := [], processed := ["c", "a@x"],
        out := [Item.user ⟨2, "c"⟩, Item.user ⟨1, "a@x"⟩] } (by decide) (by decide)).2.2.2.2⟩

/-! ## `SelectMessages`: the receive loop -/

theorem sliceRead_frame (a x : List User) (tl ext : Heap) (sl : Slice) (h1 : 1 ≤ sl.arr)
    (h2 : sl.arr < (a :: tl).length) :
    sliceRead (x :: (tl ++ ext)) sl = sliceRead (a :: tl) sl := by
  unfold sliceRead
  obtain ⟨k, hk⟩ : ∃ k, sl.arr = k + 1 := ⟨sl.arr - 1, by omega⟩
  rw [hk] at h2 ⊢
  simp only [List.length_cons, Nat.add_lt_add_iff_right] at h2
  simp [List.getD_cons_succ, List.getD_eq_getElem?_getD, List.getElem?_append_left h2]

theorem map_sliceRead_frame (a x : List User) (tl ext : Heap) (sls : List Slice)
    (h : ∀ sl, sl ∈ sls → 1 ≤ sl.arr ∧ sl.arr < (a :: tl).length) :
    sls.map (sliceRead (x :: (tl ++ ext))) = sls.map (sliceRead (a :: tl)) := by
  apply List.map_congr_left
  intro sl hsl
  exact sliceRead_frame a x tl ext sl (h sl hsl).1 (h sl hsl).2

theorem smInv_user (st : SMState) (pending : List User) (emitted : List (List User))
    (usr : User) (rest : List Item) (hinv : SMInv st pending emitted) :
    ∃ st1, selectMessagesLoop (Item.user usr :: rest) st = selectMessagesLoop rest st1 ∧
      SMInv st1 (restBatch (pending ++ [usr])) (emitted ++ fullBatches (pending ++ [usr])) := by
  obtain ⟨hb, hlen, ⟨a, tl, hheap, halen, hpend⟩, hdisp, hcont⟩ := hinv
  obtain ⟨a0, a1, ha⟩ : ∃ a0 a1, a = [a0, a1] := by
    match a, halen with
    | [a0, a1], _ => exact ⟨a0, a1, rfl⟩
  subst ha
  match pending, hlen with
  | [], _ =>
    refine ⟨{ heap := [usr, a1] :: tl, batch := { arr := 0, len := 1, cap := 2 },
              dispatched := st.dispatched }, ?_, ?_⟩
    · simp [selectMessagesLoop, goAppend, hb, hheap]
    · refine ⟨rfl, by simp [restBatch], ⟨[usr, a1], tl, rfl, rfl, by simp [restBatch]⟩, ?_, ?_⟩
      · intro sl hsl
        have := hdisp sl hsl
        simpa [hheap] using this
      · simp only [batchContents, List.nil_append, fullBatches, List.append_nil]
        rw [← hcont]
        simp only [batchContents, hheap]
        have := map_sliceRead_frame [a0, a1] [usr, a1] tl [] st.dispatched
          (by intro sl hsl; simpa [hheap] using hdisp sl hsl)
        simpa using this
  | [p], _ =>
    simp only [List.length_singleton, List.take_succ_cons, List.take_zero,
      List.cons.injEq, and_true] at hpend
    subst hpend
    refine ⟨{ heap := [a0, usr] :: (tl ++ [[a0, usr]]),
              batch := { arr := 0, len := 0, cap := 2 },
              dispatched := st.dispatched ++ [{ arr := tl.length + 1, len := 2, cap := 2 }] },
      ?_, ?_⟩
    · simp [selectMessagesLoop, goAppend, hb, hheap, processBatchStart, emptySlice, sliceRead]
    · refine ⟨rfl, by simp [restBatch], ⟨[a0, usr], tl ++ [[a0, usr]], rfl, rfl,
        by simp [restBatch]⟩, ?_, ?_⟩
      · intro sl hsl
        rcases List.mem_append.mp hsl with h1 | h1
        · have := hdisp sl h1
          simp only [hheap, List.length_cons] at this
          simp only [List.length_cons, List.length_append, List.length_singleton]
          omega
        · simp only [List.mem_singleton] at h1
          subst h1
          simp
      · simp only [batchContents, List.map_append, List.map_cons, List.map_nil,
          List.singleton_append, fullBatches]
        rw [← hcont]
        simp only [batchContents, hheap]
        congr 1
        · exact map_sliceRead_frame [a0, a1] [a0, usr] tl [[a0, usr]] st.dispatched
            (by intro sl hsl; simpa [hheap] using hdisp sl hsl)
        · simp [sliceRead, List.getD_cons_succ, List.getD_eq_getElem?_getD]

theorem fullBatches_step (pending : List User) (hp : pending.length ≤ 1) (u : User)
    (us : List User) :
    fullBatches (pending ++ u :: us) =
      fullBatches (pending ++ [u]) ++ fullBatches (restBatch (pending ++ [u]) ++ us) ∧
    restBatch (pending ++ u :: us) = restBatch (restBatch (pending ++ [u]) ++ us) := by
  match pending, hp with
  | [], _ => simp [fullBatches, restBatch]
  | [p], _ => simp [fullBatches, restBatch]

theorem selectMessagesLoop_inv (input : List Item) (st : SMState) (pending : List User)
    (emitted : List (List User)) (hinv : SMInv st pending emitted) :
    SMInv (selectMessagesLoop input st) (restBatch (pending ++ itemUsers input))
      (emitted ++ fullBatches (pending ++ itemUsers input)) := by
  have hbase : restBatch pending = pending ∧ fullBatches pending = [] := by
    match pending, hinv.2.1 with
    | [], _ => simp [fullBatches, restBatch]
    | [p], _ => simp [fullBatches, restBatch]
  induction input generalizing st pending emitted with
  | nil => simpa [selectMessagesLoop, itemUsers, hbase] using hinv
  | cons it rest ih =>
    cases it with
    | user usr =>
      obtain ⟨st1, h1, h2⟩ := smInv_user st pending emitted usr rest hinv
      have hstep := fullBatches_step pending hinv.2.1 usr (itemUsers rest)
      have hbase1 : restBatch (restBatch (pending ++ [usr])) = restBatch (pending ++ [usr]) ∧
          fullBatches (restBatch (pending ++ [usr])) = [] := by
        match pending, hinv.2.1 with
        | [], _ => simp [fullBatches, restBatch]
        | [p], _ => simp [fullBatches, restBatch]
      have := ih st1 _ _ h2 hbase1
      rw [h1]
      simpa [itemUsers, hstep.1, hstep.2, List.append_assoc] using this
    | str s => simpa [selectMessagesLoop, itemUsers] using ih st pending emitted hinv hbase
    | msgID m => simpa [selectMessagesLoop, itemUsers] using ih st pending emitted hinv hbase
    | msgData d => simpa [selectMessagesLoop, itemUsers] using ih st pending emitted hinv hbase
    | other t => simpa [selectMessagesLoop, itemUsers] using ih st pending emitted hinv hbase

theorem smInit_inv : SMInv smInit [] [] := by
  refine ⟨rfl, by simp, ⟨[zeroUser, zeroUser], [], rfl, rfl, rfl⟩, ?_, rfl⟩
  intro sl hsl
  simp [smInit] at hsl

/-- The batches dispatched by `SelectMessages`, read from the heap at `wg.Wait()`: the
complete batches of the users of the input, followed by the rest when there is one. -/
theorem selectMessagesDispatch_contents (input : List Item) :
    batchContents (selectMessagesLoop input smInit) = fullBatches (itemUsers input) ∧
    batchContents (selectMessagesDispatch input) =
      fullBatches (itemUsers input) ++
        (match restBatch (itemUsers input) with
          | [] => []
          | r :: rs => [r :: rs]) := by
  have hinv := selectMessagesLoop_inv input smInit [] [] smInit_inv
  simp only [List.nil_append] at hinv
  obtain ⟨hb, hlen, ⟨a, tl, hheap, halen, hpend⟩, hdisp, hcont⟩ := hinv
  refine ⟨hcont, ?_⟩
  unfold selectMessagesDispatch
  generalize selectMessagesLoop input smInit = st at hb hlen hheap hpend hdisp hcont
  generalize restBatch (itemUsers input) = pending at hb hlen hpend
  match pending, hlen with
  | [], _ =>
    simp only [hb, List.length_nil, Nat.lt_irrefl, gt_iff_lt, if_false, List.append_nil]
    exact hcont
  | [p], _ =>
    simp only [hb, List.length_singleton, gt_iff_lt, Nat.lt_one_iff, Nat.zero_lt_one, if_true]
    simp only [batchContents, processBatchStart, goAppend, emptySlice, hb, hheap, sliceRead,
      List.map_append, List.map_cons, List.map_nil]
    rw [← hcont]
    simp only [batchContents, hheap]
    have hfr := map_sliceRead_frame a a tl [List.take 0 a ++ List.take 1 a] st.dispatched
      (by intro sl hsl; simpa [hheap] using hdisp sl hsl)
    simp only [List.length_singleton] at hpend
    simp [hpend, sliceRead, List.getD_cons_succ, List.getD_eq_getElem?_getD] at hfr ⊢
    exact hfr

theorem fullBatches_rest_eq_pairBatches : ∀ us : List User,
    fullBatches us ++ (match restBatch us with
      | [] => []
      | r :: rs => [r :: rs]) = pairBatches us
  | [] => rfl
  | [_] => rfl
  | a :: b :: rest => by
    simp only [fullBatches, restBatch, pairBatches, List.cons_append]
    rw [fullBatches_rest_eq_pairBatches rest]

theorem pairBatches_length : ∀ us : List User, (pairBatches us).length = (us.length + 1) / 2
  | [] => rfl
  | [_] => by simp [pairBatches]
  | a :: b :: rest => by
    simp only [pairBatches, List.length_cons, pairBatches_length rest]
    omega

theorem pairBatches_getElem? : ∀ (us : List User) (k : Nat), k < (us.length + 1) / 2 →
    (pairBatches us)[k]? = some ((us.drop (2 * k)).take 2)
  | [], k, h => by simp at h
  | [a], k, h => by
    have hk : k = 0 := by simp at h; omega
    subst hk
    rfl
  | a :: b :: rest, 0, _ => by simp [pairBatches]
  | a :: b :: rest, k + 1, h => by
    have h1 : k < (rest.length + 1) / 2 := by
      simp only [List.length_cons] at h
      omega
    have := pairBatches_getElem? rest k h1
    simpa [pairBatches, Nat.mul_add] using this

theorem itemUsers_map_user (us : List User) : itemUsers (us.map Item.user) = us := by
  induction us with
  | nil => rfl
  | cons u rest ih => simp [itemUsers, ih]

theorem fallbackLoop_eq (getMessages : Nat → List User → List MsgID × Option String)
    (us : List User) (n : Nat) (run : BatchRun) :
    fallbackLoop getMessages us n run =
      { calls := run.calls ++ us.map (fun u => [u])
        out := run.out ++ fallbackResults getMessages us n } := by
  induction us generalizing n run with
  | nil => simp [fallbackLoop, fallbackResults]
  | cons u rest ih =>
    simp only [fallbackLoop, ih, fallbackResults, List.map_cons, List.append_assoc,
      List.singleton_append]
    cases (getMessages n [u]).2 <;> simp

/-- C6: on an input stream of `N` users `SelectMessages` starts exactly `(N + 1) / 2` batch
goroutines (none for `N = 0`), each of which makes one `GetMessages` call with its whole
batch before any other call; the batch of the `k`-th one, read from the heap once all
batches are dispatched, is the users `2k` and `2k + 1` of the stream (the last user alone
when `N` is odd); and after every iteration of the loop the batches started so far still
read as the complete pairs received so far, whatever was appended to the accumulator since. -/
theorem selectMessages_batches (us : List User) :
    (selectMessagesDispatch (us.map Item.user)).dispatched.length = (us.length + 1) / 2 ∧
    (∀ k, k < (us.length + 1) / 2 →
      (batchContents (selectMessagesDispatch (us.map Item.user)))[k]? =
        some ((us.drop (2 * k)).take 2)) ∧
    batchContents (selectMessagesLoop (us.map Item.user) smInit) = fullBatches us ∧
    (selectMessagesDispatch []).dispatched = [] ∧
    (∀ (getMessages : Nat → List User → List MsgID × Option String) (curBatch : List User),
      (processBatchWorker getMessages curBatch).calls.head? = some curBatch) := by
  have h := selectMessagesDispatch_contents (us.map Item.user)
  rw [itemUsers_map_user, fullBatches_rest_eq_pairBatches] at h
  refine ⟨?_, ?_, h.1, rfl, ?_⟩
  rotate_left 2
  · intro getMessages curBatch
    simp only [processBatchWorker]
    split <;> simp [fallbackLoop_eq]
  · have hl := congrArg List.length h.2
    rw [pairBatches_length] at hl
    simpa [batchContents] using hl
  · intro k hk
    rw [h.2]
    exact pairBatches_getElem? us k hk

theorem selectMessages_batches_witness :
    (1 < (([⟨1, "a"⟩, ⟨2, "b"⟩, ⟨3, "c"⟩] : List User).length + 1) / 2) ∧
    (selectMessagesDispatch
      (([⟨1, "a"⟩, ⟨2, "b"⟩, ⟨3, "c"⟩] : List User).map Item.user)).dispatched.length = 2 ∧
    (batchContents (selectMessagesDispatch
      (([⟨1, "a"⟩, ⟨2, "b"⟩, ⟨3, "c"⟩] : List User).map Item.user)))[1]? = some [⟨3, "c"⟩] :=
  ⟨by decide, (selectMessages_batches [⟨1, "a"⟩, ⟨2, "b"⟩, ⟨3, "c"⟩]).1,
    (selectMessages_batches [⟨1, "a"⟩, ⟨2, "b"⟩, ⟨3, "c"⟩]).2.1 1 (by decide)⟩

/-! ## `SelectMessages`: the batch goroutine -/

/-- C7: when the batch call of `GetMessages` succeeds the goroutine makes no other call and
emits exactly the message ids it returned; when it fails the goroutine then calls
`GetMessages` once for each user of the batch, in batch order, and emits exactly the ids
returned by the individual calls that succeeded, nothing for a user whose call failed. -/
theorem processBatch_fallback (getMessages : Nat → List User → List MsgID × Option String)
    (curBatch : List User) :
    ((getMessages 0 curBatch).2 = none →
      processBatchWorker getMessages curBatch =
        { calls := [curBatch], out := (getMessages 0 curBatch).1 }) ∧
    (∀ e, (getMessages 0 curBatch).2 = some e →
      processBatchWorker getMessages curBatch =
        { calls := curBatch :: curBatch.map (fun u => [u])
          out := fallbackResults getMessages curBatch 1 }) := by
  refine ⟨?_, ?_⟩
  · intro h
    simp [processBatchWorker, h]
  · intro e h
    simp [processBatchWorker, h, fallbackLoop_eq]

theorem processBatch_fallback_witness :
    ((fun (n : Nat) (us : List User) =>
        if n = 0 then ([99], some "fail") else if n = 2 then ([77], some "x")
        else (us.map User.ID, (none : Option String))) 0 [⟨1, "a"⟩, ⟨2, "b"⟩]).2 = some "fail" ∧
    processBatchWorker (fun n us =>
        if n = 0 then ([99], some "fail") else if n = 2 then ([77], some "x")
        else (us.map User.ID, none)) [⟨1, "a"⟩, ⟨2, "b"⟩] =
      { calls := [[⟨1, "a"⟩, ⟨2, "b"⟩], [⟨1, "a"⟩], [⟨2, "b"⟩]], out := [1] } ∧
    ((fun (_ : Nat) (us : List User) => (us.map User.ID, (none : Option String)))
        0 [⟨1, "a"⟩, ⟨2, "b"⟩]).2 = none ∧
    processBatchWorker (fun _ us => (us.map User.ID, none)) [⟨1, "a"⟩, ⟨2, "b"⟩] =
      { calls := [[⟨1, "a"⟩, ⟨2, "b"⟩]], out := [1, 2] } :=
  ⟨rfl,
    (processBatch_fallback (fun n us =>
        if n = 0 then ([99], some "fail") else if n = 2 then ([77], some "x")
        else (us.map User.ID, none)) [⟨1, "a"⟩, ⟨2, "b"⟩]).2 "fail" rfl,
    rfl,
    (processBatch_fallback (fun _ us => (us.map User.ID, none)) [⟨1, "a"⟩, ⟨2, "b"⟩]).1 rfl⟩

/-! ## `CheckSpam`: the process-wide gate -/

theorem csStep_gate (cap : Nat) (hasSpam : Nat → Nat → MsgID → Bool × Option String)
    (e : CSEvent) (s s1 : CSState) (hstep : csStep cap hasSpam e s = some s1)
    (hg : s.gate = s.holding.length + s.exiting.length) (hle : s.gate ≤ cap) :
    s1.gate = s1.holding.length + s1.exiting.length ∧ s1.gate ≤ cap ∧
    (s.spawned = [] ∧ s.holding = [] ∧ s.exiting = [] → False) := by
  cases e with
  | acquire w =>
    simp only [csStep] at hstep
    split at hstep
    · rename_i hc
      cases hstep
      refine ⟨?_, ?_, ?_⟩
      · simp only [List.length_append, List.length_singleton]
        omega
      · simp only
        omega
      · intro h
        rw [h.1] at hc
        simp at hc
    · cases hstep
  | body w =>
    simp only [csStep] at hstep
    split at hstep
    · rename_i hc
      cases hstep
      have hl := List.length_erase_of_mem hc
      have hpos : 0 < s.holding.length := List.length_pos_of_mem hc
      refine ⟨?_, hle, ?_⟩
      · simp only [List.length_append, List.length_singleton, hl]
        omega
      · intro h
        rw [h.2.1] at hc
        simp at hc
    · cases hstep
  | release w =>
    simp only [csStep] at hstep
    split at hstep
    · rename_i hc
      cases hstep
      have hl := List.length_erase_of_mem hc.1
      have hpos : 0 < s.exiting.length := List.length_pos_of_mem hc.1
      refine ⟨?_, ?_, ?_⟩
      · simp only [hl]
        omega
      · simp only
        omega
      · intro h
        rw [h.2.2] at hc
        simp at hc
    · cases hstep

theorem procStep_inv (maxAsync : Nat) (hasSpam : Nat → Nat → MsgID → Bool × Option String)
    (e : ProcEvent) (p p1 : Proc) (hstep : procStep maxAsync hasSpam e p = some p1)
    (hinv : ProcInv maxAsync p) : ProcInv maxAsync p1 := by
  obtain ⟨hcap, hg, hle, hpre⟩ := hinv
  cases e with
  | invoke input =>
    simp only [procStep, Option.some.injEq] at hstep
    subst hstep
    cases hinit : p.globals.semaphoreInitialized with
    | true =>
      refine ⟨?_, ?_, ?_, ?_⟩
      · simp [gateInit, hinit, hcap]
      · simpa [hinit] using hg
      · simpa [hinit] using hle
      · simp [gateInit, hinit]
    | false =>
      obtain ⟨_, h2, h3⟩ := hpre hinit
      refine ⟨?_, ?_, ?_, ?_⟩
      · simp [gateInit, hinit]
      · simp [hinit, h2, h3]
      · simp [hinit]
      · simp [gateInit, hinit]
  | worker ev =>
    simp only [procStep] at hstep
    split at hstep
    · rename_i st hst
      cases hstep
      rw [hcap] at hst
      obtain ⟨h1, h2, h3⟩ := csStep_gate maxAsync hasSpam ev p.stage st hst hg hle
      refine ⟨hcap, h1, h2, ?_⟩
      intro hinit
      exact absurd (hpre hinit) h3
    · cases hstep

theorem procRun_inv (maxAsync : Nat) (hasSpam : Nat → Nat → MsgID → Bool × Option String)
    (evs : List ProcEvent) (p p1 : Proc) (hrun : procRun maxAsync hasSpam evs p = some p1)
    (hinv : ProcInv maxAsync p) : ProcInv maxAsync p1 := by
  induction evs generalizing p with
  | nil =>
    simp only [procRun, Option.some.injEq] at hrun
    rw [← hrun]
    exact hinv
  | cons e es ih =>
    simp only [procRun] at hrun
    split at hrun
    · rename_i p2 h2
      exact ih p2 hrun (procStep_inv maxAsync hasSpam e p p2 h2 hinv)
    · cases hrun

theorem procStart_inv (maxAsync : Nat) : ProcInv maxAsync (procStart maxAsync) := by
  simp [ProcInv, procStart, globalsStart]

/-- C11: in every state the process can reach from its start, whatever the invocations of
`CheckSpam`, their inputs and the schedule of their workers, the workers that have acquired
a gate slot and not yet released it are as many as the tokens in the gate channel and at
most `HasSpamMaxAsyncRequests`; so are, among them, the workers that may be inside a
`HasSpam` call. -/
theorem checkSpam_gate_bound (maxAsync : Nat)
    (hasSpam : Nat → Nat → MsgID → Bool × Option String) (evs : List ProcEvent) (p : Proc)
    (hrun : procRun maxAsync hasSpam evs (procStart maxAsync) = some p) :
    p.stage.holding.length + p.stage.exiting.length ≤ maxAsync ∧
    p.stage.holding.length ≤ maxAsync ∧
    p.stage.gate = p.stage.holding.length + p.stage.exiting.length := by
  obtain ⟨_, hg, hle, _⟩ := procRun_inv maxAsync hasSpam evs _ p hrun (procStart_inv maxAsync)
  omega

theorem checkSpam_gate_bound_witness :
    procRun 1 (fun _ _ _ => (true, none))
      [ProcEvent.invoke [Item.msgID 5, Item.msgID 6], ProcEvent.invoke [Item.msgID 7],
        ProcEvent.worker (CSEvent.acquire ⟨2, 7⟩)] (procStart 1) =
      some { globals := { globalSpamSemaphore := 1, semaphoreCap := 1,
                          semaphoreInitialized := true, made := 2 }
             stage := { spawned := [⟨0, 5⟩, ⟨1, 6⟩], holding := [⟨2, 7⟩], exiting := [],
                        finished := [], gate := 1, out := [] }
             nextIdx := 3 } ∧
    procRun 1 (fun _ _ _ => (true, none))
      [ProcEvent.invoke [Item.msgID 5, Item.msgID 6], ProcEvent.invoke [Item.msgID 7],
        ProcEvent.worker (CSEvent.acquire ⟨2, 7⟩), ProcEvent.worker (CSEvent.acquire ⟨0, 5⟩)]
      (procStart 1) = none ∧
    ([(⟨2, 7⟩ : Worker)].length + ([] : List Worker).length ≤ 1) :=
  ⟨by decide, by decide,
    (checkSpam_gate_bound 1 (fun _ _ _ => (true, none))
      [ProcEvent.invoke [Item.msgID 5, Item.msgID 6], ProcEvent.invoke [Item.msgID 7],
        ProcEvent.worker (CSEvent.acquire ⟨2, 7⟩)]
      { globals := { globalSpamSemaphore := 1, semaphoreCap := 1,
                     semaphoreInitialized := true, made := 2 }
        stage := { spawned := [⟨0, 5⟩, ⟨1, 6⟩], holding := [⟨2, 7⟩], exiting := [],
                   finished := [], gate := 1, out := [] }
        nextIdx := 3 } (by decide)).1⟩

/-- C12: a worker makes no `HasSpam` call before it has acquired a slot; its acquire takes
exactly one slot, its body keeps it whatever the exit path of the retry loop (a result is
sent on success, nothing otherwise), and its deferred release gives exactly one slot back,
so that the number of occupied slots after the worker has finished is the number before it
started; a finished worker neither acquires nor releases again. -/
theorem checkSpamWorker_slot (cap : Nat) (hasSpam : Nat → Nat → MsgID → Bool × Option String)
    (s : CSState) (w : Worker) (hw : w ∈ s.spawned) (hnd : s.spawned.Nodup)
    (hnh : w ∉ s.holding) (hne : w ∉ s.exiting) (hfree : s.gate < cap) :
    csStep cap hasSpam (CSEvent.body w) s = none ∧
    ∃ s1 s2 s3,
      csStep cap hasSpam (CSEvent.acquire w) s = some s1 ∧ s1.gate = s.gate + 1 ∧
      csStep cap hasSpam (CSEvent.body w) s1 = some s2 ∧ s2.gate = s.gate + 1 ∧
      s2.out = (match (checkSpamWorker (hasSpam w.idx) w.msg).sent with
        | some d => s.out ++ [Item.msgData d]
        | none => s.out) ∧
      csStep cap hasSpam (CSEvent.release w) s2 = some s3 ∧ s3.gate = s.gate ∧
      w ∈ s3.finished ∧
      csStep cap hasSpam (CSEvent.acquire w) s3 = none ∧
      csStep cap hasSpam (CSEvent.body w) s3 = none ∧
      csStep cap hasSpam (CSEvent.release w) s3 = none := by
  have he1 : (s.holding ++ [w]).erase w = s.holding := by
    rw [List.erase_append_right _ hnh]
    simp
  have he2 : (s.exiting ++ [w]).erase w = s.exiting := by
    rw [List.erase_append_right _ hne]
    simp
  have hsp : w ∉ s.spawned.erase w := fun h => (List.Nodup.mem_erase_iff hnd).mp h |>.1 rfl
  refine ⟨by simp [csStep, hnh],
    { s with spawned := s.spawned.erase w, holding := s.holding ++ [w], gate := s.gate + 1 },
    { s with
      spawned := s.spawned.erase w
      holding := s.holding
      exiting := s.exiting ++ [w]
      gate := s.gate + 1
      out := match (checkSpamWorker (hasSpam w.idx) w.msg).sent with
        | some d => s.out ++ [Item.msgData d]
        | none => s.out },
    { s with
      spawned := s.spawned.erase w
      holding := s.holding
      exiting := s.exiting
      finished := s.finished ++ [w]
      gate := s.gate
      out := match (checkSpamWorker (hasSpam w.idx) w.msg).sent with
        | some d => s.out ++ [Item.msgData d]
        | none => s.out },
    ?_, rfl, ?_, rfl, rfl, ?_, rfl, ?_, ?_, ?_, ?_⟩
  · simp only [csStep, hw, hfree, and_self, if_true]
  · simp only [csStep, List.mem_append, List.mem_singleton, or_true, if_true, he1]
  · simp only [csStep, List.mem_append, List.mem_singleton, or_true, Nat.zero_lt_succ,
      and_self, if_true, he2, Nat.add_sub_cancel]
  · simp
  · simp [csStep, hsp]
  · simp [csStep, hnh]
  · simp [csStep, hne]

theorem checkSpamWorker_slot_witness :
    ((⟨0, 5⟩ : Worker) ∈ (csInit [Item.msgID 5, Item.msgID 6]).spawned) ∧
    (csInit [Item.msgID 5, Item.msgID 6]).gate < 1 ∧
    csStep 1 (fun _ _ _ => (false, some "too many requests")) (CSEvent.body ⟨0, 5⟩)
      (csInit [Item.msgID 5, Item.msgID 6]) = none ∧
    csRun 1 (fun _ _ _ => (false, some "too many requests"))
      [CSEvent.acquire ⟨0, 5⟩, CSEvent.body ⟨0, 5⟩, CSEvent.release ⟨0, 5⟩]
      (csInit [Item.msgID 5, Item.msgID 6]) =
      some { spawned := [⟨1, 6⟩], holding := [], exiting := [], finished := [⟨0, 5⟩],
             gate := 0, out := [] } :=
  ⟨by decide, by decide,
    (checkSpamWorker_slot 1 (fun _ _ _ => (false, some "too many requests"))
      (csInit [Item.msgID 5, Item.msgID 6]) ⟨0, 5⟩ (by decide) (by decide) (by decide)
      (by decide) (by decide)).1,
    by decide⟩

/-- C16: the gate initialisation is idempotent and leaves the flag set; once the flag is set
it changes none of the package-level variables; in the process, an invocation of `CheckSpam`
that finds the flag set leaves the gate object, its tokens and the flag unchanged, a worker
step never touches the variables, and in every reachable state the capacity of the gate is
`HasSpamMaxAsyncRequests`. -/
theorem gateInit_idempotent (maxAsync : Nat)
    (hasSpam : Nat → Nat → MsgID → Bool × Option String) :
    (∀ g, gateInit maxAsync (gateInit maxAsync g) = gateInit maxAsync g) ∧
    (∀ g, (gateInit maxAsync g).semaphoreInitialized = true) ∧
    (∀ g, g.semaphoreInitialized = true → gateInit maxAsync g = g) ∧
    (∀ input p p1, p.globals.semaphoreInitialized = true →
      procStep maxAsync hasSpam (ProcEvent.invoke input) p = some p1 →
      p1.globals = p.globals ∧ p1.stage.gate = p.stage.gate) ∧
    (∀ e p p1, procStep maxAsync hasSpam (ProcEvent.worker e) p = some p1 →
      p1.globals = p.globals) ∧
    (∀ evs p, procRun maxAsync hasSpam evs (procStart maxAsync) = some p →
      p.globals.semaphoreCap = maxAsync) := by
  refine ⟨?_, ?_, ?_, ?_, ?_, ?_⟩
  · intro g
    cases h : g.semaphoreInitialized <;> simp [gateInit, h]
  · intro g
    cases h : g.semaphoreInitialized <;> simp [gateInit, h]
  · intro g h
    simp [gateInit, h]
  · intro input p p1 hinit hstep
    simp only [procStep, Option.some.injEq] at hstep
    subst hstep
    simp [gateInit, hinit]
  · intro e p p1 hstep
    simp only [procStep] at hstep
    split at hstep
    · cases hstep
      rfl
    · cases hstep
  · intro evs p hrun
    exact (procRun_inv maxAsync hasSpam evs _ p hrun (procStart_inv maxAsync)).1

theorem gateInit_idempotent_witness :
    procRun 3 (fun _ _ _ => (true, none))
      [ProcEvent.invoke [Item.msgID 5], ProcEvent.worker (CSEvent.acquire ⟨0, 5⟩)]
      (procStart 3) =
      some { globals := { globalSpamSemaphore := 1, semaphoreCap := 3,
                          semaphoreInitialized := true, made := 2 }
             stage := { spawned := [], holding := [⟨0, 5⟩], exiting := [], finished := [],
                        gate := 1, out := [] }
             nextIdx := 1 } ∧
    (3 : Nat) = 3 ∧
    gateInit 3 { globalSpamSemaphore := 1, semaphoreCap := 3, semaphoreInitialized := true,
                 made := 2 } =
      { globalSpamSemaphore := 1, semaphoreCap := 3, semaphoreInitialized := true, made := 2 } :=
  ⟨by decide,
    (gateInit_idempotent 3 (fun _ _ _ => (true, none))).2.2.2.2.2
      [ProcEvent.invoke [Item.msgID 5], ProcEvent.worker (CSEvent.acquire ⟨0, 5⟩)]
      { globals := { globalSpamSemaphore := 1, semaphoreCap := 3,
                     semaphoreInitialized := true, made := 2 }
        stage := { spawned := [], holding := [⟨0, 5⟩], exiting := [], finished := [],
                   gate := 1, out := [] }
        nextIdx := 1 } (by decide),
    (gateInit_idempotent 3 (fun _ _ _ => (true, none))).2.2.1 _ rfl⟩

/-! ## Ill-typed items -/

theorem selectUsersInputs_filter (input : List Item) :
    selectUsersInputs (input.filter Item.isStr) = selectUsersInputs input := by
  induction input with
  | nil => rfl
  | cons it rest ih =>
    cases it <;> simp [List.filter_cons, Item.isStr, selectUsersInputs, ih]

theorem checkSpamInputs_filter (input : List Item) :
    checkSpamInputs (input.filter Item.isMsgID) = checkSpamInputs input := by
  induction input with
  | nil => rfl
  | cons it rest ih =>
    cases it <;> simp [List.filter_cons, Item.isMsgID, checkSpamInputs, ih]

theorem selectMessagesLoop_filter (input : List Item) (st : SMState) :
    selectMessagesLoop (input.filter Item.isUser) st = selectMessagesLoop input st := by
  induction input generalizing st with
  | nil => rfl
  | cons it rest ih =>
    cases it with
    | user usr =>
      simp only [List.filter_cons, Item.isUser, if_true, selectMessagesLoop]
      split <;> exact ih _
    | str s => simpa [List.filter_cons, Item.isUser, selectMessagesLoop] using ih st
    | msgID m => simpa [List.filter_cons, Item.isUser, selectMessagesLoop] using ih st
    | msgData d => simpa [List.filter_cons, Item.isUser, selectMessagesLoop] using ih st
    | other t => simpa [List.filter_cons, Item.isUser, selectMessagesLoop] using ih st

/-- C15: for each of `SelectUsers`, `SelectMessages` and `CheckSpam` the stage behaves on an
input stream as on the stream without its ill-typed items: the same goroutines are started
with the same arguments for the collaborator calls (the strings given to `GetUser`, the
batches given to `GetMessages`, the messages given to `HasSpam`), and under every schedule
the same items are emitted; in `SelectMessages` an ill-typed item between two users does not
take a place in their batch. -/
theorem stages_skip_ill_typed (GetUser : String → User) (input : List Item) :
    (selectUsersInputs (input.filter Item.isStr) = selectUsersInputs input ∧
      ∀ sched, suRun sched (suInit GetUser (input.filter Item.isStr)) =
        suRun sched (suInit GetUser input)) ∧
    (selectMessagesDispatch (input.filter Item.isUser) = selectMessagesDispatch input ∧
      batchContents (selectMessagesDispatch (input.filter Item.isUser)) =
        batchContents (selectMessagesDispatch input)) ∧
    (spawnWorkers 0 (checkSpamInputs (input.filter Item.isMsgID)) =
        spawnWorkers 0 (checkSpamInputs input) ∧
      ∀ cap hasSpam sched, csRun cap hasSpam sched (csInit (input.filter Item.isMsgID)) =
        csRun cap hasSpam sched (csInit input)) ∧
    batchContents (selectMessagesDispatch [Item.user ⟨1, "a"⟩, Item.other 0, Item.user ⟨2, "b"⟩,
      Item.str "x", Item.user ⟨3, "c"⟩]) = [[⟨1, "a"⟩, ⟨2, "b"⟩], [⟨3, "c"⟩]] := by
  have h1 : suInit GetUser (input.filter Item.isStr) = suInit GetUser input := by
    simp [suInit, selectUsersInputs_filter]
  have h2 : selectMessagesDispatch (input.filter Item.isUser) = selectMessagesDispatch input := by
    simp [selectMessagesDispatch, selectMessagesLoop_filter]
  have h3 : csInit (input.filter Item.isMsgID) = csInit input := by
    simp [csInit, checkSpamInputs_filter]
  refine ⟨⟨selectUsersInputs_filter input, ?_⟩, ⟨h2, by rw [h2]⟩,
    ⟨by rw [checkSpamInputs_filter], ?_⟩, by decide⟩
  · intro sched
    rw [h1]
  · intro cap hasSpam sched
    rw [h3]

/-! ## `RunPipeline`: the wiring -/

theorem runPipelineLoop_eq {κ : Type} (cmds : List κ) (i : Nat) (w : Wiring)
    (hw : w.made = w.inVar + 1) :
    runPipelineLoop cmds i w =
      { made := w.made + cmds.length
        inVar := w.inVar + cmds.length
        lastOut := if cmds.length = 0 then w.lastOut else some (w.inVar + cmds.length)
        wg := w.wg + cmds.length
        spawns := w.spawns ++ (List.range cmds.length).map (fun k =>
          { cmd := i + k, inCh := w.inVar + k, outCh := w.inVar + k + 1 }) } := by
  induction cmds generalizing i w with
  | nil => simp [runPipelineLoop]
  | cons c rest ih =>
    rw [runPipelineLoop, ih (i + 1) _ (by simp [hw])]
    simp only [hw, List.length_cons, List.range_succ_eq_map, List.map_cons, List.map_map,
      List.append_assoc, List.singleton_append, Nat.add_zero, Wiring.mk.injEq,
      Nat.add_eq_zero, Nat.succ_ne_zero, and_false, if_false]
    refine ⟨by omega, by omega, ?_, by omega, ?_⟩
    · split_ifs with h
      · simp [h]
      · congr 1
        omega
    · congr 2
      apply List.map_congr_left
      intro k _
      simp only [Function.comp, Nat.succ_eq_add_one, Spawn.mk.injEq]
      omega

theorem runPipelineWiring_eq {κ : Type} (cmds : List κ) :
    runPipelineWiring cmds =
      { made := cmds.length + 1
        inVar := cmds.length
        lastOut := if cmds.length = 0 then none else some cmds.length
        wg := cmds.length
        spawns := (List.range cmds.length).map (fun k =>
          { cmd := k, inCh := k, outCh := k + 1 }) } := by
  unfold runPipelineWiring
  rw [runPipelineLoop_eq cmds 0 _ rfl]
  simp [Nat.add_comm]

theorem plInit_gs {κ : Type} (cmds : List κ) (i : Nat) :
    (plInit cmds).gs[i]? =
      if i < cmds.length then
        some { spawn := { cmd := i, inCh := i, outCh := i + 1 }, status := GStatus.running
               loc := { received := [], eof := false, sent := [] } }
      else none := by
  simp only [plInit, runPipelineWiring_eq, List.getElem?_map]
  split_ifs with h
  · simp [List.getElem?_range h]
  · simp [List.getElem?_eq_none (by simpa using h : (List.range cmds.length).length ≤ i)]

/-! ## `RunPipeline`: the run -/

theorem plInit_inv {κ : Type} (cmds : List κ) : PLInv cmds.length (plInit cmds) := by
  refine ⟨rfl, by simp [plInit, runPipelineWiring_eq], ?_, by simp [plInit], ?_, ?_⟩
  · intro i g h
    rw [plInit_gs] at h
    split_ifs at h
    cases h
    rfl
  · intro i g h
    rw [plInit_gs] at h
    split_ifs at h
    cases h
    simp [plInit]
  · intro c hc
    simp [plInit] at hc

theorem PLInv_set (n : Nat) (s s1 : PLState) (i : Nat) (gi g1 : Goroutine) (hinv : PLInv n s)
    (hgi : s.gs[i]? = some gi) (hgs : s1.gs = s.gs.set i g1) (hclo : s1.closed = s.closed)
    (hpan : s1.panicked = s.panicked) (hsp : g1.spawn = gi.spawn)
    (hst : (g1.status = GStatus.closedOut ∨ g1.status = GStatus.done) ↔
      (gi.status = GStatus.closedOut ∨ gi.status = GStatus.done)) :
    PLInv n s1 := by
  obtain ⟨hp, hlen, hwire, hnd, hcl, hrng⟩ := hinv
  have hi : i < s.gs.length := by
    by_contra hcon
    rw [List.getElem?_eq_none (by omega)] at hgi
    cases hgi
  unfold PLInv
  rw [hgs, hclo, hpan]
  refine ⟨hp, by simpa using hlen, ?_, hnd, ?_, hrng⟩
  · intro k g hk
    simp only [List.getElem?_set] at hk
    split_ifs at hk with h1
    · cases hk
      subst h1
      rw [hsp]
      exact hwire i gi hgi
    · exact hwire k g hk
  · intro k g hk
    simp only [List.getElem?_set] at hk
    split_ifs at hk with h1
    · cases hk
      subst h1
      rw [hst]
      exact hcl i gi hgi
    · exact hcl k g hk

theorem plStep_inv (n : Nat) (cmds : List Stage) (e : PLEvent) (s s1 : PLState)
    (hstep : plStep cmds e s = some s1) (hinv : PLInv n s) : PLInv n s1 := by
  cases e with
  | xfer i x j =>
    simp only [plStep] at hstep
    split at hstep
    · rename_i gi ci hgi hci
      split at hstep
      · rename_i hc
        cases j with
        | none =>
          simp only at hstep
          split at hstep
          · cases hstep
            exact PLInv_set n s _ i gi _ hinv hgi rfl rfl rfl rfl Iff.rfl
          · cases hstep
        | some k =>
          simp only at hstep
          split at hstep
          · rename_i gk ck hgk hck
            split at hstep
            · rename_i hc2
              cases hstep
              have h1 := PLInv_set n s
                ⟨s.gs.set i ⟨gi.spawn, gi.status,
                  ⟨gi.loc.received, gi.loc.eof, gi.loc.sent ++ [x]⟩⟩,
                  s.closed, s.lastOut, s.drained, s.panicked⟩ i gi
                ⟨gi.spawn, gi.status, ⟨gi.loc.received, gi.loc.eof, gi.loc.sent ++ [x]⟩⟩
                hinv hgi rfl rfl rfl rfl Iff.rfl
              have hgk1 : (s.gs.set i ⟨gi.spawn, gi.status,
                  ⟨gi.loc.received, gi.loc.eof, gi.loc.sent ++ [x]⟩⟩)[k]? = some gk := by
                rw [List.getElem?_set_ne (Ne.symm hc2.1)]
                exact hgk
              exact PLInv_set n _ _ k gk
                ⟨gk.spawn, gk.status, ⟨gk.loc.received ++ [x], gk.loc.eof, gk.loc.sent⟩⟩
                h1 hgk1 rfl rfl rfl rfl Iff.rfl
            · cases hstep
          · cases hstep
      · cases hstep
    · cases hstep
  | eof i =>
    simp only [plStep] at hstep
    split at hstep
    · rename_i gi ci hgi hci
      split at hstep
      · cases hstep
        exact PLInv_set n s _ i gi _ hinv hgi rfl rfl rfl rfl Iff.rfl
      · cases hstep
    · cases hstep
  | ret i =>
    simp only [plStep] at hstep
    split at hstep
    · rename_i gi ci hgi hci
      split at hstep
      · rename_i hc
        cases hstep
        refine PLInv_set n s _ i gi _ hinv hgi rfl rfl rfl rfl ?_
        simp [hc.2.1]
      · cases hstep
    · cases hstep
  | done i =>
    simp only [plStep] at hstep
    split at hstep
    · rename_i gi hgi
      split at hstep
      · rename_i hc
        cases hstep
        refine PLInv_set n s _ i gi _ hinv hgi rfl rfl rfl rfl ?_
        simp [hc.2]
      · cases hstep
    · cases hstep
  | close i =>
    simp only [plStep] at hstep
    split at hstep
    · rename_i gi hgi
      split at hstep
      · rename_i hc
        obtain ⟨hp, hlen, hwire, hnd, hcl, hrng⟩ := hinv
        have hout : gi.spawn.outCh = i + 1 := by rw [hwire i gi hgi]
        have hnot : i + 1 ∉ s.closed := by
          intro hmem
          have := (hcl i gi hgi).mp hmem
          rw [hc.2] at this
          simp at this
        have hi : i < s.gs.length := by
          by_contra hcon
          rw [List.getElem?_eq_none (by omega)] at hgi
          cases hgi
        rw [hout] at hstep
        rw [if_neg hnot] at hstep
        cases hstep
        refine ⟨hp, by simpa using hlen, ?_, ?_, ?_, ?_⟩
        · intro k g hk
          simp only [List.getElem?_set] at hk
          split_ifs at hk with h1
          · cases hk
            subst h1
            exact hwire i gi hgi
          · exact hwire k g hk
        · rw [List.nodup_append]
          refine ⟨hnd, List.nodup_singleton _, ?_⟩
          intro a ha hb
          rw [List.mem_singleton] at hb
          subst hb
          exact hnot ha
        · intro k g hk
          simp only [List.getElem?_set] at hk
          split_ifs at hk with h1
          · cases hk
            subst h1
            simp
          · have hne : k + 1 ≠ i + 1 := by omega
            simp only [List.mem_append, List.mem_singleton, hne, or_false]
            exact hcl k g hk
        · intro c hmem
          rcases List.mem_append.mp hmem with h1 | h1
          · exact hrng c h1
          · rw [List.mem_singleton] at h1
            omega
      · cases hstep
    · cases hstep

theorem plRun_inv (n : Nat) (cmds : List Stage) (sched : List PLEvent) (s s1 : PLState)
    (hrun : plRun cmds sched s = some s1) (hinv : PLInv n s) : PLInv n s1 := by
  induction sched generalizing s with
  | nil =>
    simp only [plRun, Option.some.injEq] at hrun
    rw [← hrun]
    exact hinv
  | cons e es ih =>
    simp only [plRun] at hrun
    split at hrun
    · rename_i s2 h2
      exact ih s2 hrun (plStep_inv n cmds e s s2 h2 hinv)
    · cases hrun

/-- C14: for every list of `N` stage functions `RunPipeline` makes `N + 1` channels and
starts `N` goroutines, the `i`-th with the `i`-th command, input channel `i` and output
channel `i + 1`, so that the output of stage `i` is the input of stage `i + 1`; and in every
state of every run no `close` panics, channel 0 is never closed, no channel is closed twice,
and channel `i + 1` has been closed (once) exactly when goroutine `i` is past the deferred
`close` that follows the return of its stage function; when `RunPipeline` returns every
channel `i + 1` has been closed exactly once. -/
theorem runPipeline_wiring (cmds : List Stage) :
    (runPipelineWiring cmds).made = cmds.length + 1 ∧
    (runPipelineWiring cmds).spawns.length = cmds.length ∧
    (∀ i, i < cmds.length →
      (runPipelineWiring cmds).spawns[i]? = some { cmd := i, inCh := i, outCh := i + 1 }) ∧
    (∀ sched s, plRun cmds sched (plInit cmds) = some s →
      s.panicked = false ∧ 0 ∉ s.closed ∧ (∀ c, s.closed.count c ≤ 1) ∧
      (∀ i, i < cmds.length → ∃ g, s.gs[i]? = some g ∧
        g.spawn = { cmd := i, inCh := i, outCh := i + 1 } ∧
        (s.closed.count (i + 1) = 1 ↔
          (g.status = GStatus.closedOut ∨ g.status = GStatus.done))) ∧
      (plReturned s = true → ∀ i, i < cmds.length → s.closed.count (i + 1) = 1)) := by
  refine ⟨by simp [runPipelineWiring_eq], by simp [runPipelineWiring_eq], ?_, ?_⟩
  · intro i hi
    simp [runPipelineWiring_eq, List.getElem?_range hi]
  · intro sched s hrun
    obtain ⟨hp, hlen, hwire, hnd, hcl, hrng⟩ :=
      plRun_inv cmds.length cmds sched _ s hrun (plInit_inv cmds)
    have hcount : ∀ c, s.closed.count c ≤ 1 := List.nodup_iff_count_le_one.mp hnd
    have hone : ∀ c, s.closed.count c = 1 ↔ c ∈ s.closed := by
      intro c
      constructor
      · intro h
        exact List.count_pos_iff.mp (by omega)
      · intro h
        have := List.count_pos_iff.mpr h
        have := hcount c
        omega
    have hget : ∀ i, i < cmds.length → ∃ g, s.gs[i]? = some g := by
      intro i hi
      exact ⟨s.gs[i], List.getElem?_eq_getElem (by omega)⟩
    refine ⟨hp, ?_, hcount, ?_, ?_⟩
    · intro h0
      have := (hrng 0 h0).1
      omega
    · intro i hi
      obtain ⟨g, hg⟩ := hget i hi
      exact ⟨g, hg, hwire i g hg, by rw [hone]; exact hcl i g hg⟩
    · intro hret i hi
      obtain ⟨g, hg⟩ := hget i hi
      rw [hone, hcl i g hg]
      right
      simp only [plReturned, Bool.and_eq_true, List.all_eq_true, beq_iff_eq] at hret
      exact hret.2 g (List.getElem?_mem hg)

theorem runPipeline_wiring_witness :
    plRun [sourceStage [Item.str "a"], rangeStage]
      [PLEvent.xfer 0 (Item.str "a") (some 1), PLEvent.ret 0, PLEvent.close 0,
        PLEvent.xfer 1 (Item.user ⟨1, "a"⟩) none, PLEvent.eof 1, PLEvent.ret 1]
      (plInit [sourceStage [Item.str "a"], rangeStage]) =
      some { gs := [⟨⟨0, 0, 1⟩, GStatus.closedOut, ⟨[], false, [Item.str "a"]⟩⟩,
                    ⟨⟨1, 1, 2⟩, GStatus.returned,
                      ⟨[Item.str "a"], true, [Item.user ⟨1, "a"⟩]⟩⟩]
             closed := [1], lastOut := some 2, drained := [Item.user ⟨1, "a"⟩]
             panicked := false } ∧
    (1 < [sourceStage [Item.str "a"], rangeStage].length) ∧
    (0 : Nat) ∉ [1] ∧ ([1] : List Nat).count 2 ≤ 1 :=
  have h := (runPipeline_wiring [sourceStage [Item.str "a"], rangeStage]).2.2.2
    [PLEvent.xfer 0 (Item.str "a") (some 1), PLEvent.ret 0, PLEvent.close 0,
      PLEvent.xfer 1 (Item.user ⟨1, "a"⟩) none, PLEvent.eof 1, PLEvent.ret 1]
    { gs := [⟨⟨0, 0, 1⟩, GStatus.closedOut, ⟨[], false, [Item.str "a"]⟩⟩,
             ⟨⟨1, 1, 2⟩, GStatus.returned, ⟨[Item.str "a"], true, [Item.user ⟨1, "a"⟩]⟩⟩]
      closed := [1], lastOut := some 2, drained := [Item.user ⟨1, "a"⟩]
      panicked := false } (by decide)
  ⟨by decide, by decide, h.2.1, h.2.2.1 2⟩

/-! ## `RunPipeline`: a run without items -/

theorem fiveStages_get (i : Nat) (c : Stage) (h : fiveStages[i]? = some c) :
    (i = 0 ∧ c = sourceStage []) ∨ (1 ≤ i ∧ i < 5 ∧ c = rangeStage) := by
  match i, h with
  | 0, h => left; simp [fiveStages] at h; exact ⟨rfl, h.symm⟩
  | 1, h => right; simp [fiveStages, fourStages] at h; exact ⟨by omega, by omega, h.symm⟩
  | 2, h => right; simp [fiveStages, fourStages] at h; exact ⟨by omega, by omega, h.symm⟩
  | 3, h => right; simp [fiveStages, fourStages] at h; exact ⟨by omega, by omega, h.symm⟩
  | 4, h => right; simp [fiveStages, fourStages] at h; exact ⟨by omega, by omega, h.symm⟩
  | k + 5, h => simp [fiveStages, fourStages] at h

theorem fiveStages_range (i : Nat) (h1 : 1 ≤ i) (h5 : i < 5) :
    fiveStages[i]? = some rangeStage := by
  interval_cases i <;> rfl

theorem fiveStages_cannot_send (i : Nat) (c : Stage) (h : fiveStages[i]? = some c) (l : Local)
    (x : Item) (hl : l.received = []) : c.canSend l x = false := by
  rcases fiveStages_get i c h with ⟨_, hc⟩ | ⟨_, _, hc⟩
  · subst hc
    simp [sourceStage]
  · subst hc
    simp [rangeStage, hl]

theorem NoItems_set (s s1 : PLState) (i : Nat) (gi g1 : Goroutine) (hinv : NoItems s)
    (hgi : s.gs[i]? = some gi) (hgs : s1.gs = s.gs.set i g1) (hdr : s1.drained = s.drained)
    (hrec : g1.loc.received = gi.loc.received) (hsent : g1.loc.sent = gi.loc.sent) :
    NoItems s1 := by
  obtain ⟨hd, hall⟩ := hinv
  unfold NoItems
  rw [hgs, hdr]
  refine ⟨hd, ?_⟩
  intro k g hk
  simp only [List.getElem?_set] at hk
  split_ifs at hk with h1
  · cases hk
    rw [hrec, hsent]
    exact hall i gi hgi
  · exact hall k g hk

theorem plProgress_set (l : List Goroutine) (i : Nat) (gi g1 : Goroutine)
    (hgi : l[i]? = some gi) :
    plProgress (l.set i g1) + gProgress gi = plProgress l + gProgress g1 := by
  induction l generalizing i with
  | nil => simp at hgi
  | cons g rest ih =>
    cases i with
    | zero =>
      simp only [List.getElem?_cons_zero, Option.some.injEq] at hgi
      subst hgi
      simp only [List.set_cons_zero, plProgress]
      omega
    | succ k =>
      simp only [List.getElem?_cons_succ] at hgi
      have := ih k hgi
      simp only [List.set_cons_succ, plProgress]
      omega

theorem plProgress_le (l : List Goroutine) : plProgress l ≤ 4 * l.length := by
  induction l with
  | nil => simp [plProgress]
  | cons g rest ih =>
    have hg : gProgress g ≤ 4 := by
      unfold gProgress
      cases g.loc.eof <;> cases g.status <;> simp
    simp only [plProgress, List.length_cons]
    omega

/-- A step of the run of the five stages from a state without items keeps the state without
items, is not a send, and advances the progress by one. -/
theorem five_step (e : PLEvent) (s s1 : PLState) (hstep : plStep fiveStages e s = some s1)
    (hinv : PLInv 5 s) (hno : NoItems s) :
    NoItems s1 ∧ plProgress s1.gs = plProgress s.gs + 1 := by
  cases e with
  | xfer i x j =>
    simp only [plStep] at hstep
    split at hstep
    · rename_i gi ci hgi hci
      have hcs := fiveStages_cannot_send i ci hci gi.loc x (hno.2 i gi hgi).1
      split at hstep
      · rename_i hc
        rw [hcs] at hc
        simp at hc
      · cases hstep
    · cases hstep
  | eof i =>
    simp only [plStep] at hstep
    split at hstep
    · rename_i gi ci hgi hci
      split at hstep
      · rename_i hc
        cases hstep
        have heof : gi.loc.eof = false := by
          rcases fiveStages_get i ci hci with ⟨_, hcc⟩ | ⟨_, _, hcc⟩
          · have := hc.2.2.1
            rw [hcc] at this
            simp [sourceStage] at this
          · have := hc.2.2.1
            rw [hcc] at this
            simpa [rangeStage] using this
        refine ⟨NoItems_set s _ i gi _ hno hgi rfl rfl rfl rfl, ?_⟩
        have := plProgress_set s.gs i gi
          ⟨gi.spawn, gi.status, ⟨gi.loc.received, true, gi.loc.sent⟩⟩ hgi
        simp only [gProgress, heof, Bool.false_eq_true, if_false, if_true] at this
        simp only
        omega
      · cases hstep
    · cases hstep
  | ret i =>
    simp only [plStep] at hstep
    split at hstep
    · rename_i gi ci hgi hci
      split at hstep
      · rename_i hc
        cases hstep
        refine ⟨NoItems_set s _ i gi _ hno hgi rfl rfl rfl rfl, ?_⟩
        have := plProgress_set s.gs i gi ⟨gi.spawn, GStatus.returned, gi.loc⟩ hgi
        simp only [gProgress, hc.2.1] at this
        simp only
        omega
      · cases hstep
    · cases hstep
  | close i =>
    simp only [plStep] at hstep
    split at hstep
    · rename_i gi hgi
      split at hstep
      · rename_i hc
        obtain ⟨hp, hlen, hwire, hnd, hcl, hrng⟩ := hinv
        have hout : gi.spawn.outCh = i + 1 := by rw [hwire i gi hgi]
        have hnot : i + 1 ∉ s.closed := by
          intro hmem
          have := (hcl i gi hgi).mp hmem
          rw [hc.2] at this
          simp at this
        rw [hout, if_neg hnot] at hstep
        cases hstep
        refine ⟨NoItems_set s _ i gi _ hno hgi rfl rfl rfl rfl, ?_⟩
        have := plProgress_set s.gs i gi ⟨gi.spawn, GStatus.closedOut, gi.loc⟩ hgi
        simp only [gProgress, hc.2] at this
        simp only
        omega
      · cases hstep
    · cases hstep
  | done i =>
    simp only [plStep] at hstep
    split at hstep
    · rename_i gi hgi
      split at hstep
      · rename_i hc
        cases hstep
        refine ⟨NoItems_set s _ i gi _ hno hgi rfl rfl rfl rfl, ?_⟩
        have := plProgress_set s.gs i gi ⟨gi.spawn, GStatus.done, gi.loc⟩ hgi
        simp only [gProgress, hc.2] at this
        simp only
        omega
      · cases hstep
    · cases hstep

theorem five_run (sched : List PLEvent) (s s1 : PLState)
    (hrun : plRun fiveStages sched s = some s1) (hinv : PLInv 5 s) (hno : NoItems s) :
    PLInv 5 s1 ∧ NoItems s1 ∧ plProgress s1.gs = plProgress s.gs + sched.length := by
  induction sched generalizing s with
  | nil =>
    simp only [plRun, Option.some.injEq] at hrun
    subst hrun
    exact ⟨hinv, hno, rfl⟩
  | cons e es ih =>
    simp only [plRun] at hrun
    split at hrun
    · rename_i s2 h2
      obtain ⟨h3, h4⟩ := five_step e s s2 h2 hinv hno
      obtain ⟨h5, h6, h7⟩ := ih s2 hrun (plStep_inv 5 fiveStages e s s2 h2 hinv) h3
      refine ⟨h5, h6, ?_⟩
      rw [h7, h4, List.length_cons]
      omega
    · cases hrun

theorem first_not_done (gs : List Goroutine)
    (h : gs.all (fun g => g.status == GStatus.done) = false) :
    ∃ (i : Nat) (g : Goroutine), gs[i]? = some g ∧ g.status ≠ GStatus.done ∧
      ∀ (k : Nat) (g1 : Goroutine), k < i → gs[k]? = some g1 → g1.status = GStatus.done := by
  induction gs with
  | nil => simp at h
  | cons g rest ih =>
    by_cases hg : g.status = GStatus.done
    · have hrest : rest.all (fun g => g.status == GStatus.done) = false := by
        simpa [List.all_cons, hg] using h
      obtain ⟨i, g1, h1, h2, h3⟩ := ih hrest
      refine ⟨i + 1, g1, by rw [List.getElem?_cons_succ]; exact h1, h2, ?_⟩
      intro k g2 hk hg2
      cases k with
      | zero =>
        simp only [List.getElem?_cons_zero, Option.some.injEq] at hg2
        rw [← hg2]
        exact hg
      | succ k1 =>
        simp only [List.getElem?_cons_succ] at hg2
        exact h3 k1 g2 (by omega) hg2
    · refine ⟨0, g, by simp, hg, ?_⟩
      intro k g1 hk
      omega

/-- A state of the run of the five stages that satisfies the invariant is either the state
in which `RunPipeline` returns or has a step. -/
theorem five_progress (s : PLState) (hinv : PLInv 5 s) :
    plReturned s = true ∨ ∃ e, (plStep fiveStages e s).isSome = true := by
  obtain ⟨hp, hlen, hwire, hnd, hcl, hrng⟩ := hinv
  by_cases hall : s.gs.all (fun g => g.status == GStatus.done) = true
  · left
    simp [plReturned, hp, hall]
  · right
    obtain ⟨i, g, hg, hnd1, hprev⟩ := first_not_done s.gs (by simpa using hall)
    have hi : i < 5 := by
      by_contra hcon
      rw [List.getElem?_eq_none (by omega)] at hg
      cases hg
    cases hst : g.status with
    | done => exact absurd hst hnd1
    | closedOut =>
      exact ⟨PLEvent.done i, by simp [plStep, hg, hp, hst]⟩
    | returned =>
      by_cases hm : g.spawn.outCh ∈ s.closed
      · exact ⟨PLEvent.close i, by simp [plStep, hg, hp, hst, hm]⟩
      · exact ⟨PLEvent.close i, by simp [plStep, hg, hp, hst, hm]⟩
    | running =>
      cases i with
      | zero =>
        have hc : fiveStages[0]? = some (sourceStage []) := rfl
        exact ⟨PLEvent.ret 0, by simp [plStep, hg, hc, hp, hst, sourceStage]⟩
      | succ k =>
        have hc := fiveStages_range (k + 1) (by omega) hi
        have hk : k < s.gs.length := by omega
        have hgk : s.gs[k]? = some s.gs[k] := List.getElem?_eq_getElem hk
        have hkd := hprev k _ (by omega) hgk
        have hclosed : k + 1 ∈ s.closed := (hcl k _ hgk).mpr (Or.inr hkd)
        have hin : g.spawn.inCh = k + 1 := by rw [hwire (k + 1) g hg]
        cases he : g.loc.eof with
        | false =>
          exact ⟨PLEvent.eof (k + 1),
            by simp [plStep, hg, hc, hp, hst, rangeStage, he, hin, hclosed]⟩
        | true =>
          exact ⟨PLEvent.ret (k + 1), by simp [plStep, hg, hc, hp, hst, rangeStage, he]⟩

theorem plInit_noItems {κ : Type} (cmds : List κ) : NoItems (plInit cmds) := by
  refine ⟨rfl, ?_⟩
  intro i g h
  rw [plInit_gs] at h
  split_ifs at h
  cases h
  exact ⟨rfl, rfl⟩

theorem fourStages_stuck (e : PLEvent) : plStep fourStages e (plInit fourStages) = none := by
  have hinit : plInit fourStages =
      { gs := [⟨⟨0, 0, 1⟩, GStatus.running, ⟨[], false, []⟩⟩,
               ⟨⟨1, 1, 2⟩, GStatus.running, ⟨[], false, []⟩⟩,
               ⟨⟨2, 2, 3⟩, GStatus.running, ⟨[], false, []⟩⟩,
               ⟨⟨3, 3, 4⟩, GStatus.running, ⟨[], false, []⟩⟩]
        closed := [], lastOut := some 4, drained := [], panicked := false } := by
    decide
  rw [hinit]
  cases e with
  | xfer i x j =>
    rcases i with _ | _ | _ | _ | k <;> simp [plStep, fourStages, rangeStage]
  | eof i =>
    rcases i with _ | _ | _ | _ | k <;> simp [plStep, fourStages, rangeStage]
  | ret i =>
    rcases i with _ | _ | _ | _ | k <;> simp [plStep, fourStages, rangeStage]
  | close i =>
    rcases i with _ | _ | _ | _ | k <;> simp [plStep]
  | done i =>
    rcases i with _ | _ | _ | _ | k <;> simp [plStep]

/-- C13, as stated: `RunPipeline` on `SelectUsers`, `SelectMessages`, `CheckSpam`,
`CombineResults` alone has no run in which it returns. -/
theorem runPipeline_four_stages_never_return :
    ¬ ∃ sched s, plRun fourStages sched (plInit fourStages) = some s ∧ plReturned s = true := by
  rintro ⟨sched, s, hrun, hret⟩
  cases sched with
  | nil =>
    simp only [plRun, Option.some.injEq] at hrun
    subst hrun
    exact absurd hret (by decide)
  | cons e es =>
    simp only [plRun, fourStages_stuck e] at hrun
    cases hrun

/-- C13, amended: behind a first stage that sends nothing and returns, the four stages run so
that `RunPipeline` returns: every run has at most 20 steps, never panics, delivers no output
line, and ends in the state in which `RunPipeline` returns or can take a further step; a run
to that state exists.  On the four stages alone no step is possible and `RunPipeline` does
not return.  (Each stage function, at the end of an input without items, has started no
goroutine, emitted nothing, and returns.) -/
theorem runPipeline_empty_source :
    (∀ sched s, plRun fiveStages sched (plInit fiveStages) = some s →
      s.drained = [] ∧ s.panicked = false ∧ sched.length ≤ 20 ∧
      (plReturned s = true ∨ ∃ e, (plStep fiveStages e s).isSome = true)) ∧
    (∃ sched s, plRun fiveStages sched (plInit fiveStages) = some s ∧
      plReturned s = true ∧ s.drained = []) ∧
    ((∀ e, plStep fourStages e (plInit fourStages) = none) ∧
      plReturned (plInit fourStages) = false) ∧
    ((∀ GetUser : String → User, suDone (suInit GetUser []) = true ∧
        (suInit GetUser []).out = []) ∧
      (selectMessagesDispatch []).dispatched = [] ∧
      (csDone (csInit []) = true ∧ (csInit []).out = []) ∧
      CombineResults [] = { received := 0, out := [] }) := by
  refine ⟨?_, ?_, ⟨fourStages_stuck, by decide⟩, ⟨fun _ => ⟨rfl, rfl⟩, rfl, ⟨rfl, rfl⟩, rfl⟩⟩
  · intro sched s hrun
    have hinv0 : PLInv 5 (plInit fiveStages) := plInit_inv fiveStages
    obtain ⟨hinv, hno, hprog⟩ := five_run sched _ s hrun hinv0 (plInit_noItems fiveStages)
    refine ⟨hno.1, hinv.1, ?_, five_progress s hinv⟩
    have hle := plProgress_le s.gs
    rw [hinv.2.1] at hle
    omega
  · refine ⟨[PLEvent.ret 0, PLEvent.close 0, PLEvent.done 0,
      PLEvent.eof 1, PLEvent.ret 1, PLEvent.close 1, PLEvent.done 1,
      PLEvent.eof 2, PLEvent.ret 2, PLEvent.close 2, PLEvent.done 2,
      PLEvent.eof 3, PLEvent.ret 3, PLEvent.close 3, PLEvent.done 3,
      PLEvent.eof 4, PLEvent.ret 4, PLEvent.close 4, PLEvent.done 4], _, rfl, ?_, ?_⟩
    · decide
    · decide

theorem runPipeline_empty_source_witness :
    plRun fiveStages
      [PLEvent.ret 0, PLEvent.close 0, PLEvent.eof 1, PLEvent.done 0, PLEvent.ret 1]
      (plInit fiveStages) =
      some { gs := [⟨⟨0, 0, 1⟩, GStatus.done, ⟨[], false, []⟩⟩,
                    ⟨⟨1, 1, 2⟩, GStatus.returned, ⟨[], true, []⟩⟩,
                    ⟨⟨2, 2, 3⟩, GStatus.running, ⟨[], false, []⟩⟩,
                    ⟨⟨3, 3, 4⟩, GStatus.running, ⟨[], false, []⟩⟩,
                    ⟨⟨4, 4, 5⟩, GStatus.running, ⟨[], false, []⟩⟩]
             closed := [1], lastOut := some 5, drained := [], panicked := false } ∧
    ([PLEvent.ret 0, PLEvent.close 0, PLEvent.eof 1, PLEvent.done 0,
      PLEvent.ret 1].length ≤ 20) ∧
    (plStep fiveStages (PLEvent.close 1)
      { gs := [⟨⟨0, 0, 1⟩, GStatus.done, ⟨[], false, []⟩⟩,
               ⟨⟨1, 1, 2⟩, GStatus.returned, ⟨[], true, []⟩⟩,
               ⟨⟨2, 2, 3⟩, GStatus.running, ⟨[], false, []⟩⟩,
               ⟨⟨3, 3, 4⟩, GStatus.running, ⟨[], false, []⟩⟩,
               ⟨⟨4, 4, 5⟩, GStatus.running, ⟨[], false, []⟩⟩]
        closed := [1], lastOut := some 5, drained := [], panicked := false }).isSome = true :=
  ⟨by decide,
    (runPipeline_empty_source.1
      [PLEvent.ret 0, PLEvent.close 0, PLEvent.eof 1, PLEvent.done 0, PLEvent.ret 1]
      { gs := [⟨⟨0, 0, 1⟩, GStatus.done, ⟨[], false, []⟩⟩,
               ⟨⟨1, 1, 2⟩, GStatus.returned, ⟨[], true, []⟩⟩,
               ⟨⟨2, 2, 3⟩, GStatus.running, ⟨[], false, []⟩⟩,
               ⟨⟨3, 3, 4⟩, GStatus.running, ⟨[], false, []⟩⟩,
               ⟨⟨4, 4, 5⟩, GStatus.running, ⟨[], false, []⟩⟩]
        closed := [1], lastOut := some 5, drained := [], panicked := false }
      (by decide)).2.2.1,
    by decide⟩

/-! ## `CombineResults`: the comparison and stability -/

theorem stableInsert_perm {α : Type} (less : α → α → Bool) (x : α) (l : List α) :
    (stableInsert less x l).Perm (x :: l) := by
  induction l with
  | nil => simp [stableInsert]
  | cons y rest ih =>
    unfold stableInsert
    split
    · exact (List.Perm.cons y ih).trans (List.Perm.swap x y rest)
    · exact List.Perm.refl _

theorem stableSort_perm {α : Type} (less : α → α → Bool) (l : List α) :
    (stableSort less l).Perm l := by
  induction l with
  | nil => simp [stableSort]
  | cons x rest ih =>
    exact (stableInsert_perm less x _).trans (List.Perm.cons x ih)

/-- Inserting `x` leaves the elements of every equivalence class in their order, `x` in front
of the elements equivalent to it. -/
theorem stableInsert_filter {α : Type} (less : α → α → Bool) (hswo : StrictWeakOrdering less)
    (a x : α) (l : List α) :
    (stableInsert less x l).filter (fun b => equivUnder less a b) =
      (x :: l).filter (fun b => equivUnder less a b) := by
  induction l with
  | nil => simp [stableInsert]
  | cons y rest ih =>
    unfold stableInsert
    split
    · rename_i hyx
      rw [List.filter_cons, ih]
      by_cases hax : equivUnder less a x = true
      · have hay : equivUnder less a y = false := by
          by_contra hcon
          have hay1 : equivUnder less a y = true := by simpa using hcon
          have hya : equivUnder less y a = true := by
            simp only [equivUnder, Bool.and_eq_true, Bool.not_eq_true'] at hay1 ⊢
            exact ⟨hay1.2, hay1.1⟩
          have hyx1 := hswo.2.2 y a x hya hax
          simp [equivUnder, hyx] at hyx1
        simp [List.filter_cons, hax, hay]
      · simp [List.filter_cons, hax]
    · rfl

/-- The reference sort is stable: the elements of every equivalence class appear in the order
of the input. -/
theorem stableSort_stable {α : Type} (less : α → α → Bool) (hswo : StrictWeakOrdering less)
    (a : α) (l : List α) :
    (stableSort less l).filter (fun b => equivUnder less a b) =
      l.filter (fun b => equivUnder less a b) := by
  induction l with
  | nil => simp [stableSort]
  | cons x rest ih =>
    simp only [stableSort]
    rw [stableInsert_filter less hswo, List.filter_cons, List.filter_cons, ih]

theorem strictLess_false_iff (a b : MsgData) :
    strictLess b a = false ↔ SpamFirstThenId a b := by
  obtain ⟨ia, fa⟩ := a
  obtain ⟨ib, fb⟩ := b
  cases fa <;> cases fb <;> simp [strictLess, SpamFirstThenId]

theorem strictLess_swo : StrictWeakOrdering strictLess := by
  refine ⟨?_, ?_, ?_⟩
  · intro a
    obtain ⟨ia, fa⟩ := a
    cases fa <;> simp [strictLess]
  · intro a b c
    obtain ⟨ia, fa⟩ := a
    obtain ⟨ib, fb⟩ := b
    obtain ⟨ic, fc⟩ := c
    cases fa <;> cases fb <;> cases fc <;> simp [strictLess] <;> unfold MsgID at * <;> omega
  · intro a b c
    obtain ⟨ia, fa⟩ := a
    obtain ⟨ib, fb⟩ := b
    obtain ⟨ic, fc⟩ := c
    cases fa <;> cases fb <;> cases fc <;> simp [equivUnder, strictLess] <;>
      unfold MsgID at * <;> omega

theorem stableInsert_sorted (x : MsgData) (l : List MsgData)
    (h : l.Pairwise SpamFirstThenId) :
    (stableInsert strictLess x l).Pairwise SpamFirstThenId := by
  induction l with
  | nil => simp [stableInsert]
  | cons y rest ih =>
    rw [List.pairwise_cons] at h
    unfold stableInsert
    split
    · rename_i hyx
      rw [List.pairwise_cons]
      refine ⟨?_, ih h.2⟩
      intro q hq
      rcases List.mem_cons.mp ((stableInsert_perm strictLess x rest).mem_iff.mp hq) with h1 | h1
      · rw [h1]
        obtain ⟨ix, fx⟩ := x
        obtain ⟨iy, fy⟩ := y
        revert hyx
        cases fx <;> cases fy <;> simp [strictLess, SpamFirstThenId] <;> unfold MsgID at * <;>
          omega
      · exact h.1 q h1
    · rename_i hyx
      have hxy : SpamFirstThenId x y :=
        (strictLess_false_iff x y).mp (by simpa using hyx)
      rw [List.pairwise_cons]
      refine ⟨?_, List.pairwise_cons.mpr h⟩
      intro q hq
      rcases List.mem_cons.mp hq with h1 | h1
      · rw [h1]; exact hxy
      · have hyq := h.1 q h1
        obtain ⟨ix, fx⟩ := x
        obtain ⟨iy, fy⟩ := y
        obtain ⟨iq, fq⟩ := q
        revert hxy hyq
        cases fx <;> cases fy <;> cases fq <;> simp [SpamFirstThenId] <;> unfold MsgID at * <;>
          omega

theorem stableSort_sorted (l : List MsgData) :
    (stableSort strictLess l).Pairwise SpamFirstThenId := by
  induction l with
  | nil => simp [stableSort]
  | cons x rest ih => exact stableInsert_sorted x _ ih

/-- C22: on every input stream of `MsgData` items, the lines `CombineResults` emits are the
renderings of the input sorted by a stable sort under the strict two-key order (spam before
non-spam, then id strictly ascending): the sort of the code, with its non-strict comparison,
yields the same sequence as the stable reference sort, which is a permutation of the input,
has no later element strictly before an earlier one, and keeps the elements of every
equivalence class of the strict order in their input order. -/
theorem combineResults_stable (data : List MsgData) :
    (CombineResults (data.map Item.msgData)).out = (stableSort strictLess data).map fmtLine ∧
    sortSlice combineLess data = stableSort strictLess data ∧
    (stableSort strictLess data).Perm data ∧
    (stableSort strictLess data).Pairwise (fun a b => strictLess b a = false) ∧
    (∀ a, (stableSort strictLess data).filter (fun b => equivUnder strictLess a b) =
      data.filter (fun b => equivUnder strictLess a b)) := by
  have heq : sortSlice combineLess data = stableSort strictLess data :=
    spamFirstThenId_unique _ _
      ((sortSlice_perm combineLess data).trans (stableSort_perm strictLess data).symm)
      (sortSlice_combineLess_pairwise data) (stableSort_sorted data)
  refine ⟨?_, heq, stableSort_perm _ _, ?_, fun a => stableSort_stable _ strictLess_swo a data⟩
  · rw [CombineResults_msgData, heq]
  · exact (stableSort_sorted data).imp (fun {a b} h => (strictLess_false_iff a b).mpr h)

/-- C23: the comparison `CombineResults` hands to the sort is not a strict weak ordering: it
reports every item as ordered before itself, and of two items with equal spam flag and equal
id it reports each as before the other. -/
theorem combineLess_not_strict_weak :
    (∀ a, combineLess a a = true) ∧
    (∀ a b, a.HasSpam = b.HasSpam → a.ID = b.ID →
      combineLess a b = true ∧ combineLess b a = true) ∧
    ¬ StrictWeakOrdering combineLess := by
  have hrefl : ∀ a, combineLess a a = true := by
    intro a
    simp [combineLess]
  refine ⟨hrefl, ?_, ?_⟩
  · intro a b hs hi
    obtain ⟨ia, fa⟩ := a
    obtain ⟨ib, fb⟩ := b
    simp only at hs hi
    subst hs
    subst hi
    exact ⟨hrefl _, hrefl _⟩
  · intro h
    have h1 := h.1 ⟨0, false⟩
    rw [hrefl] at h1
    cases h1

theorem combineLess_not_strict_weak_witness :
    (⟨3, true⟩ : MsgData).HasSpam = (⟨3, true⟩ : MsgData).HasSpam ∧
    combineLess ⟨3, true⟩ ⟨3, true⟩ = true ∧ combineLess ⟨3, true⟩ ⟨3, true⟩ = true :=
  ⟨rfl, combineLess_not_strict_weak.2.1 ⟨3, true⟩ ⟨3, true⟩ rfl rfl⟩

/-! ## `CheckSpam`: the sleeps of a worker whose attempts all fail -/

/-- C26: when each of the 3 attempts of `HasSpam` for the message of a worker fails with
"too many requests", the worker makes 3 calls and sleeps 50, 100 and 200 ms, 350 ms in total;
the sleep of 200 ms is the last thing its retry loop does, after the third and last call; it
sends nothing; and the calls and sleeps all lie in its body, which cannot run before the
acquire and which, entered with the slot taken, leaves the slot taken: the slot is given
back only by the release that follows the body. -/
theorem checkSpamWorker_exhausted_sleeps (cap : Nat)
    (hasSpam : Nat → Nat → MsgID → Bool × Option String) (s : CSState) (w : Worker)
    (hw : w ∈ s.spawned) (hnh : w ∉ s.holding) (hne : w ∉ s.exiting) (hfree : s.gate < cap)
    (hfail : ∀ i, i < 3 → (hasSpam w.idx i w.msg).2 = some "too many requests") :
    checkSpamWorker (hasSpam w.idx) w.msg =
      { trace := [WorkerEvent.call 0, WorkerEvent.sleep 50, WorkerEvent.call 1,
          WorkerEvent.sleep 100, WorkerEvent.call 2, WorkerEvent.sleep 200]
        sent := none } ∧
    callCount (checkSpamWorker (hasSpam w.idx) w.msg).trace = 3 ∧
    sleepTotal (checkSpamWorker (hasSpam w.idx) w.msg).trace = 350 ∧
    (checkSpamWorker (hasSpam w.idx) w.msg).trace.getLast? = some (WorkerEvent.sleep 200) ∧
    (checkSpamWorker (hasSpam w.idx) w.msg).trace.dropLast.getLast? =
      some (WorkerEvent.call 2) ∧
    csStep cap hasSpam (CSEvent.body w) s = none ∧
    ∃ s1 s2 s3,
      csStep cap hasSpam (CSEvent.acquire w) s = some s1 ∧ s1.gate = s.gate + 1 ∧
      w ∈ s1.holding ∧
      csStep cap hasSpam (CSEvent.body w) s1 = some s2 ∧ s2.gate = s.gate + 1 ∧
      w ∈ s2.exiting ∧ s2.out = s.out ∧
      csStep cap hasSpam (CSEvent.release w) s2 = some s3 ∧ s3.gate = s.gate := by
  have htr := checkSpamWorker_always_failing (hasSpam w.idx) w.msg hfail
  have he1 : (s.holding ++ [w]).erase w = s.holding := by
    rw [List.erase_append_right _ hnh]
    simp
  have he2 : (s.exiting ++ [w]).erase w = s.exiting := by
    rw [List.erase_append_right _ hne]
    simp
  refine ⟨by rw [htr]; rfl, by rw [htr]; rfl, by rw [htr]; rfl, by rw [htr]; rfl,
    by rw [htr]; rfl, by simp [csStep, hnh],
    { s with spawned := s.spawned.erase w, holding := s.holding ++ [w], gate := s.gate + 1 },
    { s with
      spawned := s.spawned.erase w
      holding := s.holding
      exiting := s.exiting ++ [w]
      gate := s.gate + 1 },
    { s with
      spawned := s.spawned.erase w
      holding := s.holding
      exiting := s.exiting
      finished := s.finished ++ [w]
      gate := s.gate },
    ?_, rfl, by simp, ?_, rfl, by simp, rfl, ?_, rfl⟩
  · simp only [csStep, hw, hfree, and_self, if_true]
  · simp only [csStep, List.mem_append, List.mem_singleton, or_true, if_true, he1, htr]
  · simp only [csStep, List.mem_append, List.mem_singleton, or_true, Nat.zero_lt_succ,
      and_self, if_true, he2, Nat.add_sub_cancel]

theorem checkSpamWorker_exhausted_sleeps_witness :
    ((⟨0, 5⟩ : Worker) ∈ (csInit [Item.msgID 5]).spawned) ∧
    (csInit [Item.msgID 5]).gate < 2 ∧
    sleepTotal (checkSpamWorker (fun _ _ => (false, some "too many requests")) 5).trace = 350 ∧
    (checkSpamWorker (fun _ _ => (false, some "too many requests")) 5).trace.getLast? =
      some (WorkerEvent.sleep 200) ∧
    csRun 2 (fun _ _ _ => (false, some "too many requests"))
      [CSEvent.acquire ⟨0, 5⟩, CSEvent.body ⟨0, 5⟩] (csInit [Item.msgID 5]) =
      some { spawned := [], holding := [], exiting := [⟨0, 5⟩], finished := [],
             gate := 1, out := [] } :=
  have h := checkSpamWorker_exhausted_sleeps 2 (fun _ _ _ => (false, some "too many requests"))
    (csInit [Item.msgID 5]) ⟨0, 5⟩ (by decide) (by decide) (by decide) (by decide)
    (by intro i _; rfl)
  ⟨by decide, by decide, h.2.2.1, h.2.2.2.1, by decide⟩

/-! ## `RunPipeline`: the input of the first stage -/

theorem FirstIdle_set (b : Bool) (s s1 : PLState) (i : Nat) (gi g1 : Goroutine)
    (hf : FirstIdle b s) (hgi : s.gs[i]? = some gi) (hgs : s1.gs = s.gs.set i g1)
    (h0 : i = 0 → g1.loc.received = gi.loc.received ∧ g1.loc.eof = gi.loc.eof ∧
      (b = true → g1.status = gi.status)) : FirstIdle b s1 := by
  intro g hg
  rw [hgs] at hg
  by_cases hi : i = 0
  · subst hi
    have hlen : 0 < s.gs.length := by
      by_contra hcon
      rw [List.getElem?_eq_none (by omega)] at hgi
      cases hgi
    rw [List.getElem?_set_self hlen] at hg
    cases hg
    obtain ⟨h1, h2, h3⟩ := h0 rfl
    obtain ⟨f1, f2, f3⟩ := hf gi hgi
    exact ⟨h1.trans f1, h2.trans f2, fun hb => (h3 hb).trans (f3 hb)⟩
  · rw [List.getElem?_set_ne hi] at hg
    exact hf g hg

theorem plStep_first (n : Nat) (cmds : List Stage) (b : Bool)
    (hb : b = true → cmds[0]? = some rangeStage) (e : PLEvent) (s s1 : PLState)
    (hstep : plStep cmds e s = some s1) (hinv : PLInv n s) (hf : FirstIdle b s) :
    FirstIdle b s1 := by
  obtain ⟨hp, hlen, hwire, hnd, hcl, hrng⟩ := hinv
  cases e with
  | xfer i x j =>
    simp only [plStep] at hstep
    split at hstep
    · rename_i gi ci hgi hci
      split at hstep
      · rename_i hc
        cases j with
        | none =>
          simp only at hstep
          split at hstep
          · cases hstep
            exact FirstIdle_set b s _ i gi _ hf hgi rfl (fun _ => ⟨rfl, rfl, fun _ => rfl⟩)
          · cases hstep
        | some k =>
          simp only at hstep
          split at hstep
          · rename_i gk ck hgk hck
            split at hstep
            · rename_i hc2
              cases hstep
              have h1 : FirstIdle b
                  ⟨s.gs.set i ⟨gi.spawn, gi.status,
                    ⟨gi.loc.received, gi.loc.eof, gi.loc.sent ++ [x]⟩⟩,
                    s.closed, s.lastOut, s.drained, s.panicked⟩ :=
                FirstIdle_set b s _ i gi _ hf hgi rfl (fun _ => ⟨rfl, rfl, fun _ => rfl⟩)
              have hgk1 : (s.gs.set i ⟨gi.spawn, gi.status,
                  ⟨gi.loc.received, gi.loc.eof, gi.loc.sent ++ [x]⟩⟩)[k]? = some gk := by
                rw [List.getElem?_set_ne (Ne.symm hc2.1)]
                exact hgk
              refine FirstIdle_set b _ _ k gk
                ⟨gk.spawn, gk.status, ⟨gk.loc.received ++ [x], gk.loc.eof, gk.loc.sent⟩⟩
                h1 hgk1 rfl ?_
              intro hk
              have hin := hc2.2.2.2
              rw [hwire k gk hgk, hwire i gi hgi] at hin
              simp only at hin
              omega
            · cases hstep
          · cases hstep
      · cases hstep
    · cases hstep
  | eof i =>
    simp only [plStep] at hstep
    split at hstep
    · rename_i gi ci hgi hci
      split at hstep
      · rename_i hc
        cases hstep
        refine FirstIdle_set b s _ i gi _ hf hgi rfl ?_
        intro hi
        have hin := hc.2.2.2
        rw [hwire i gi hgi] at hin
        have := (hrng i hin).1
        omega
      · cases hstep
    · cases hstep
  | ret i =>
    simp only [plStep] at hstep
    split at hstep
    · rename_i gi ci hgi hci
      split at hstep
      · rename_i hc
        cases hstep
        refine FirstIdle_set b s _ i gi _ hf hgi rfl ?_
        intro hi
        refine ⟨rfl, rfl, ?_⟩
        intro hbt
        subst hi
        obtain ⟨f1, f2, _⟩ := hf gi hgi
        have hci1 := hb hbt
        rw [hci] at hci1
        cases hci1
        have hr := hc.2.2
        simp [rangeStage, f1, f2] at hr
      · cases hstep
    · cases hstep
  | close i =>
    simp only [plStep] at hstep
    split at hstep
    · rename_i gi hgi
      split at hstep
      · rename_i hc
        split at hstep
        · cases hstep
          exact hf
        · cases hstep
          refine FirstIdle_set b s _ i gi _ hf hgi rfl ?_
          intro hi
          refine ⟨rfl, rfl, ?_⟩
          intro hbt
          subst hi
          have := (hf gi hgi).2.2 hbt
          rw [hc.2] at this
          cases this
      · cases hstep
    · cases hstep
  | done i =>
    simp only [plStep] at hstep
    split at hstep
    · rename_i gi hgi
      split at hstep
      · rename_i hc
        cases hstep
        refine FirstIdle_set b s _ i gi _ hf hgi rfl ?_
        intro hi
        refine ⟨rfl, rfl, ?_⟩
        intro hbt
        subst hi
        have := (hf gi hgi).2.2 hbt
        rw [hc.2] at this
        cases this
      · cases hstep
    · cases hstep

theorem plRun_first (n : Nat) (cmds : List Stage) (b : Bool)
    (hb : b = true → cmds[0]? = some rangeStage) (sched : List PLEvent) (s s1 : PLState)
    (hrun : plRun cmds sched s = some s1) (hinv : PLInv n s) (hf : FirstIdle b s) :
    FirstIdle b s1 := by
  induction sched generalizing s with
  | nil =>
    simp only [plRun, Option.some.injEq] at hrun
    rw [← hrun]
    exact hf
  | cons e es ih =>
    simp only [plRun] at hrun
    split at hrun
    · rename_i s2 h2
      exact ih s2 hrun (plStep_inv n cmds e s s2 h2 hinv) (plStep_first n cmds b hb e s s2 h2 hinv hf)
    · cases hrun

theorem plInit_first {κ : Type} (cmds : List κ) (b : Bool) : FirstIdle b (plInit cmds) := by
  intro g hg
  rw [plInit_gs] at hg
  split_ifs at hg
  cases hg
  exact ⟨rfl, rfl, fun _ => rfl⟩

/-- C27: for every list of stage functions, no goroutine `RunPipeline` starts has channel 0
(the channel it passes as input to the first stage) as its output, the draining goroutine
does not read it, and in every state of every run channel 0 is not closed and the first
goroutine, whose input it is, has received no item and has not been told the end of its
input; so a first stage that ranges over its input stays inside its stage function and
`RunPipeline` does not return.  With an empty list of stages `RunPipeline` starts no
goroutine and returns. -/
theorem runPipeline_first_input (cmds : List Stage) :
    (∀ sp, sp ∈ (runPipelineWiring cmds).spawns → sp.outCh ≠ 0) ∧
    (runPipelineWiring cmds).lastOut ≠ some 0 ∧
    (∀ sched s, plRun cmds sched (plInit cmds) = some s →
      0 ∉ s.closed ∧
      (∀ g, s.gs[0]? = some g → g.spawn.inCh = 0 ∧ g.loc.received = [] ∧ g.loc.eof = false) ∧
      (cmds[0]? = some rangeStage →
        (∃ g, s.gs[0]? = some g ∧ g.status = GStatus.running) ∧ plReturned s = false)) ∧
    (runPipelineWiring ([] : List Stage)).spawns = [] ∧
    plReturned (plInit ([] : List Stage)) = true := by
  refine ⟨?_, ?_, ?_, rfl, rfl⟩
  · intro sp hsp
    rw [runPipelineWiring_eq] at hsp
    simp only [List.mem_map, List.mem_range] at hsp
    obtain ⟨k, _, hk⟩ := hsp
    rw [← hk]
    simp
  · rw [runPipelineWiring_eq]
    simp only
    split_ifs with h
    · simp
    · intro hcon
      simp only [Option.some.injEq] at hcon
      exact h hcon
  · intro sched s hrun
    have hinv := plRun_inv cmds.length cmds sched _ s hrun (plInit_inv cmds)
    obtain ⟨hp, hlen, hwire, hnd, hcl, hrng⟩ := hinv
    refine ⟨?_, ?_, ?_⟩
    · intro h0
      have := (hrng 0 h0).1
      omega
    · intro g hg
      have hf := plRun_first cmds.length cmds false (by intro h; cases h) sched _ s hrun
        (plInit_inv cmds) (plInit_first cmds false)
      obtain ⟨f1, f2, _⟩ := hf g hg
      refine ⟨by rw [hwire 0 g hg], f1, f2⟩
    · intro hc0
      have hf := plRun_first cmds.length cmds true (fun _ => hc0) sched _ s hrun
        (plInit_inv cmds) (plInit_first cmds true)
      have hpos : 0 < cmds.length := by
        by_contra hcon
        rw [List.getElem?_eq_none (by omega)] at hc0
        cases hc0
      have hg : s.gs[0]? = some s.gs[0] := List.getElem?_eq_getElem (by omega)
      have hrunning := (hf _ hg).2.2 rfl
      refine ⟨⟨_, hg, hrunning⟩, ?_⟩
      have hmem : s.gs[0] ∈ s.gs := List.getElem?_mem hg
      simp only [plReturned, Bool.and_eq_false_iff, Bool.not_eq_false', List.all_eq_false]
      right
      exact ⟨_, hmem, by simp [hrunning]⟩

theorem runPipeline_first_input_witness :
    plRun [rangeStage, sourceStage [Item.str "a"]]
      [PLEvent.xfer 1 (Item.str "a") none, PLEvent.ret 1, PLEvent.close 1, PLEvent.done 1]
      (plInit [rangeStage, sourceStage [Item.str "a"]]) =
      some { gs := [⟨⟨0, 0, 1⟩, GStatus.running, ⟨[], false, []⟩⟩,
                    ⟨⟨1, 1, 2⟩, GStatus.done, ⟨[], false, [Item.str "a"]⟩⟩]
             closed := [2], lastOut := some 2, drained := [Item.str "a"]
             panicked := false } ∧
    (0 : Nat) ∉ [2] ∧
    plReturned { gs := [⟨⟨0, 0, 1⟩, GStatus.running, ⟨[], false, []⟩⟩,
                    ⟨⟨1, 1, 2⟩, GStatus.done, ⟨[], false, [Item.str "a"]⟩⟩]
                 closed := [2], lastOut := some 2, drained := [Item.str "a"]
                 panicked := false } = false :=
  have h := (runPipeline_first_input [rangeStage, sourceStage [Item.str "a"]]).2.2.1
    [PLEvent.xfer 1 (Item.str "a") none, PLEvent.ret 1, PLEvent.close 1, PLEvent.done 1]
    { gs := [⟨⟨0, 0, 1⟩, GStatus.running, ⟨[], false, []⟩⟩,
             ⟨⟨1, 1, 2⟩, GStatus.done, ⟨[], false, [Item.str "a"]⟩⟩]
      closed := [2], lastOut := some 2, drained := [Item.str "a"]
      panicked := false } (by decide)
  ⟨by decide, h.1, (h.2.2 rfl).2⟩

end Spammer

namespace Search

/-! ## The read loop -/

theorem skip_iff (query : String) (u : User) :
    (query ≠ "" ∧ (!(contains u.Name query || contains u.About query)) = true) ↔
      matchesQuery query u = false := by
  unfold matchesQuery
  by_cases hq : query = ""
  · simp [hq]
  · cases contains u.Name query <;> cases contains u.About query <;> simp [hq]

theorem readLoop_row (query : String) (orderBy limit offset : Int) (corrupt : Bool)
    (xr : xmlRow) (rest : List Token) (st : LoopState) :
    readLoop query orderBy limit offset corrupt (Token.row xr :: rest) st =
      if matchesQuery query (mkUser xr) = false then
        readLoop query orderBy limit offset corrupt rest { st with read := st.read + 1 }
      else if orderBy = 0 then
        if st.idx < offset then
          readLoop query orderBy limit offset corrupt rest
            { st with read := st.read + 1, idx := st.idx + 1 }
        else if limit > 0 ∧ st.collected + 1 ≥ limit then
          LoopEnd.respond
            { st with read := st.read + 1, users := st.users ++ [mkUser xr]
                      collected := st.collected + 1 }
        else
          readLoop query orderBy limit offset corrupt rest
            { st with read := st.read + 1, users := st.users ++ [mkUser xr]
                      collected := st.collected + 1 }
      else
        readLoop query orderBy limit offset corrupt rest
          { st with read := st.read + 1, users := st.users ++ [mkUser xr] } := by
  simp only [readLoop, skip_iff]

theorem matching_row (query : String) (xr : xmlRow) (rest : List Token) :
    matching query (Token.row xr :: rest) =
      if matchesQuery query (mkUser xr) = false then matching query rest
      else mkUser xr :: matching query rest := by
  simp only [matching, datasetUsers, List.filter_cons]
  cases matchesQuery query (mkUser xr) <;> simp

theorem readLoop_sorting (query : String) (orderBy limit offset : Int) (corrupt : Bool)
    (hob : orderBy ≠ 0) (tokens : List Token) (st : LoopState) :
    readLoop query orderBy limit offset corrupt tokens st =
      if corrupt then LoopEnd.fail (st.read + tokens.length + 1)
      else LoopEnd.respond
        { st with users := st.users ++ matching query tokens
                  read := st.read + tokens.length + 1 } := by
  induction tokens generalizing st with
  | nil => simp [readLoop, matching, datasetUsers]
  | cons tok rest ih =>
    cases tok with
    | other =>
      simp only [readLoop, ih, List.length_cons, matching, datasetUsers]
      simp only [Nat.add_assoc, Nat.add_comm 1]
    | row xr =>
      rw [readLoop_row, matching_row]
      simp only [hob, if_false, ih, List.length_cons]
      cases matchesQuery query (mkUser xr) <;>
        simp [Nat.add_assoc, Nat.add_comm 1]

theorem readLoop_streaming (query : String) (o l : Nat) (corrupt : Bool) (tokens : List Token)
    (st : LoopState) (i : Nat) (hidx : st.idx = (i : Int)) (hio : i ≤ o)
    (hcol : st.collected = (st.users.length : Int)) (hempty : i < o → st.users = [])
    (hlim : 0 < l → st.users.length < l) :
    (∀ st1, readLoop query 0 (l : Int) (o : Int) corrupt tokens st = LoopEnd.respond st1 →
      st1.users = st.users ++ window (matching query tokens) (o - i) (l - st.users.length)) ∧
    (corrupt = false →
      ∃ st1, readLoop query 0 (l : Int) (o : Int) corrupt tokens st = LoopEnd.respond st1) := by
  induction tokens generalizing st i with
  | nil =>
    refine ⟨?_, ?_⟩
    · intro st1 h
      simp only [readLoop] at h
      split at h
      · cases h
      · cases h
        simp [matching, datasetUsers, window]
    · intro hc
      simp [readLoop, hc]
  | cons tok rest ih =>
    cases tok with
    | other =>
      simp only [readLoop, matching, datasetUsers]
      exact ih { st with read := st.read + 1 } i hidx hio hcol hempty hlim
    | row xr =>
      rw [readLoop_row, matching_row]
      cases hm : matchesQuery query (mkUser xr) with
      | false =>
        simp only [if_true]
        exact ih { st with read := st.read + 1 } i hidx hio hcol hempty hlim
      | true =>
        simp only [Bool.true_eq_false, if_false, if_true]
        by_cases hlt : i < o
        · have h1 : st.idx < (o : Int) := by rw [hidx]; exact_mod_cast hlt
          simp only [h1, if_true]
          have hw : window (mkUser xr :: matching query rest) (o - i) (l - st.users.length) =
              window (matching query rest) (o - (i + 1)) (l - st.users.length) := by
            obtain ⟨k, hk⟩ : ∃ k, o - i = k + 1 := ⟨o - i - 1, by omega⟩
            have hk2 : o - (i + 1) = k := by omega
            simp [window, hk, hk2]
          rw [hw]
          exact ih { st with read := st.read + 1, idx := st.idx + 1 } (i + 1)
            (by simp [hidx]) (by omega) hcol (fun _ => hempty hlt) hlim
        · have h1 : ¬ st.idx < (o : Int) := by rw [hidx]; exact_mod_cast hlt
          have hoi : o - i = 0 := by omega
          simp only [h1, if_false, hoi]
          by_cases hfull : (l : Int) > 0 ∧ st.collected + 1 ≥ (l : Int)
          · simp only [hfull, and_self, if_true]
            have hl0 : 0 < l := by exact_mod_cast hfull.1
            have hc1 : l ≤ st.users.length + 1 := by
              have := hfull.2
              rw [hcol] at this
              exact_mod_cast this
            have hlc : l - st.users.length = 1 := by
              have := hlim hl0
              omega
            refine ⟨?_, fun _ => ⟨_, rfl⟩⟩
            intro st1 h
            cases h
            simp [window, hlc]
          · simp only [hfull, if_false]
            have hcont : 0 < l → st.users.length + 1 < l := by
              intro hl0
              by_contra hcon
              apply hfull
              refine ⟨by exact_mod_cast hl0, ?_⟩
              rw [hcol]
              have : l ≤ st.users.length + 1 := by omega
              exact_mod_cast this
            have hih := ih { st with read := st.read + 1, users := st.users ++ [mkUser xr]
                                     collected := st.collected + 1 } i hidx hio
              (by simp [hcol]) (fun h => absurd h hlt) (by simpa using hcont)
            simp only [hoi, List.length_append, List.length_singleton] at hih
            refine ⟨?_, hih.2⟩
            intro st1 h
            rw [hih.1 st1 h]
            by_cases hl0 : l = 0
            · simp [window, hl0]
            · have hc2 := hcont (by omega)
              obtain ⟨k, hk⟩ : ∃ k, l - st.users.length = k + 1 :=
                ⟨l - st.users.length - 1, by omega⟩
              have hk2 : l - (st.users.length + 1) = k := by omega
              have hk0 : k ≠ 0 := by omega
              simp [window, hk, hk2, hk0]

/-! ## Pagination -/

theorem take_drop_window (users : List User) (o l : Nat) :
    (users.take (if l = 0 then users.length else min (min o users.length + l) users.length)).drop
      (min o users.length) = window users o l := by
  have hdrop : users.drop (min o users.length) = users.drop o := by
    by_cases h : o ≤ users.length
    · rw [Nat.min_eq_left h]
    · rw [Nat.min_eq_right (by omega), List.drop_eq_nil_of_le (Nat.le_refl _),
        List.drop_eq_nil_of_le (by omega)]
  by_cases hl : l = 0
  · simp only [hl, if_true, List.take_length, window, hdrop]
  · simp only [hl, if_false, window]
    rw [List.drop_take, hdrop, List.take_eq_take]
    simp only [List.length_drop]
    omega

theorem paginate_eq (users : List User) (o l : Nat)
    (h : min o users.length + l < 2 ^ 63) :
    paginate users (o : Int) (l : Int) = some (window users o l) := by
  have hstart : (if (o : Int) > (users.length : Int) then (users.length : Int) else (o : Int)) =
      ((min o users.length : Nat) : Int) := by
    split_ifs <;> omega
  have hw : wrapInt (((min o users.length : Nat) : Int) + (l : Int)) =
      ((min o users.length + l : Nat) : Int) := by
    unfold wrapInt
    norm_num at h ⊢
    omega
  have hend : (if (l : Int) > 0 then
        (if wrapInt (((min o users.length : Nat) : Int) + (l : Int)) > (users.length : Int)
          then (users.length : Int)
          else wrapInt (((min o users.length : Nat) : Int) + (l : Int)))
        else (users.length : Int)) =
      ((if l = 0 then users.length else min (min o users.length + l) users.length : Nat) : Int) := by
    rw [hw]
    split_ifs <;> omega
  unfold paginate
  simp only [hstart, hend, Int.toNat_ofNat]
  rw [if_pos, take_drop_window]
  refine ⟨by omega, ?_, ?_⟩
  · split_ifs <;> omega
  · split_ifs <;> omega

theorem paginate_overflow (users : List User) (o l : Nat) (ho : o < 2 ^ 63) (hl : l < 2 ^ 63)
    (h : 2 ^ 63 ≤ min o users.length + l) :
    paginate users (o : Int) (l : Int) = none := by
  have hstart : (if (o : Int) > (users.length : Int) then (users.length : Int) else (o : Int)) =
      ((min o users.length : Nat) : Int) := by
    split_ifs <;> omega
  have hl1 : (l : Int) > 0 := by
    norm_num at h ho
    omega
  have hw : wrapInt (((min o users.length : Nat) : Int) + (l : Int)) < 0 := by
    unfold wrapInt
    norm_num at h ho hl ⊢
    omega
  unfold paginate
  simp only [hstart, hl1, if_true]
  have hng : ¬ wrapInt (((min o users.length : Nat) : Int) + (l : Int)) > (users.length : Int) := by
    omega
  simp only [hng, if_false]
  rw [if_neg]
  intro hc
  omega

theorem paginate_some (users res : List User) (o l : Nat) (ho : o < 2 ^ 63) (hl : l < 2 ^ 63)
    (h : paginate users (o : Int) (l : Int) = some res) : res = window users o l := by
  by_cases hov : min o users.length + l < 2 ^ 63
  · rw [paginate_eq users o l hov] at h
    exact (Option.some.inj h).symm
  · rw [paginate_overflow users o l ho hl (by omega)] at h
    cases h

/-! ## The parameters -/

theorem atoi_range (s : String) (v : Int) (h : atoi s = some v) : minInt ≤ v ∧ v ≤ maxInt := by
  unfold atoi at h
  simp only at h
  generalize (match s.toList with
    | '-' :: r => r
    | '+' :: r => r
    | _ => s.toList) = ds at h
  by_cases h1 : (ds.isEmpty || !ds.all Char.isDigit) = true
  · rw [if_pos h1] at h
    cases h
  · rw [if_neg h1] at h
    generalize (if s.toList.head? = some '-' then -(digitsValue ds : Int)
      else (digitsValue ds : Int)) = w at h
    by_cases h2 : minInt ≤ w ∧ w ≤ maxInt
    · rw [if_pos h2] at h
      cases h
      exact h2
    · rw [if_neg h2] at h
      cases h

theorem parseIntParam_range (s : String) (v : Int) (h : parseIntParam s = some v) :
    minInt ≤ v ∧ v ≤ maxInt := by
  unfold parseIntParam at h
  split_ifs at h
  · cases h
    simp [minInt, maxInt]
  · exact atoi_range s v h

theorem nonneg_param (s : String) (v : Int) (h : parseIntParam s = some v) (h0 : ¬ v < 0) :
    ∃ n : Nat, v = (n : Int) ∧ n < 2 ^ 63 := by
  have hr := parseIntParam_range s v h
  refine ⟨v.toNat, by omega, ?_⟩
  have := hr.2
  unfold maxInt at this
  norm_num at this ⊢
  omega

theorem SearchServer_valid (file : Option Dataset) (r : Request) (l o : Nat) (ob : Int)
    (hl : parseIntParam r.limit = some (l : Int)) (ho : parseIntParam r.offset = some (o : Int))
    (hb : (if r.order_by ≠ "" then atoi r.order_by else some 0) = some ob)
    (hf : r.order_field = "" ∨ r.order_field = "Id" ∨ r.order_field = "Age" ∨
      r.order_field = "Name") :
    SearchServer file r =
      respond file r.query (if r.order_field = "" then "Name" else r.order_field) ob l o := by
  have hl0 : ¬ (l : Int) < 0 := by omega
  have ho0 : ¬ (o : Int) < 0 := by omega
  unfold SearchServer
  simp only [hl, ho, hb, hl0, ho0, if_false]
  rw [if_pos]
  rcases hf with h | h | h | h <;> simp [h]

theorem SearchServer_ok (file : Option Dataset) (r : Request) (us : List User)
    (h : (SearchServer file r).reply = Reply.ok us) :
    ∃ (ds : Dataset) (l o : Nat) (ob : Int), file = some ds ∧ l < 2 ^ 63 ∧ o < 2 ^ 63 ∧
      parseIntParam r.limit = some (l : Int) ∧ parseIntParam r.offset = some (o : Int) ∧
      (if r.order_by ≠ "" then atoi r.order_by else some 0) = some ob ∧
      (r.order_field = "" ∨ r.order_field = "Id" ∨ r.order_field = "Age" ∨
        r.order_field = "Name") ∧
      (respond (some ds) r.query (if r.order_field = "" then "Name" else r.order_field)
        ob l o).reply = Reply.ok us := by
  cases hlim : parseIntParam r.limit with
  | none =>
    simp only [SearchServer, hlim] at h
    cases h
  | some limit =>
    by_cases hl0 : limit < 0
    · simp only [SearchServer, hlim, hl0, if_true] at h
      cases h
    · cases hoff : parseIntParam r.offset with
      | none =>
        simp only [SearchServer, hlim, hl0, hoff, if_false] at h
        cases h
      | some offset =>
        by_cases ho0 : offset < 0
        · simp only [SearchServer, hlim, hl0, hoff, ho0, if_false, if_true] at h
          cases h
        · cases hob : (if r.order_by ≠ "" then atoi r.order_by else some 0) with
          | none =>
            simp only [SearchServer, hlim, hl0, hoff, ho0, hob, if_false] at h
            cases h
          | some orderBy =>
            simp only [SearchServer, hlim, hl0, hoff, ho0, hob, if_false] at h
            by_cases hf : (if r.order_field = "" then "Name" else r.order_field) = "Id" ∨
                (if r.order_field = "" then "Name" else r.order_field) = "Age" ∨
                (if r.order_field = "" then "Name" else r.order_field) = "Name"
            · rw [if_pos hf] at h
              obtain ⟨l, hl, hl2⟩ := nonneg_param _ _ hlim hl0
              obtain ⟨o, ho, ho2⟩ := nonneg_param _ _ hoff ho0
              subst hl ho
              cases file with
              | none =>
                simp only [respond] at h
                cases h
              | some ds =>
                refine ⟨ds, l, o, orderBy, rfl, hl2, ho2, rfl, rfl, rfl, ?_, h⟩
                by_cases he : r.order_field = ""
                · exact Or.inl he
                · simp only [he, if_false] at hf
                  exact Or.inr hf
            · rw [if_neg hf] at h
              cases h

/-! ## The response -/

theorem respond_ok (ds : Dataset) (query orderField : String) (ob : Int) (l o : Nat)
    (hl : l < 2 ^ 63) (ho : o < 2 ^ 63) (us : List User)
    (h : (respond (some ds) query orderField ob l o).reply = Reply.ok us) :
    us = window
      (if ob = 0 then matching query ds.tokens
        else sortSliceStable (lessBy orderField (ob == 1)) (matching query ds.tokens)) o l := by
  simp only [respond] at h
  by_cases hob : ob = 0
  · subst hob
    have hs := readLoop_streaming query o l ds.corrupt ds.tokens
      { users := [], idx := 0, collected := 0, read := 0 } 0 rfl (Nat.zero_le _) rfl
      (fun _ => rfl) (fun h0 => h0)
    simp only [List.length_nil, Nat.sub_zero, List.nil_append] at hs
    cases hr : readLoop query 0 (l : Int) (o : Int) ds.corrupt ds.tokens
        { users := [], idx := 0, collected := 0, read := 0 } with
    | fail rd =>
      simp only [hr] at h
      cases h
    | respond st =>
      simp only [hr, ne_eq, not_true_eq_false, if_false, if_true] at h
      cases h
      simpa using hs.1 st hr
  · rw [readLoop_sorting query ob l o ds.corrupt hob] at h
    cases hc : ds.corrupt with
    | true =>
      simp only [hc, if_true] at h
      cases h
    | false =>
      simp only [hc, Bool.false_eq_true, if_false, ne_eq, hob, not_false_eq_true, if_true,
        List.nil_append] at h
      cases hp : paginate (sortSliceStable (lessBy orderField (ob == 1))
          (matching query ds.tokens)) (o : Int) (l : Int) with
      | none =>
        simp only [hp] at h
        cases h
      | some res =>
        simp only [hp] at h
        cases h
        simpa [hob] using paginate_some _ _ o l ho hl hp

theorem respond_streaming (ds : Dataset) (hc : ds.corrupt = false) (query orderField : String)
    (l o : Nat) :
    (respond (some ds) query orderField 0 l o).reply =
      Reply.ok (window (matching query ds.tokens) o l) := by
  have hs := readLoop_streaming query o l ds.corrupt ds.tokens
    { users := [], idx := 0, collected := 0, read := 0 } 0 rfl (Nat.zero_le _) rfl
    (fun _ => rfl) (fun h0 => h0)
  simp only [List.length_nil, Nat.sub_zero, List.nil_append] at hs
  obtain ⟨st, hst⟩ := hs.2 hc
  have hu := hs.1 st hst
  simp only [respond, hst, ne_eq, not_true_eq_false, if_false, if_true, hu]

theorem respond_sorting (ds : Dataset) (hc : ds.corrupt = false) (query orderField : String)
    (ob : Int) (hob : ob ≠ 0) (l o : Nat) :
    (respond (some ds) query orderField ob l o).reply =
      match paginate (sortSliceStable (lessBy orderField (ob == 1))
          (matching query ds.tokens)) (o : Int) (l : Int) with
      | some res => Reply.ok res
      | none => Reply.panic := by
  simp only [respond]
  rw [readLoop_sorting query ob l o ds.corrupt hob]
  simp only [hc, Bool.false_eq_true, if_false, ne_eq, hob, not_false_eq_true, if_true,
    List.nil_append]
  cases paginate (sortSliceStable (lessBy orderField (ob == 1))
    (matching query ds.tokens)) (o : Int) (l : Int) <;> rfl

/-! ## The stable sort -/

theorem insertLeft_sorted_strict {α : Type} (less : α → α → Bool)
    (asymm : ∀ a b, less a b = true → less b a = false)
    (ntrans : ∀ a b c, less b a = false → less c b = false → less c a = false)
    (x : α) (l : List α) (h : l.Pairwise (fun p q => less p q = false)) :
    (Spammer.insertLeft less x l).Pairwise (fun p q => less p q = false) := by
  induction l with
  | nil => simp [Spammer.insertLeft]
  | cons p rest ih =>
    rw [List.pairwise_cons] at h
    unfold Spammer.insertLeft
    split
    · rename_i hxp
      rw [List.pairwise_cons]
      refine ⟨?_, ih h.2⟩
      intro q hq
      rcases List.mem_cons.mp ((Spammer.insertLeft_perm less x rest).mem_iff.mp hq) with h1 | h1
      · rw [h1]
        exact asymm x p hxp
      · exact h.1 q h1
    · rename_i hxp
      have hxp1 : less x p = false := by simpa using hxp
      rw [List.pairwise_cons]
      refine ⟨?_, List.pairwise_cons.mpr h⟩
      intro q hq
      rcases List.mem_cons.mp hq with h1 | h1
      · rw [h1]
        exact hxp1
      · exact ntrans q p x (h.1 q h1) hxp1

theorem sortSliceStable_sorted (less : User → User → Bool)
    (asymm : ∀ a b, less a b = true → less b a = false)
    (ntrans : ∀ a b c, less b a = false → less c b = false → less c a = false)
    (users : List User) :
    (sortSliceStable less users).Pairwise (fun a b => less b a = false) := by
  unfold sortSliceStable Spammer.insertionSortLessFunc
  rw [List.pairwise_reverse]
  suffices hgen : ∀ (data acc : List User), acc.Pairwise (fun p q => less p q = false) →
      (data.foldl (fun acc x => Spammer.insertLeft less x acc) acc).Pairwise
        (fun p q => less p q = false) from hgen users [] List.Pairwise.nil
  intro data
  induction data with
  | nil => intro acc h; simpa using h
  | cons x rest ih =>
    intro acc h
    simp only [List.foldl_cons]
    exact ih _ (insertLeft_sorted_strict less asymm ntrans x acc h)

theorem sortSliceStable_perm (less : User → User → Bool) (users : List User) :
    (sortSliceStable less users).Perm users :=
  Spammer.sortSlice_perm less users

theorem lessBy_asymm (orderField : String) (asc : Bool) (a b : User)
    (h : lessBy orderField asc a b = true) : lessBy orderField asc b a = false := by
  unfold lessBy at h ⊢
  split_ifs at h ⊢ <;>
    simp only [decide_eq_true_eq, decide_eq_false_iff_not, gt_iff_lt] at h ⊢ <;>
    exact lt_asymm h

theorem lessBy_ntrans (orderField : String) (asc : Bool) (a b c : User)
    (h1 : lessBy orderField asc b a = false) (h2 : lessBy orderField asc c b = false) :
    lessBy orderField asc c a = false := by
  unfold lessBy at h1 h2 ⊢
  split_ifs at h1 h2 ⊢ <;>
    simp only [decide_eq_true_eq, decide_eq_false_iff_not, gt_iff_lt, not_lt] at h1 h2 ⊢ <;>
    first
      | exact le_trans h1 h2
      | exact le_trans h2 h1

theorem window_sublist (l : List User) (o n : Nat) : (window l o n).Sublist l := by
  unfold window
  split_ifs
  · exact List.drop_sublist _ _
  · exact (List.take_sublist _ _).trans (List.drop_sublist _ _)

theorem window_infix (l : List User) (o n : Nat) : window l o n <:+: l := by
  unfold window
  split_ifs
  · exact (List.drop_suffix _ _).isInfix
  · exact (List.take_prefix _ _).isInfix.trans (List.drop_suffix _ _).isInfix

/-! ## The handler -/

theorem lessBy_false_iff (orderField : String) (asc : Bool) (a b : User) :
    lessBy orderField asc b a = false ↔
      if orderField = "Id" then (if asc then a.ID ≤ b.ID else b.ID ≤ a.ID)
      else if orderField = "Age" then (if asc then a.Age ≤ b.Age else b.Age ≤ a.Age)
      else (if asc then a.Name ≤ b.Name else b.Name ≤ a.Name) := by
  unfold lessBy
  split_ifs <;> simp only [decide_eq_false_iff_not, gt_iff_lt, not_lt]

/-- C18: when `SearchServer` answers with a list of users and `order_by` is a non-zero
integer, the list is the window (by offset and limit) of the list of all matching rows sorted
by the stable sort, which is a rearrangement of the matching rows; with `order_by` 1 the
sorted list and the page are in ascending order of `Id`, `Age` or `Name` according to
`order_field` (`Name` when `order_field` is empty), and with `order_by` -1 in descending
order. -/
theorem searchServer_sorted (file : Option Dataset) (r : Request) (us : List User) (ob : Int)
    (hok : (SearchServer file r).reply = Reply.ok us) (hob : atoi r.order_by = some ob)
    (hne : ob ≠ 0) :
    ∃ (ds : Dataset) (l o : Nat) (sorted : List User),
      file = some ds ∧ parseIntParam r.limit = some (l : Int) ∧
      parseIntParam r.offset = some (o : Int) ∧
      sorted = sortSliceStable
        (lessBy (if r.order_field = "" then "Name" else r.order_field) (ob == 1))
        (matching r.query ds.tokens) ∧
      sorted.Perm (matching r.query ds.tokens) ∧
      us = window sorted o l ∧ us <:+: sorted ∧
      (ob = 1 →
        (r.order_field = "Id" → sorted.Pairwise (fun a b => a.ID ≤ b.ID) ∧
          us.Pairwise (fun a b => a.ID ≤ b.ID)) ∧
        (r.order_field = "Age" → sorted.Pairwise (fun a b => a.Age ≤ b.Age) ∧
          us.Pairwise (fun a b => a.Age ≤ b.Age)) ∧
        (r.order_field = "Name" ∨ r.order_field = "" →
          sorted.Pairwise (fun a b => a.Name ≤ b.Name) ∧
          us.Pairwise (fun a b => a.Name ≤ b.Name))) ∧
      (ob = -1 →
        (r.order_field = "Id" → sorted.Pairwise (fun a b => b.ID ≤ a.ID) ∧
          us.Pairwise (fun a b => b.ID ≤ a.ID)) ∧
        (r.order_field = "Age" → sorted.Pairwise (fun a b => b.Age ≤ a.Age) ∧
          us.Pairwise (fun a b => b.Age ≤ a.Age)) ∧
        (r.order_field = "Name" ∨ r.order_field = "" →
          sorted.Pairwise (fun a b => b.Name ≤ a.Name) ∧
          us.Pairwise (fun a b => b.Name ≤ a.Name))) := by
  obtain ⟨ds, l, o, ob1, hfile, hl2, ho2, hl, ho, hb, hf, hresp⟩ := SearchServer_ok file r us hok
  have hne1 : r.order_by ≠ "" := by
    intro h
    have h0 : atoi "" = none := by decide
    rw [h, h0] at hob
    cases hob
  rw [if_pos hne1, hob] at hb
  cases hb
  have hus := respond_ok ds r.query _ ob l o hl2 ho2 us hresp
  rw [if_neg hne] at hus
  have hsorted := sortSliceStable_sorted
    (lessBy (if r.order_field = "" then "Name" else r.order_field) (ob == 1))
    (lessBy_asymm _ _) (lessBy_ntrans _ _) (matching r.query ds.tokens)
  refine ⟨ds, l, o, _, hfile, hl, ho, rfl, sortSliceStable_perm _ _, hus, ?_, ?_, ?_⟩
  · rw [hus]
    exact window_infix _ _ _
  all_goals
    generalize sortSliceStable
      (lessBy (if r.order_field = "" then "Name" else r.order_field) (ob == 1))
      (matching r.query ds.tokens) = sorted at hus hsorted ⊢
    have hsub : us.Sublist sorted := by
      rw [hus]
      exact window_sublist _ _ _
    intro h1
    subst h1
    refine ⟨?_, ?_, ?_⟩
  · intro hfld
    have h2 : sorted.Pairwise (fun a b => a.ID ≤ b.ID) :=
      hsorted.imp (fun {a b} h => by rw [lessBy_false_iff] at h; simpa [hfld] using h)
    exact ⟨h2, h2.sublist hsub⟩
  · intro hfld
    have h2 : sorted.Pairwise (fun a b => a.Age ≤ b.Age) :=
      hsorted.imp (fun {a b} h => by rw [lessBy_false_iff] at h; simpa [hfld] using h)
    exact ⟨h2, h2.sublist hsub⟩
  · intro hfld
    have h2 : sorted.Pairwise (fun a b => a.Name ≤ b.Name) :=
      hsorted.imp (fun {a b} h => by
        rw [lessBy_false_iff] at h
        rcases hfld with hfld | hfld <;> simpa [hfld] using h)
    exact ⟨h2, h2.sublist hsub⟩
  · intro hfld
    have h2 : sorted.Pairwise (fun a b => b.ID ≤ a.ID) :=
      hsorted.imp (fun {a b} h => by rw [lessBy_false_iff] at h; simpa [hfld] using h)
    exact ⟨h2, h2.sublist hsub⟩
  · intro hfld
    have h2 : sorted.Pairwise (fun a b => b.Age ≤ a.Age) :=
      hsorted.imp (fun {a b} h => by rw [lessBy_false_iff] at h; simpa [hfld] using h)
    exact ⟨h2, h2.sublist hsub⟩
  · intro hfld
    have h2 : sorted.Pairwise (fun a b => b.Name ≤ a.Name) :=
      hsorted.imp (fun {a b} h => by
        rw [lessBy_false_iff] at h
        rcases hfld with hfld | hfld <;> simpa [hfld] using h)
    exact ⟨h2, h2.sublist hsub⟩

theorem searchServer_sorted_witness :
    (SearchServer
      (some { tokens := [Token.other, Token.row ⟨1, 20, "X", "One", "a", "m"⟩,
                Token.row ⟨3, 22, "Y", "Two", "b", "f"⟩,
                Token.row ⟨2, 21, "Z", "Three", "c", "m"⟩, Token.other]
              corrupt := false })
      { limit := "1", offset := "1", order_field := "Id", order_by := "-1", query := "" }).reply =
      Reply.ok [⟨2, "Z Three", 21, "c", "m"⟩] ∧
    atoi "-1" = some (-1) ∧
    ∃ sorted : List User, [(⟨2, "Z Three", 21, "c", "m"⟩ : User)] <:+: sorted ∧
      sorted.Pairwise (fun a b => b.ID ≤ a.ID) :=
  ⟨by decide, by decide,
    match searchServer_sorted
      (some { tokens := [Token.other, Token.row ⟨1, 20, "X", "One", "a", "m"⟩,
                Token.row ⟨3, 22, "Y", "Two", "b", "f"⟩,
                Token.row ⟨2, 21, "Z", "Three", "c", "m"⟩, Token.other]
              corrupt := false })
      { limit := "1", offset := "1", order_field := "Id", order_by := "-1", query := "" }
      [⟨2, "Z Three", 21, "c", "m"⟩] (-1) (by decide) (by decide) (by decide) with
    | ⟨_, _, _, sorted, _, _, _, _, _, _, hinf, _, hdesc⟩ =>
      ⟨sorted, hinf, ((hdesc rfl).1 rfl).1⟩⟩

theorem matching_mem (query : String) (tokens : List Token) (u : User)
    (h : u ∈ matching query tokens) :
    u ∈ datasetUsers tokens ∧
      (query = "" ∨ contains u.Name query = true ∨ contains u.About query = true) := by
  unfold matching at h
  rw [List.mem_filter] at h
  refine ⟨h.1, ?_⟩
  have := h.2
  simp only [matchesQuery, Bool.or_eq_true, beq_iff_eq] at this
  tauto

theorem matching_empty_query (tokens : List Token) :
    matching "" tokens = datasetUsers tokens := by
  unfold matching
  rw [List.filter_eq_self]
  intro u _
  simp [matchesQuery]

/-- The window property where the handler has it: for a valid request over a well-formed
dataset, without ordering, or with ordering when `start + limit` stays within `int`, the
answer is the window of the matching rows (sorted when ordering is asked for). -/
theorem SearchServer_window (ds : Dataset) (hc : ds.corrupt = false) (r : Request) (l o : Nat)
    (ob : Int) (hl : parseIntParam r.limit = some (l : Int))
    (ho : parseIntParam r.offset = some (o : Int))
    (hb : (if r.order_by ≠ "" then atoi r.order_by else some 0) = some ob)
    (hf : r.order_field = "" ∨ r.order_field = "Id" ∨ r.order_field = "Age" ∨
      r.order_field = "Name")
    (hov : ob = 0 ∨ min o (matching r.query ds.tokens).length + l < 2 ^ 63) :
    (SearchServer (some ds) r).reply =
      Reply.ok (window
        (if ob = 0 then matching r.query ds.tokens
          else sortSliceStable
            (lessBy (if r.order_field = "" then "Name" else r.order_field) (ob == 1))
            (matching r.query ds.tokens)) o l) := by
  rw [SearchServer_valid (some ds) r l o ob hl ho hb hf]
  by_cases hob : ob = 0
  · subst hob
    rw [respond_streaming ds hc]
    simp
  · rw [respond_sorting ds hc _ _ ob hob, if_neg hob]
    have hlen : (sortSliceStable
        (lessBy (if r.order_field = "" then "Name" else r.order_field) (ob == 1))
        (matching r.query ds.tokens)).length = (matching r.query ds.tokens).length :=
      (sortSliceStable_perm _ _).length_eq
    rw [paginate_eq _ o l (by rw [hlen]; exact hov.resolve_left hob)]

/-- C20: the rows `SearchServer` considers are exactly the rows whose name (first name, a
space, last name, trimmed) or text about the user contains the query, all rows when the query
is empty.  Whenever the handler answers with a list of users, the limit, the offset and the
`order_by` of the request parse, and the list is the window, at that offset and with that
limit, of exactly these rows in file order, or of their stable sort when ordering is asked
for; so every returned user is such a row.  A request without ordering over a well-formed
dataset is answered with that window of exactly these rows, for every limit and offset; with
no limit and no offset the answer is all of them; and a request with ordering is answered
with that window of the stable sort of exactly these rows when `start + limit` stays within
`int`. -/
theorem searchServer_filter (ds : Dataset) (r : Request) :
    (∀ us, (SearchServer (some ds) r).reply = Reply.ok us →
      ∃ (l o : Nat) (ob : Int),
        parseIntParam r.limit = some (l : Int) ∧ parseIntParam r.offset = some (o : Int) ∧
        (if r.order_by ≠ "" then atoi r.order_by else some 0) = some ob ∧
        us = window
          (if ob = 0 then (datasetUsers ds.tokens).filter (fun u =>
              r.query == "" || contains u.Name r.query || contains u.About r.query)
            else sortSliceStable
              (lessBy (if r.order_field = "" then "Name" else r.order_field) (ob == 1))
              ((datasetUsers ds.tokens).filter (fun u =>
                r.query == "" || contains u.Name r.query || contains u.About r.query))) o l ∧
        (sortSliceStable
            (lessBy (if r.order_field = "" then "Name" else r.order_field) (ob == 1))
            ((datasetUsers ds.tokens).filter (fun u =>
              r.query == "" || contains u.Name r.query || contains u.About r.query))).Perm
          ((datasetUsers ds.tokens).filter (fun u =>
            r.query == "" || contains u.Name r.query || contains u.About r.query)) ∧
        ∀ u, u ∈ us → u ∈ datasetUsers ds.tokens ∧
          (r.query = "" ∨ contains u.Name r.query = true ∨ contains u.About r.query = true)) ∧
    (ds.corrupt = false → ∀ l o : Nat, parseIntParam r.limit = some (l : Int) →
      parseIntParam r.offset = some (o : Int) → r.order_by = "" →
      (r.order_field = "" ∨ r.order_field = "Id" ∨ r.order_field = "Age" ∨
        r.order_field = "Name") →
      (SearchServer (some ds) r).reply = Reply.ok (window
        ((datasetUsers ds.tokens).filter (fun u =>
          r.query == "" || contains u.Name r.query || contains u.About r.query)) o l)) ∧
    (ds.corrupt = false → r.limit = "" → r.offset = "" → r.order_by = "" →
      r.order_field = "" →
      (SearchServer (some ds) r).reply = Reply.ok ((datasetUsers ds.tokens).filter (fun u =>
        r.query == "" || contains u.Name r.query || contains u.About r.query))) ∧
    (ds.corrupt = false → ∀ (l o : Nat) (ob : Int), parseIntParam r.limit = some (l : Int) →
      parseIntParam r.offset = some (o : Int) →
      (if r.order_by ≠ "" then atoi r.order_by else some 0) = some ob →
      (r.order_field = "" ∨ r.order_field = "Id" ∨ r.order_field = "Age" ∨
        r.order_field = "Name") →
      (ob = 0 ∨ min o ((datasetUsers ds.tokens).filter (fun u =>
        r.query == "" || contains u.Name r.query || contains u.About r.query)).length + l <
          2 ^ 63) →
      (SearchServer (some ds) r).reply = Reply.ok (window
        (if ob = 0 then (datasetUsers ds.tokens).filter (fun u =>
            r.query == "" || contains u.Name r.query || contains u.About r.query)
          else sortSliceStable
            (lessBy (if r.order_field = "" then "Name" else r.order_field) (ob == 1))
            ((datasetUsers ds.tokens).filter (fun u =>
              r.query == "" || contains u.Name r.query || contains u.About r.query))) o l)) ∧
    (r.query = "" → (datasetUsers ds.tokens).filter (fun u =>
        r.query == "" || contains u.Name r.query || contains u.About r.query) =
      datasetUsers ds.tokens) ∧
    (∀ xr, (mkUser xr).Name = trimSpace (xr.FirstName ++ " " ++ xr.LastName)) := by
  have hm : (datasetUsers ds.tokens).filter (fun u =>
      r.query == "" || contains u.Name r.query || contains u.About r.query) =
      matching r.query ds.tokens := rfl
  rw [hm]
  refine ⟨?_, ?_, ?_, ?_, ?_, fun _ => rfl⟩
  · intro us hok
    obtain ⟨ds1, l, o, ob, hfile, hl2, ho2, hpl, hpo, hpb, _, hresp⟩ :=
      SearchServer_ok (some ds) r us hok
    cases hfile
    have hus := respond_ok ds r.query _ ob l o hl2 ho2 us hresp
    have hsp := sortSliceStable_perm
      (lessBy (if r.order_field = "" then "Name" else r.order_field) (ob == 1))
      (matching r.query ds.tokens)
    have hperm : (if ob = 0 then matching r.query ds.tokens
        else sortSliceStable
          (lessBy (if r.order_field = "" then "Name" else r.order_field) (ob == 1))
          (matching r.query ds.tokens)).Perm (matching r.query ds.tokens) := by
      by_cases hob : ob = 0
      · rw [if_pos hob]
      · rw [if_neg hob]
        exact hsp
    refine ⟨l, o, ob, hpl, hpo, hpb, hus, hsp, ?_⟩
    intro u hu
    rw [hus] at hu
    exact matching_mem r.query ds.tokens u (hperm.subset ((window_sublist _ _ _).subset hu))
  · intro hc l o hl ho hb hf
    have hv := SearchServer_valid (some ds) r l o 0 hl ho (by rw [hb]; rfl) hf
    rw [hv]
    exact respond_streaming ds hc r.query _ l o
  · intro hc h1 h2 h3 h4
    have hv := SearchServer_valid (some ds) r 0 0 0 (by rw [h1]; rfl) (by rw [h2]; rfl)
      (by rw [h3]; rfl) (Or.inl h4)
    rw [hv]
    have := respond_streaming ds hc r.query (if r.order_field = "" then "Name" else r.order_field)
      0 0
    simpa [window] using this
  · intro hc l o ob hl ho hb hf hov
    exact SearchServer_window ds hc r l o ob hl ho hb hf hov
  · intro hq
    rw [hq]
    exact matching_empty_query _

theorem searchServer_filter_witness :
    (parseIntParam "5" = some ((5 : Nat) : Int) ∧ parseIntParam "" = some ((0 : Nat) : Int)) ∧
    (datasetUsers [Token.row ⟨1, 25, "Jasin", "Smith", "Software engineer", "male"⟩,
        Token.row ⟨2, 35, "Jonathan", "Doe", "Manager who loves coding", "male"⟩,
        Token.row ⟨3, 30, "Alice", "Johnson", "Designer", "female"⟩]).filter (fun u =>
          "on" == "" || contains u.Name "on" || contains u.About "on") =
      [⟨2, "Jonathan Doe", 35, "Manager who loves coding", "male"⟩,
        ⟨3, "Alice Johnson", 30, "Designer", "female"⟩] ∧
    (SearchServer
      (some { tokens := [Token.row ⟨1, 25, "Jasin", "Smith", "Software engineer", "male"⟩,
                Token.row ⟨2, 35, "Jonathan", "Doe", "Manager who loves coding", "male"⟩,
                Token.row ⟨3, 30, "Alice", "Johnson", "Designer", "female"⟩]
              corrupt := false })
      { limit := "5", offset := "", order_field := "", order_by := "", query := "on" }).reply =
      Reply.ok (window
        ((datasetUsers [Token.row ⟨1, 25, "Jasin", "Smith", "Software engineer", "male"⟩,
          Token.row ⟨2, 35, "Jonathan", "Doe", "Manager who loves coding", "male"⟩,
          Token.row ⟨3, 30, "Alice", "Johnson", "Designer", "female"⟩]).filter (fun u =>
            "on" == "" || contains u.Name "on" || contains u.About "on")) 0 5) ∧
    window [⟨2, "Jonathan Doe", 35, "Manager who loves coding", "male"⟩,
        ⟨3, "Alice Johnson", 30, "Designer", "female"⟩] 0 5 =
      [⟨2, "Jonathan Doe", 35, "Manager who loves coding", "male"⟩,
        ⟨3, "Alice Johnson", 30, "Designer", "female"⟩] ∧
    (SearchServer
      (some { tokens := [Token.row ⟨1, 25, "John", "Doe", "Developer", "male"⟩,
                Token.row ⟨2, 30, "Jane", "Smith", "Engineer", "female"⟩]
              corrupt := false })
      { limit := "", offset := "", order_field := "", order_by := "",
        query := "nonexistent" }) =
      { reply := Reply.ok [], opened := true, tokensRead := 3 } :=
  ⟨⟨by decide, by decide⟩, by decide,
    (searchServer_filter
      { tokens := [Token.row ⟨1, 25, "Jasin", "Smith", "Software engineer", "male"⟩,
          Token.row ⟨2, 35, "Jonathan", "Doe", "Manager who loves coding", "male"⟩,
          Token.row ⟨3, 30, "Alice", "Johnson", "Designer", "female"⟩]
        corrupt := false }
      { limit := "5", offset := "", order_field := "", order_by := "", query := "on" }).2.1
      rfl 5 0 (by decide) (by decide) rfl (Or.inl rfl),
    by decide, by decide⟩

/-- The parameter checks: a limit or an offset that `parseIntParam` rejects or that is
negative, an `order_by` that is given and that `strconv.Atoi` rejects, or an `order_field`
other than the empty string, `Id`, `Age` and `Name`, is answered with status 400 before the
dataset file is opened. -/
theorem SearchServer_bad_request (file : Option Dataset) (r : Request)
    (h : (parseIntParam r.limit = none ∨ ∃ v, parseIntParam r.limit = some v ∧ v < 0) ∨
      (parseIntParam r.offset = none ∨ ∃ v, parseIntParam r.offset = some v ∧ v < 0) ∨
      (r.order_by ≠ "" ∧ atoi r.order_by = none) ∨
      ¬ (r.order_field = "" ∨ r.order_field = "Id" ∨ r.order_field = "Age" ∨
        r.order_field = "Name")) :
    (SearchServer file r).reply.status = some 400 ∧ (SearchServer file r).opened = false ∧
      (SearchServer file r).tokensRead = 0 := by
  cases hlim : parseIntParam r.limit with
  | none => simp [SearchServer, hlim, Reply.status]
  | some limit =>
    by_cases hl0 : limit < 0
    · simp [SearchServer, hlim, hl0, Reply.status]
    · cases hoff : parseIntParam r.offset with
      | none => simp [SearchServer, hlim, hl0, hoff, Reply.status]
      | some offset =>
        by_cases ho0 : offset < 0
        · simp [SearchServer, hlim, hl0, hoff, ho0, Reply.status]
        · cases hob : (if r.order_by ≠ "" then atoi r.order_by else some 0) with
          | none =>
            simp only [SearchServer, hlim, hl0, hoff, ho0, hob, if_false]
            simp [Reply.status]
          | some orderBy =>
            by_cases hf : (if r.order_field = "" then "Name" else r.order_field) = "Id" ∨
                (if r.order_field = "" then "Name" else r.order_field) = "Age" ∨
                (if r.order_field = "" then "Name" else r.order_field) = "Name"
            · exfalso
              rcases h with h | h | h | h
              · rcases h with h | ⟨v, hv, hv0⟩
                · rw [hlim] at h; cases h
                · rw [hlim] at hv; cases hv; exact hl0 hv0
              · rcases h with h | ⟨v, hv, hv0⟩
                · rw [hoff] at h; cases h
                · rw [hoff] at hv; cases hv; exact ho0 hv0
              · rw [if_pos h.1, h.2] at hob
                cases hob
              · apply h
                by_cases he : r.order_field = ""
                · exact Or.inl he
                · simp only [he, if_false] at hf
                  exact Or.inr hf
            · simp only [SearchServer, hlim, hl0, hoff, ho0, hob, if_false]
              rw [if_neg hf]
              simp [Reply.status]

/-- C17: the window claim fails on the ordering path.  Over the two rows of the test
`TestSearchServer_OffsetBeyondLenAfterSorting`, the request `limit=9223372036854775807`,
`offset=1`, `order_field=Age`, `order_by=1` makes `start + limit` exceed the range of `int`:
`end` becomes negative, is not clamped, and the slice expression `users[start:end]` panics;
the same limit and offset without ordering return the window, the second row. -/
theorem searchServer_window_overflow :
    SearchServer
      (some { tokens := [Token.row ⟨1, 20, "A", "a", "a", "m"⟩,
                Token.row ⟨2, 21, "B", "b", "b", "f"⟩]
              corrupt := false })
      { limit := "9223372036854775807", offset := "1", order_field := "Age", order_by := "1",
        query := "" } =
      { reply := Reply.panic, opened := true, tokensRead := 3 } ∧
    SearchServer
      (some { tokens := [Token.row ⟨1, 20, "A", "a", "a", "m"⟩,
                Token.row ⟨2, 21, "B", "b", "b", "f"⟩]
              corrupt := false })
      { limit := "9223372036854775807", offset := "1", order_field := "Age", order_by := "",
        query := "" } =
      { reply := Reply.ok [⟨2, "B b", 21, "b", "f"⟩], opened := true, tokensRead := 3 } ∧
    window (sortSliceStable (lessBy "Age" true)
      (matching "" [Token.row ⟨1, 20, "A", "a", "a", "m"⟩,
        Token.row ⟨2, 21, "B", "b", "b", "f"⟩])) 1 9223372036854775807 =
      [⟨2, "B b", 21, "b", "f"⟩] ∧
    wrapInt (1 + 9223372036854775807) = -9223372036854775808 := by
  refine ⟨by decide, by decide, by decide, by decide⟩

/-- C19: a request that passes the four parameter checks over a readable, well-formed
dataset is not always answered 200.  Over the row of the test `TestSearchServer_Direct`,
the request `limit=9223372036854775807`, `offset=1`, `order_field=Id`, `order_by=-1` passes
every check, the file is opened and read to its end, and the handler panics in the slice
expression `users[start:end]` without writing a status. -/
theorem searchServer_valid_request_panics :
    parseIntParam "9223372036854775807" = some 9223372036854775807 ∧
    parseIntParam "1" = some 1 ∧ atoi "-1" = some (-1) ∧
    (SearchServer
      (some { tokens := [Token.other, Token.row ⟨1, 30, "Test", "User", "Test user", "male"⟩,
                Token.other]
              corrupt := false })
      { limit := "9223372036854775807", offset := "1", order_field := "Id", order_by := "-1",
        query := "" }) = { reply := Reply.panic, opened := true, tokensRead := 4 } ∧
    (Reply.panic).status = none ∧
    (SearchServer
      (some { tokens := [Token.other, Token.row ⟨1, 30, "Test", "User", "Test user", "male"⟩,
                Token.other]
              corrupt := false })
      { limit := "5", offset := "1", order_field := "Id", order_by := "-1",
        query := "" }).reply.status = some 200 := by
  refine ⟨by decide, by decide, by decide, by decide, rfl, by decide⟩

end Search

namespace Game

/-! ## The parsing of a command -/

theorem lookup_exit (verb : String) (h : actionsAliases.lookup verb = some "exit") :
    verb = "выйти из игры" := by
  simp only [actionsAliases, List.lookup] at h
  repeat' split at h
  all_goals first
    | exact absurd h (by decide)
    | (rename_i heq; simpa using heq)

theorem splitChars_no_sep (sep : Char) (l : List Char) :
    ∀ w, w ∈ splitChars sep l → sep ∉ w := by
  induction l with
  | nil =>
    intro w hw
    simp only [splitChars, List.mem_singleton] at hw
    rw [hw]
    simp
  | cons c cs ih =>
    intro w hw
    unfold splitChars at hw
    split at hw
    · rcases List.mem_cons.mp hw with h1 | h1
      · rw [h1]
        simp
      · exact ih w h1
    · rename_i hc
      split at hw
      · simp only [List.mem_singleton] at hw
        rw [hw]
        simp only [List.mem_singleton]
        exact fun h => hc h.symm
      · rename_i w1 ws heq
        rcases List.mem_cons.mp hw with h1 | h1
        · rw [h1]
          intro hmem
          rcases List.mem_cons.mp hmem with h2 | h2
          · exact hc h2.symm
          · exact ih w1 (by rw [heq]; exact List.mem_cons_self _ _) h2
        · exact ih w (by rw [heq]; exact List.mem_cons_of_mem _ h1)

/-- No word of a split line is the key "выйти из игры" of `actionsAliases`. -/
theorem split_not_exit (line verb : String) (hv : verb ∈ split line) :
    actionsAliases.lookup verb ≠ some "exit" := by
  intro h
  have hverb := lookup_exit verb h
  simp only [split, List.mem_map] at hv
  obtain ⟨w, hw, hmk⟩ := hv
  have hno := splitChars_no_sep ' ' line.toList w hw
  have hw2 : w = "выйти из игры".toList := by
    rw [← hverb, ← hmk]
    rfl
  rw [hw2] at hno
  exact hno (by decide)

/-! ## The command "выйти из игры" -/

/-- C21: in every game state `handleCommand` answers the command "выйти из игры" with
"неизвестная команда" and leaves the state as it is, and the loop of `main` goes on to the
next line; no command at all reaches the case "exit" of `resolveReaction`, because the verb
looked up in `actionsAliases` is a word without a blank. -/
theorem handleCommand_exit (s : State) :
    handleCommand "выйти из игры" s = ("неизвестная команда", s) ∧
    (mainLoop ["выйти из игры\n"] s []) =
      { printed := ["неизвестная команда"], stopped := false, state := s } ∧
    (∀ msg verb args, split (Search.trimSpace msg) = verb :: args →
      actionsAliases.lookup verb ≠ some "exit") := by
  have h1 : split (Search.trimSpace "выйти из игры") = ["выйти", "из", "игры"] := by decide
  have h2 : actionsAliases.lookup "выйти" = none := by decide
  have h3 : handleCommand "выйти из игры" s = ("неизвестная команда", s) := by
    simp only [handleCommand, resolveReaction, h1, h2]
  have h4 : Search.trimSpace "выйти из игры\n" = "выйти из игры" := by decide
  have h5 : ("выйти из игры" : String) ≠ "" := by decide
  have h6 : ("неизвестная команда" : String) ≠ "Спасибо за игру!" := by decide
  refine ⟨h3, ?_, ?_⟩
  · simp only [mainLoop, h4, h5, h3, h6, if_false, List.nil_append]
  · intro msg verb args hparts
    exact split_not_exit _ verb (by rw [hparts]; exact List.mem_cons_self _ _)

/-! ## The command "применить" on an object that does not accept the item -/

theorem handleObjectActionLoop_rejected (itemToUse : String) (actions : List Action)
    (s : State)
    (hrej : ∀ a, a ∈ actions →
      ¬ (a.action = ActionType.ActionUse ∧ a.requirement = itemToUse)) :
    handleObjectActionLoop ActionType.ActionUse itemToUse actions s = (("", false), s) := by
  induction actions with
  | nil => rfl
  | cons a rest ih =>
    have hrest := ih (fun b hb => hrej b (List.mem_cons_of_mem _ hb))
    have ha := hrej a (List.mem_cons_self _ _)
    unfold handleObjectActionLoop
    by_cases h1 : a.action = ActionType.ActionUse
    · have h2 : ¬ a.requirement = itemToUse := fun h => ha ⟨h1, h⟩
      have h3 : ¬ (ActionType.ActionUse = ActionType.ActionGo) := by decide
      rw [if_pos h1, if_neg h3, if_neg (fun h => h2 h.2)]
      exact hrest
    · rw [if_neg h1]
      exact hrest

/-- C24: in every game state in which the player holds the item `X` and the current room
has an object `O` none of whose actions is a use action requiring `X`, a command made of a
verb for "use" ("применить"), `X` and `O` is answered with "не к чему применить", and the
items of the player after the command are the items before it followed by one more `X`:
the list is one longer than before and differs from it; nothing else of the state changes. -/
theorem useCommand_rejected (s : State) (msg verb X O : String) (rest : List String)
    (obj : GameObject)
    (hparts : split (Search.trimSpace msg) = verb :: X :: O :: rest)
    (hverb : actionsAliases.lookup verb = some "use")
    (hhas : hasItem X s.player = true)
    (hobj : getObject (s.deref s.room) O = some obj)
    (hrej : ∀ a, a ∈ obj.Actions →
      ¬ (a.action = ActionType.ActionUse ∧ a.requirement = X)) :
    handleCommand msg s = ("не к чему применить", { s with player := s.player ++ [X] }) ∧
    (handleCommand msg s).2.player ≠ s.player ∧
    (handleCommand msg s).2.player.length = s.player.length + 1 := by
  have hloop := handleObjectActionLoop_rejected X obj.Actions s hrej
  have h1 : ¬ (("use" : String) = "take") := by decide
  have h2 : ¬ (("use" : String) = "look") := by decide
  have h3 : ¬ (("use" : String) = "go") := by decide
  have hcmd : handleCommand msg s =
      ("не к чему применить", { s with player := s.player ++ [X] }) := by
    simp only [handleCommand, resolveReaction, hparts, hverb, h1, h2, h3, if_false, if_true,
      hhas, Bool.not_true, hobj, handleObjectAction, hloop, Bool.false_eq_true]
  refine ⟨hcmd, ?_, ?_⟩
  · rw [hcmd]
    intro h
    have hlen := congrArg List.length h
    simp at hlen
  · rw [hcmd]
    simp

theorem useCommand_rejected_witness :
    hasItem "конспекты"
      (runCommands ["идти коридор", "идти комната", "взять рюкзак", "взять конспекты",
        "идти коридор"] initGame).player = true ∧
    (runCommands ["идти коридор", "идти комната", "взять рюкзак", "взять конспекты",
        "идти коридор"] initGame).room = RoomPtr.corridor ∧
    (handleCommand "применить конспекты дверь"
      (runCommands ["идти коридор", "идти комната", "взять рюкзак", "взять конспекты",
        "идти коридор"] initGame)).1 = "не к чему применить" ∧
    (runCommands ["идти коридор", "идти комната", "взять рюкзак", "взять конспекты",
        "идти коридор"] initGame).player = ["рюкзак", "конспекты"] ∧
    (handleCommand "применить конспекты дверь"
      (runCommands ["идти коридор", "идти комната", "взять рюкзак", "взять конспекты",
        "идти коридор"] initGame)).2.player = ["рюкзак", "конспекты", "конспекты"] :=
  have h := useCommand_rejected
    (runCommands ["идти коридор", "идти комната", "взять рюкзак", "взять конспекты",
      "идти коридор"] initGame)
    "применить конспекты дверь" "применить" "конспекты" "дверь" [] lockedDoor
    (by decide) (by decide) (by decide) (by decide) (by decide)
  ⟨by decide, by decide, congrArg Prod.fst h.1, by decide, by decide⟩

/-! ## `pickItem` -/

theorem findItem_none (item : String) (l : List String) :
    findItem item l = none ↔ item ∉ l := by
  induction l with
  | nil => simp [findItem]
  | cons x rest ih =>
    unfold findItem
    by_cases hx : x = item
    · simp [hx]
    · rw [if_neg hx]
      simp only [Option.map_eq_none', List.mem_cons, not_or]
      rw [ih]
      exact ⟨fun h => ⟨fun h1 => hx h1.symm, h⟩, fun h => h.2⟩

theorem findItem_some (item : String) (l : List String) (i : Nat)
    (h : findItem item l = some i) :
    ∃ before after, l = before ++ item :: after ∧ item ∉ before ∧
      l.take i ++ l.drop (i + 1) = before ++ after := by
  induction l generalizing i with
  | nil => simp [findItem] at h
  | cons x rest ih =>
    unfold findItem at h
    by_cases hx : x = item
    · rw [if_pos hx] at h
      simp only [Option.some.injEq] at h
      subst h
      exact ⟨[], rest, by simp [hx], by simp, by simp⟩
    · rw [if_neg hx] at h
      cases hr : findItem item rest with
      | none => simp [hr] at h
      | some k =>
        simp only [hr, Option.map_some', Option.some.injEq] at h
        subst h
        obtain ⟨before, after, h1, h2, h3⟩ := ih k hr
        refine ⟨x :: before, after, by simp [h1], ?_, ?_⟩
        · simp only [List.mem_cons, not_or]
          exact ⟨fun h => hx h.symm, h2⟩
        · simp only [List.take_succ_cons, List.drop_succ_cons, List.cons_append, h3]

theorem hasItem_iff (item : String) (l : List String) : hasItem item l = true ↔ item ∈ l := by
  induction l with
  | nil => simp [hasItem]
  | cons x rest ih =>
    unfold hasItem
    by_cases hx : x = item
    · simp [hx]
    · rw [if_neg hx, ih]
      simp only [List.mem_cons]
      exact ⟨fun h => Or.inr h, fun h => h.resolve_left (fun h1 => hx h1.symm)⟩

theorem deref_store (s : State) (p : RoomPtr) (r : Room) : (s.store p r).deref p = r := by
  cases p <;> rfl

theorem deref_store_ne (s : State) (p q : RoomPtr) (r : Room) (h : q ≠ p) :
    (s.store p r).deref q = s.deref q := by
  cases p <;> cases q <;> first | rfl | exact absurd rfl h

theorem updateBedroomDescription_frame (s : State) :
    (updateBedroomDescription s).player = s.player ∧
    (updateBedroomDescription s).room = s.room ∧
    ∀ p, ((updateBedroomDescription s).deref p).Items = (s.deref p).Items ∧
      ((updateBedroomDescription s).deref p).Objects = (s.deref p).Objects := by
  refine ⟨rfl, rfl, ?_⟩
  intro p
  cases p <;> exact ⟨rfl, rfl⟩

theorem updateKitchenDescription_frame (s : State) :
    (updateKitchenDescription s).player = s.player ∧
    (updateKitchenDescription s).room = s.room ∧
    ∀ p, ((updateKitchenDescription s).deref p).Items = (s.deref p).Items ∧
      ((updateKitchenDescription s).deref p).Objects = (s.deref p).Objects := by
  unfold updateKitchenDescription
  split
  · refine ⟨rfl, rfl, ?_⟩
    intro p
    cases p <;> exact ⟨rfl, rfl⟩
  · exact ⟨rfl, rfl, fun _ => ⟨rfl, rfl⟩⟩

theorem store_player (s : State) (p : RoomPtr) (r : Room) : (s.store p r).player = s.player := by
  cases p <;> rfl

/-- C25: `pickItem`, case by case in the order of its checks.  An item absent from the room:
(false, "нет такого"), state unchanged.  An item of the room other than "рюкзак", the player
not holding "рюкзак": (false, "некуда класть"), state unchanged.  Every other call (the item
is in the room and it is "рюкзак" or the player holds "рюкзак"): true, the first occurrence
of the item is removed from the items of the room, the other items keep their order, the
item is appended to the items of the player, and the items of the other rooms stay. -/
theorem pickItem_cases (item : String) (room : RoomPtr) (s : State) :
    (item ∉ (s.deref room).Items → pickItem item room s = ((false, "нет такого"), s)) ∧
    (item ∈ (s.deref room).Items → item ≠ "рюкзак" → "рюкзак" ∉ s.player →
      pickItem item room s = ((false, "некуда класть"), s)) ∧
    (item ∈ (s.deref room).Items → (item = "рюкзак" ∨ "рюкзак" ∈ s.player) →
      (pickItem item room s).1.1 = true ∧
      (∃ before after, (s.deref room).Items = before ++ item :: after ∧ item ∉ before ∧
        ((pickItem item room s).2.deref room).Items = before ++ after) ∧
      (pickItem item room s).2.player = s.player ++ [item] ∧
      (∀ q, q ≠ room → ((pickItem item room s).2.deref q).Items = (s.deref q).Items)) := by
  refine ⟨?_, ?_, ?_⟩
  · intro habs
    have h := (findItem_none item _).mpr habs
    simp only [pickItem, h]
  · intro hmem hne hnb
    cases hf : findItem item (s.deref room).Items with
    | none => exact absurd hmem ((findItem_none item _).mp hf)
    | some i =>
      have hb : hasItem "рюкзак" s.player = false := by
        cases hh : hasItem "рюкзак" s.player with
        | false => rfl
        | true => exact absurd ((hasItem_iff _ _).mp hh) hnb
      simp only [pickItem, hf, hne, if_false, hb, Bool.not_false, if_true]
  · intro hmem hor
    cases hf : findItem item (s.deref room).Items with
    | none => exact absurd hmem ((findItem_none item _).mp hf)
    | some i =>
      obtain ⟨before, after, h1, h2, h3⟩ := findItem_some item _ i hf
      by_cases hbag : item = "рюкзак"
      · subst hbag
        refine ⟨?_, ⟨before, after, h1, h2, ?_⟩, ?_, ?_⟩
        · simp only [pickItem, hf, if_true]
        · simp only [pickItem, hf, if_true]
          rw [((updateBedroomDescription_frame _).2.2 room).1, ← h3]
          cases room <;> rfl
        · simp only [pickItem, hf, if_true]
          rw [(updateBedroomDescription_frame _).1]
          cases room <;> rfl
        · intro q hq
          simp only [pickItem, hf, if_true]
          rw [((updateBedroomDescription_frame _).2.2 q).1]
          cases room <;> cases q <;> first | rfl | exact absurd rfl hq
      · have hb : hasItem "рюкзак" s.player = true :=
          (hasItem_iff _ _).mpr (hor.resolve_left hbag)
        refine ⟨?_, ⟨before, after, h1, h2, ?_⟩, ?_, ?_⟩
        · simp only [pickItem, hf, hbag, if_false, hb, Bool.not_true, Bool.false_eq_true]
        · simp only [pickItem, hf, hbag, if_false, hb, Bool.not_true, Bool.false_eq_true]
          rw [((updateKitchenDescription_frame _).2.2 room).1,
            ((updateBedroomDescription_frame _).2.2 room).1, ← h3]
          cases room <;> rfl
        · simp only [pickItem, hf, hbag, if_false, hb, Bool.not_true, Bool.false_eq_true]
          rw [(updateKitchenDescription_frame _).1, (updateBedroomDescription_frame _).1]
          cases room <;> rfl
        · intro q hq
          simp only [pickItem, hf, hbag, if_false, hb, Bool.not_true, Bool.false_eq_true]
          rw [((updateKitchenDescription_frame _).2.2 q).1,
            ((updateBedroomDescription_frame _).2.2 q).1]
          cases room <;> cases q <;> first | rfl | exact absurd rfl hq

theorem pickItem_cases_witness :
    ("чай" ∉ (initGame.deref RoomPtr.kitchen).Items ∧
      pickItem "чай" RoomPtr.kitchen initGame = ((false, "нет такого"), initGame)) ∧
    ("ключи" ∈ (initGame.deref RoomPtr.bedroom).Items ∧ "рюкзак" ∉ initGame.player ∧
      pickItem "ключи" RoomPtr.bedroom initGame = ((false, "некуда класть"), initGame)) ∧
    ("рюкзак" ∈ (initGame.deref RoomPtr.bedroom).Items ∧
      (pickItem "рюкзак" RoomPtr.bedroom initGame).1 = (true, "вы надели: рюкзак") ∧
      ((pickItem "рюкзак" RoomPtr.bedroom initGame).2.deref RoomPtr.bedroom).Items =
        ["ключи", "конспекты"] ∧
      (pickItem "рюкзак" RoomPtr.bedroom initGame).2.player = initGame.player ++ ["рюкзак"]) :=
  ⟨⟨by decide, (pickItem_cases "чай" RoomPtr.kitchen initGame).1 (by decide)⟩,
    ⟨by decide, by decide,
      (pickItem_cases "ключи" RoomPtr.bedroom initGame).2.1 (by decide) (by decide)
        (by decide)⟩,
    ⟨by decide, by decide, by decide,
      ((pickItem_cases "рюкзак" RoomPtr.bedroom initGame).2.2 (by decide)
        (Or.inl rfl)).2.2.1⟩⟩

/-! ## The door of the corridor -/

theorem pickItem_frame (item : String) (room : RoomPtr) (s : State) :
    (pickItem item room s).2.room = s.room ∧
    ∀ p, ((pickItem item room s).2.deref p).Objects = (s.deref p).Objects := by
  unfold pickItem
  split
  · exact ⟨rfl, fun _ => rfl⟩
  · simp only
    split
    · refine ⟨?_, ?_⟩
      · rw [(updateBedroomDescription_frame _).2.1]
        cases room <;> rfl
      · intro p
        rw [((updateBedroomDescription_frame _).2.2 p).2]
        cases room <;> cases p <;> rfl
    · split
      · exact ⟨rfl, fun _ => rfl⟩
      · refine ⟨?_, ?_⟩
        · rw [(updateKitchenDescription_frame _).2.1, (updateBedroomDescription_frame _).2.1]
          cases room <;> rfl
        · intro p
          rw [((updateKitchenDescription_frame _).2.2 p).2,
            ((updateBedroomDescription_frame _).2.2 p).2]
          cases room <;> cases p <;> rfl

theorem Locked_of_frame (s s1 : State) (h : Locked s) (hroom : s1.room = s.room)
    (hobj : ∀ p, (s1.deref p).Objects = (s.deref p).Objects) : Locked s1 := by
  obtain ⟨h1, h2, h3, h4⟩ := h
  refine ⟨?_, ?_, ?_, ?_⟩
  · exact (hobj RoomPtr.kitchen).trans h1
  · exact (hobj RoomPtr.corridor).trans h2
  · exact (hobj RoomPtr.bedroom).trans h3
  · rw [hroom]
    exact h4

/-- The objects within reach while the door is locked: a passage to the corridor, the
kitchen or the bedroom, or the locked door, which is in the corridor. -/
theorem locked_objects (s : State) (h : Locked s) (name : String) (obj : GameObject)
    (hobj : getObject (s.deref s.room) name = some obj) :
    (∃ n c e, obj = passage n c e ∧
      (e = Effect.enterCorridor ∨ e = Effect.enterKitchen ∨ e = Effect.enterBedroom)) ∨
    (obj = lockedDoor ∧ name = "дверь" ∧ s.room = RoomPtr.corridor) := by
  obtain ⟨h1, h2, h3, h4⟩ := h
  cases hr : s.room with
  | street => exact absurd hr h4
  | kitchen =>
    rw [hr] at hobj
    simp only [getObject, State.deref, h1, initGame, mapGet] at hobj
    split at hobj
    · simp only [Option.some.injEq] at hobj
      exact Or.inl ⟨_, _, _, hobj.symm, Or.inl rfl⟩
    · cases hobj
  | bedroom =>
    rw [hr] at hobj
    simp only [getObject, State.deref, h3, initGame, mapGet] at hobj
    split at hobj
    · simp only [Option.some.injEq] at hobj
      exact Or.inl ⟨_, _, _, hobj.symm, Or.inl rfl⟩
    · cases hobj
  | corridor =>
    rw [hr] at hobj
    simp only [getObject, State.deref, h2, initGame, mapGet] at hobj
    split at hobj
    · simp only [Option.some.injEq] at hobj
      exact Or.inl ⟨_, _, _, hobj.symm, Or.inr (Or.inl rfl)⟩
    · split at hobj
      · simp only [Option.some.injEq] at hobj
        exact Or.inl ⟨_, _, _, hobj.symm, Or.inr (Or.inr rfl)⟩
      · split at hobj
        · rename_i hname
          simp only [Option.some.injEq] at hobj
          exact Or.inr ⟨hobj.symm, hname.symm, rfl⟩
        · cases hobj

theorem callOnSuccess_locked (e : Effect) (s : State) (h : Locked s)
    (he : e = Effect.enterCorridor ∨ e = Effect.enterKitchen ∨ e = Effect.enterBedroom) :
    Locked (callOnSuccess e s) := by
  obtain ⟨h1, h2, h3, h4⟩ := h
  rcases he with he | he | he
  · subst he
    exact ⟨h1, h2, h3, by simp [callOnSuccess]⟩
  · subst he
    simp only [callOnSuccess]
    split
    · exact ⟨h1, h2, h3, by simp⟩
    · exact ⟨h1, h2, h3, by simp⟩
  · subst he
    simp only [callOnSuccess]
    refine ⟨?_, ?_, ?_, ?_⟩
    · exact (((updateBedroomDescription_frame _).2.2 RoomPtr.kitchen).2).trans h1
    · exact (((updateBedroomDescription_frame _).2.2 RoomPtr.corridor).2).trans h2
    · exact (((updateBedroomDescription_frame _).2.2 RoomPtr.bedroom).2).trans h3
    · rw [(updateBedroomDescription_frame _).2.1]
      simp

theorem handleObjectAction_go_passage (n c : String) (e : Effect) (s : State) :
    handleObjectAction (passage n c e) ActionType.ActionGo "" s =
      ((c, true), callOnSuccess e s) := by
  simp [handleObjectAction, handleObjectActionLoop, passage]

theorem handleObjectAction_go_lockedDoor (s : State) :
    handleObjectAction lockedDoor ActionType.ActionGo "" s = (("дверь закрыта", false), s) := by
  simp [handleObjectAction, handleObjectActionLoop, lockedDoor]

theorem handleObjectAction_use_passage (n c item : String) (e : Effect) (s : State) :
    handleObjectAction (passage n c e) ActionType.ActionUse item s = (("", false), s) := by
  simp [handleObjectAction, handleObjectActionLoop, passage]

theorem handleObjectAction_use_lockedDoor (item : String) (s : State) :
    handleObjectAction lockedDoor ActionType.ActionUse item s =
      if "ключи" = item then (("дверь открыта", true), callOnSuccess Effect.unlockDoor s)
      else (("", false), s) := by
  by_cases h : "ключи" = item
  · simp [handleObjectAction, handleObjectActionLoop, lockedDoor, h]
  · simp [handleObjectAction, handleObjectActionLoop, lockedDoor, h]

theorem Locked_append (s : State) (item : String) (h : Locked s) :
    Locked { s with player := s.player ++ [item] } := h

/-- A command given while the door is locked leaves it locked, unless it applies the keys to
the door in the corridor, the player holding the keys; that command is answered with
"дверь открыта". -/
theorem handleCommand_locked (c : String) (s : State) (h : Locked s) :
    Locked (handleCommand c s).2 ∨
    (usesKeysOnDoor c = true ∧ s.room = RoomPtr.corridor ∧
      hasItem "ключи" s.player = true ∧ (handleCommand c s).1 = "дверь открыта") := by
  simp only [handleCommand, resolveReaction, usesKeysOnDoor]
  generalize split (Search.trimSpace c) = parts
  cases parts with
  | nil => exact Or.inl h
  | cons verb args =>
    simp only
    cases hl : actionsAliases.lookup verb with
    | none => exact Or.inl h
    | some result =>
      simp only
      by_cases ht : result = "take"
      · rw [if_pos ht]
        left
        cases args with
        | nil => exact h
        | cons item _ =>
          exact Locked_of_frame s _ h (pickItem_frame item s.room s).1
            (pickItem_frame item s.room s).2
      · rw [if_neg ht]
        by_cases hk : result = "look"
        · rw [if_pos hk]
          exact Or.inl h
        · rw [if_neg hk]
          by_cases hg : result = "go"
          · rw [if_pos hg]
            left
            cases args with
            | nil => exact h
            | cons target _ =>
              simp only
              cases ho : getObject (s.deref s.room)
                  (if target = "улица" ∧ s.room = RoomPtr.corridor then "дверь" else target) with
              | none => exact h
              | some obj =>
                simp only
                rcases locked_objects s h _ obj ho with ⟨n, cm, e, hobj, he⟩ | ⟨hobj, _, _⟩
                · rw [hobj, handleObjectAction_go_passage]
                  exact callOnSuccess_locked e s h he
                · rw [hobj, handleObjectAction_go_lockedDoor]
                  exact h
          · rw [if_neg hg]
            by_cases hu : result = "use"
            · rw [if_pos hu]
              match args with
              | [] => exact Or.inl h
              | [_] => exact Or.inl h
              | itemToUse :: objectName :: _ =>
                simp only
                cases hh : hasItem itemToUse s.player with
                | false => exact Or.inl h
                | true =>
                  simp only [Bool.not_true, Bool.false_eq_true, if_false]
                  cases ho : getObject (s.deref s.room) objectName with
                  | none => exact Or.inl h
                  | some obj =>
                    simp only
                    rcases locked_objects s h _ obj ho with
                      ⟨n, cm, e, hobj, he⟩ | ⟨hobj, hname, hroom⟩
                    · rw [hobj, handleObjectAction_use_passage]
                      exact Or.inl (Locked_append s itemToUse h)
                    · rw [hobj, handleObjectAction_use_lockedDoor]
                      by_cases hkey : "ключи" = itemToUse
                      · right
                        rw [if_pos hkey]
                        subst hkey
                        refine ⟨?_, hroom, hh, rfl⟩
                        simp [hl, hu, hname]
                      · rw [if_neg hkey]
                        exact Or.inl (Locked_append s itemToUse h)
            · rw [if_neg hu]
              by_cases he : result = "exit"
              · rw [if_pos he]
                exact Or.inl h
              · rw [if_neg he]
                exact Or.inl h

theorem runCommands_append (pre post : List String) (s : State) :
    runCommands (pre ++ post) s = runCommands post (runCommands pre s) := by
  induction pre generalizing s with
  | nil => rfl
  | cons c rest ih => exact ih _

/-- A sequence of commands given while the door is locked leaves it locked, unless one of
them applies the keys to the door in the corridor and is answered with "дверь открыта". -/
theorem runCommands_locked (cmds : List String) (s : State) (h : Locked s) :
    Locked (runCommands cmds s) ∨
    ∃ pre c post, cmds = pre ++ c :: post ∧ usesKeysOnDoor c = true ∧
      (runCommands pre s).room = RoomPtr.corridor ∧
      hasItem "ключи" (runCommands pre s).player = true ∧
      (handleCommand c (runCommands pre s)).1 = "дверь открыта" := by
  induction cmds generalizing s with
  | nil => exact Or.inl h
  | cons c rest ih =>
    rcases handleCommand_locked c s h with h1 | ⟨h1, h2, h3, h4⟩
    · rcases ih _ h1 with h5 | ⟨pre, c1, post, h5, h6, h7, h8, h9⟩
      · exact Or.inl h5
      · exact Or.inr ⟨c :: pre, c1, post, by rw [h5]; rfl, h6, h7, h8, h9⟩
    · exact Or.inr ⟨[], c, rest, rfl, h1, h2, h3, h4⟩

theorem initGame_locked : Locked initGame :=
  ⟨rfl, rfl, rfl, by decide⟩

theorem lookup_use (verb : String) :
    actionsAliases.lookup verb = some "use" ↔ verb = "применить" ∨ verb = "использовать" := by
  constructor
  · intro h
    simp only [actionsAliases, List.lookup] at h
    repeat' split at h
    all_goals first
      | exact absurd h (by decide)
      | (rename_i heq; left; simpa using heq)
      | (rename_i heq; right; simpa using heq)
  · intro h
    rcases h with h | h <;> subst h <;> decide

theorem locked_go_door (s : State) (h : Locked s) (hroom : s.room = RoomPtr.corridor) :
    handleCommand "идти улица" s = ("дверь закрыта", s) ∧
    handleCommand "идти дверь" s = ("дверь закрыта", s) := by
  have h1 : split (Search.trimSpace "идти улица") = ["идти", "улица"] := by decide
  have h2 : split (Search.trimSpace "идти дверь") = ["идти", "дверь"] := by decide
  have h3 : actionsAliases.lookup "идти" = some "go" := by decide
  have h4 : ¬ (("go" : String) = "take") := by decide
  have h5 : ¬ (("go" : String) = "look") := by decide
  have h6 : ¬ (("дверь" : String) = "улица") := by decide
  have h7 : getObject (s.deref s.room) "дверь" = some lockedDoor := by
    rw [hroom]
    simp only [getObject, State.deref, h.2.1]
    decide
  constructor
  · simp only [handleCommand, resolveReaction, h1, h3, h4, h5, if_false, if_true, hroom,
      and_self]
    rw [hroom] at h7
    simp only [h7, handleObjectAction_go_lockedDoor]
  · simp only [handleCommand, resolveReaction, h2, h3, h4, h5, h6, if_false, if_true,
      false_and]
    simp only [h7, handleObjectAction_go_lockedDoor]

theorem usesKeysOnDoor_iff (c : String) :
    usesKeysOnDoor c = true ↔
      ∃ verb rest, split (Search.trimSpace c) = verb :: "ключи" :: "дверь" :: rest ∧
        (verb = "применить" ∨ verb = "использовать") := by
  unfold usesKeysOnDoor
  generalize split (Search.trimSpace c) = parts
  match parts with
  | [] => simp
  | [_] => simp
  | [_, _] => simp
  | verb :: item :: obj :: rest =>
    simp only [Bool.and_eq_true, decide_eq_true_eq, List.cons.injEq]
    constructor
    · rintro ⟨⟨h1, h2⟩, h3⟩
      exact ⟨verb, rest, ⟨rfl, h2, h3, rfl⟩, (lookup_use verb).mp h1⟩
    · rintro ⟨v, rs, ⟨h1, h2, h3, _⟩, h5⟩
      subst h1
      exact ⟨⟨(lookup_use verb).mpr h5, h2⟩, h3⟩

/-- C28, as stated: after the commands "идти коридор", "идти комната", "взять рюкзак",
"взять ключи", "идти коридор", "использовать ключи дверь", "идти улица" from `initGame` the
current room is the street, although no command of the sequence is "применить ключи дверь"
and none has the verb "применить": the door was opened by "использовать ключи дверь", which
was answered with "дверь открыта". -/
theorem street_without_primenit :
    (runCommands ["идти коридор", "идти комната", "взять рюкзак", "взять ключи",
      "идти коридор", "использовать ключи дверь", "идти улица"] initGame).room =
      RoomPtr.street ∧
    (∀ c, c ∈ ["идти коридор", "идти комната", "взять рюкзак", "взять ключи",
        "идти коридор", "использовать ключи дверь", "идти улица"] →
      c ≠ "применить ключи дверь" ∧
        (split (Search.trimSpace c)).head? ≠ some "применить") ∧
    (handleCommand "использовать ключи дверь"
      (runCommands ["идти коридор", "идти комната", "взять рюкзак", "взять ключи",
        "идти коридор"] initGame)).1 = "дверь открыта" := by
  decide

/-- C28, amended: in the state after any sequence of commands given to `handleCommand` from
`initGame`, the current room is the street only if an earlier command of the sequence
applied the keys to the door (its words are the verb "применить" or the verb
"использовать", then "ключи", then "дверь", possibly with further words after them), was
given in the corridor to a player holding "ключи", and was answered with "дверь открыта";
and as long as no command of the sequence has done so, "идти улица" and "идти дверь" given
in the corridor are answered with "дверь закрыта" and leave the whole state, the current room
included, as it is. -/
theorem street_needs_keys (cmds : List String) :
    ((runCommands cmds initGame).room = RoomPtr.street →
      ∃ pre c post, cmds = pre ++ c :: post ∧ usesKeysOnDoor c = true ∧
        (runCommands pre initGame).room = RoomPtr.corridor ∧
        hasItem "ключи" (runCommands pre initGame).player = true ∧
        (handleCommand c (runCommands pre initGame)).1 = "дверь открыта") ∧
    ((∀ pre c post, cmds = pre ++ c :: post → usesKeysOnDoor c = true →
        (handleCommand c (runCommands pre initGame)).1 ≠ "дверь открыта") →
      (runCommands cmds initGame).room = RoomPtr.corridor →
      handleCommand "идти улица" (runCommands cmds initGame) =
        ("дверь закрыта", runCommands cmds initGame) ∧
      handleCommand "идти дверь" (runCommands cmds initGame) =
        ("дверь закрыта", runCommands cmds initGame)) ∧
    (∀ c, usesKeysOnDoor c = true ↔
      ∃ verb rest, split (Search.trimSpace c) = verb :: "ключи" :: "дверь" :: rest ∧
        (verb = "применить" ∨ verb = "использовать")) := by
  refine ⟨?_, ?_, usesKeysOnDoor_iff⟩
  · intro hstreet
    rcases runCommands_locked cmds initGame initGame_locked with h | h
    · exact absurd hstreet h.2.2.2
    · exact h
  · intro hnone hroom
    rcases runCommands_locked cmds initGame initGame_locked with h | ⟨pre, c, post, h1, h2, _, _, h5⟩
    · exact locked_go_door _ h hroom
    · exact absurd h5 (hnone pre c post h1 h2)

theorem street_needs_keys_witness :
    (runCommands ["идти коридор", "идти комната", "взять рюкзак", "взять ключи",
      "идти коридор", "применить ключи дверь", "идти улица"] initGame).room =
      RoomPtr.street ∧
    (runCommands ["идти коридор", "идти комната", "взять рюкзак", "взять ключи",
      "идти коридор"] initGame).room = RoomPtr.corridor ∧
    handleCommand "идти улица"
      (runCommands ["идти коридор", "идти комната", "взять рюкзак", "взять ключи",
        "идти коридор"] initGame) =
      ("дверь закрыта",
        runCommands ["идти коридор", "идти комната", "взять рюкзак", "взять ключи",
          "идти коридор"] initGame) ∧
    (∃ pre c post,
      ["идти коридор", "идти комната", "взять рюкзак", "взять ключи", "идти коридор",
        "применить ключи дверь", "идти улица"] = pre ++ c :: post ∧
      usesKeysOnDoor c = true ∧
      (runCommands pre initGame).room = RoomPtr.corridor ∧
      hasItem "ключи" (runCommands pre initGame).player = true ∧
      (handleCommand c (runCommands pre initGame)).1 = "дверь открыта") :=
  ⟨by decide, by decide,
    ((street_needs_keys ["идти коридор", "идти комната", "взять рюкзак", "взять ключи",
      "идти коридор"]).2.1
      (by
        intro pre c post heq huse
        have hmem : c ∈ ["идти коридор", "идти комната", "взять рюкзак", "взять ключи",
            "идти коридор"] := by
          rw [heq]
          simp
        simp only [List.mem_cons, List.mem_singleton, List.not_mem_nil, or_false] at hmem
        rcases hmem with h | h | h | h | h <;> subst h <;> exact absurd huse (by decide))
      (by decide)).1,
    (street_needs_keys ["идти коридор", "идти комната", "взять рюкзак", "взять ключи",
      "идти коридор", "применить ключи дверь", "идти улица"]).1 (by decide)⟩

end Game
